import Mathlib

/-!
# Card game arbiter (`Assignment2/big2.c`): embedding and verified properties

The C program is embedded shallowly.  A card token is a C string, modelled as the
list of its characters without the terminating NUL; an array together with its
element count (`cards`/`card_count`, `my_cards`/`my_card_count`, a row of
`player_hands` with its entry of `player_cards`) is modelled as the list of its
first `count` entries.  C `int`s are `Int`, indices that are never negative are
`Nat`, and the `-1` sentinels are kept where the source returns them.

The second variant of the game (`Assignment2/playGame.c`) is embedded in the namespace
`PlayGame`, the booking system (`SPMS_G18.c`) in the namespace `SPMS`, in the same way.
-/

namespace Big2

/-! ## Card model -/

/-- `MAX_CARDS` of big2.c. -/
def MAX_CARDS : Nat := 52

/-- Character `s[i]` of a C string; the position after the last character holds NUL. -/
def cstr_at (s : List Char) (i : Nat) : Char := s.getD i (Char.ofNat 0)

/-- The token of the opening card, the literal "D3" of the source. -/
def D3 : List Char := ['D', '3']

/-- The sentinel "D0" that clears the current highest card. -/
def D0 : List Char := ['D', '0']

/-- The response literal "COMPLETE". -/
def COMPLETE : List Char := ['C', 'O', 'M', 'P', 'L', 'E', 'T', 'E']

/-- The response literal "PASS". -/
def PASS : List Char := ['P', 'A', 'S', 'S']

/-- Rank switch of `get_card_value` (big2.c 56-71) on the character `card[1]`: the local
`value`. -/
def rank_value (c : Char) : Int :=
  if c = '3' then 3 else if c = '4' then 4 else if c = '5' then 5
  else if c = '6' then 6 else if c = '7' then 7 else if c = '8' then 8
  else if c = '9' then 9 else if c = 'T' then 10 else if c = 'J' then 11
  else if c = 'Q' then 12 else if c = 'K' then 13 else if c = 'A' then 14
  else if c = '2' then 15 else 0

/-- Suit switch of `get_card_value` (big2.c 74-80) on the character `card[0]`: the local
`suit`. -/
def suit_value (c : Char) : Int :=
  if c = 'D' then 1 else if c = 'C' then 2 else if c = 'H' then 3
  else if c = 'S' then 4 else 0

/-- Function `get_card_value` (big2.c 49-84): `value * 10 + suit`. -/
def get_card_value (card : List Char) : Int :=
  rank_value (cstr_at card 1) * 10 + suit_value (cstr_at card 0)

/-- Rank sequence of the card model, low to high. -/
def rank_sequence : List Char :=
  ['3', '4', '5', '6', '7', '8', '9', 'T', 'J', 'Q', 'K', 'A', '2']

/-- Suit sequence of the card model, low to high. -/
def suit_sequence : List Char := ['D', 'C', 'H', 'S']

/-- One of the 52 valid cards: a two-character token, suit character first, rank second. -/
def valid_card (card : List Char) : Prop :=
  card.length = 2 ∧ cstr_at card 0 ∈ suit_sequence ∧ cstr_at card 1 ∈ rank_sequence

instance (card : List Char) : Decidable (valid_card card) := by
  unfold valid_card; infer_instance

/-- Symbol `x` comes strictly before `y` in the sequence `seq`. -/
def precedes (seq : List Char) (x y : Char) : Prop := seq.indexOf x < seq.indexOf y

instance (seq : List Char) (x y : Char) : Decidable (precedes seq x y) := by
  unfold precedes; infer_instance

/-! ## Deck preparation -/

/-- Function `is_duplicate` (big2.c 17-30): scans `cards[0 .. count)` for an entry equal
(`strcmp`) to `card`. -/
def is_duplicate : List (List Char) → Nat → List Char → Bool
  | _, 0, _ => false
  | [], _ + 1, _ => false
  | c :: cards, count + 1, card =>
    if c = card then true else is_duplicate cards count card

/-- Read loop of `main` (big2.c 172-180).  First argument: the tokens still on standard
input; second: `cards[0 .. card_count)`.  A token is consumed by `scanf` before
`card_count < MAX_CARDS` is tested. -/
def read_cards : List (List Char) → List (List Char) → List (List Char)
  | [], cards => cards
  | temp :: input, cards =>
    if cards.length < MAX_CARDS then
      if is_duplicate cards cards.length temp then read_cards input cards
      else read_cards input (cards ++ [temp])
    else cards

/-- Deal loop of `main` (big2.c 190-209).  First list: `cards[current_card .. card_count)`;
then `current_card`, the hands (row `p` is `player_hands[p][0 .. player_cards[p])`) and
`used_cards[0 .. used_count)`. -/
def deal_loop (num_players : Nat) :
    List (List Char) → Nat → List (List (List Char)) → List (List Char) →
      List (List (List Char))
  | [], _, player_hands, _ => player_hands
  | c :: rest, current_card, player_hands, used_cards =>
    let player := current_card % num_players
    if is_duplicate used_cards used_cards.length c then
      deal_loop num_players rest (current_card + 1) player_hands used_cards
    else
      deal_loop num_players rest (current_card + 1)
        (player_hands.modify (fun hand => hand ++ [c]) player) (used_cards ++ [c])

/-- Deck preparation of `main` (big2.c 172-209): read, then deal into `num_players` hands
that start empty. -/
def deal (num_players : Nat) (input : List (List Char)) : List (List (List Char)) :=
  deal_loop num_players (read_cards input []) 0 (List.replicate num_players []) []

/-- Search for the holder of D3 in `main` (big2.c 339-348), over the hands from index `i`
on: the first hand that contains the token "D3"; `none` stands for `start_player == -1`. -/
def find_start_player : List (List (List Char)) → Nat → Option Nat
  | [], _ => none
  | hand :: rest, i =>
    if hand.any (fun c => decide (c = D3)) then some i else find_start_player rest (i + 1)

/-! ## Player agent (child request loop) -/

/-- Loop of `find_min_card_index` (big2.c 96-102) over `cards[i .. card_count)`. -/
def find_min_card_index_loop : List (List Char) → Nat → Int → Nat → Nat
  | [], _, _, min_index => min_index
  | c :: cards, i, min_value, min_index =>
    if get_card_value c < min_value then
      find_min_card_index_loop cards (i + 1) (get_card_value c) i
    else find_min_card_index_loop cards (i + 1) min_value min_index

/-- Function `find_min_card_index` (big2.c 86-104). -/
def find_min_card_index (cards : List (List Char)) : Nat :=
  find_min_card_index_loop cards 0 9999 0

/-- Loop of `find_largest_card_index_greater_than` (big2.c 111-118) over
`cards[i .. card_count)`. -/
def find_largest_loop (target_value : Int) : List (List Char) → Nat → Int → Int → Int
  | [], _, _, min_index => min_index
  | c :: cards, i, min_value, min_index =>
    if get_card_value c > target_value ∧ get_card_value c < min_value then
      find_largest_loop target_value cards (i + 1) (get_card_value c) i
    else find_largest_loop target_value cards (i + 1) min_value min_index

/-- Function `find_largest_card_index_greater_than` (big2.c 106-120); `-1` when no card
is chosen. -/
def find_largest_card_index_greater_than (cards : List (List Char)) (target_value : Int) :
    Int :=
  find_largest_loop target_value cards 0 9999 (-1)

/-- Search for "D3" in the FIRST handler (big2.c 250-256) over `my_cards[j .. )`: the first
index holding D3, `-1` when there is none. -/
def find_D3_index : List (List Char) → Nat → Int
  | [], _ => -1
  | c :: cards, j => if c = D3 then (j : Int) else find_D3_index cards (j + 1)

/-- The command strings "FIRST", "PLAY" and "LEAD" of a `Message`. -/
inductive Command where
  | FIRST
  | PLAY
  | LEAD
  deriving DecidableEq

/-- The struct `Message` (big2.c 12-15). -/
structure Message where
  command : Command
  card : List Char
  deriving DecidableEq

/-- State of one child: `my_cards[0 .. my_card_count)` and whether its request loop is
still running (`false` after the `break` that follows COMPLETE). -/
structure Child where
  my_cards : List (List Char)
  running : Bool
  deriving DecidableEq

/-- Removal of `my_cards[k]` (big2.c 266-270, 291-295, 310-314): the entries after `k`
move down one place and `my_card_count` drops by one. -/
def remove_card_at (my_cards : List (List Char)) (k : Nat) : List (List Char) :=
  my_cards.eraseIdx k

/-- Handler of a FIRST request (big2.c 243-271): the bytes written to the parent and the
child afterwards. -/
def handle_FIRST (my_cards : List (List Char)) : List Char × Child :=
  if my_cards.length = 0 then (COMPLETE, ⟨my_cards, false⟩)
  else
    let k0 := find_D3_index my_cards 0
    let k : Nat := if k0 ≠ -1 then k0.toNat else find_min_card_index my_cards
    let card := my_cards.getD k []
    (card, ⟨remove_card_at my_cards k, true⟩)

/-- Handler of a PLAY request (big2.c 272-297). -/
def handle_PLAY (my_cards : List (List Char)) (msg_card : List Char) : List Char × Child :=
  if my_cards.length = 0 then (COMPLETE, ⟨my_cards, false⟩)
  else
    let last_card_value := get_card_value msg_card
    let k := find_largest_card_index_greater_than my_cards last_card_value
    if k = -1 then (PASS, ⟨my_cards, true⟩)
    else
      let card := my_cards.getD k.toNat []
      (card, ⟨remove_card_at my_cards k.toNat, true⟩)

/-- Handler of a LEAD request (big2.c 298-316). -/
def handle_LEAD (my_cards : List (List Char)) : List Char × Child :=
  if my_cards.length = 0 then (COMPLETE, ⟨my_cards, false⟩)
  else
    let k := find_min_card_index my_cards
    let card := my_cards.getD k []
    (card, ⟨remove_card_at my_cards k, true⟩)

/-- One turn of the child request loop (big2.c 238-317) on a received message. -/
def child_handle (my_cards : List (List Char)) (msg : Message) : List Char × Child :=
  match msg.command with
  | Command.FIRST => handle_FIRST my_cards
  | Command.PLAY => handle_PLAY my_cards msg.card
  | Command.LEAD => handle_LEAD my_cards

/-! ## Arbiter (parent loop) -/

/-- Variables of the parent loop of `main` (big2.c 355-365). -/
structure Arbiter where
  num_players : Nat
  current_player : Nat
  last_played_player : Nat
  completed : List Bool
  remaining_players : Int
  last_card_value : Int
  last_card : List Char
  round : Int
  pass_count : Int
  first_winner : Bool
  deriving DecidableEq

/-- Initialisation of the parent loop (big2.c 355-365). -/
def arbiter_init (num_players start_player : Nat) : Arbiter :=
  { num_players := num_players
    current_player := start_player
    last_played_player := start_player
    completed := List.replicate num_players false
    remaining_players := num_players
    last_card_value := 0
    last_card := D0
    round := 1
    pass_count := 0
    first_winner := false }

/-- Request selection (big2.c 376-386), evaluated after `round++`. -/
def select_message (s : Arbiter) : Message :=
  if s.round = 2 then ⟨Command.FIRST, []⟩
  else if s.pass_count = s.remaining_players - 1 then ⟨Command.LEAD, []⟩
  else ⟨Command.PLAY, s.last_card⟩

/-- Closed channel branch (big2.c 391-396): `read` returned no bytes. -/
def channel_closed (s : Arbiter) : Arbiter :=
  { s with
    completed := s.completed.set s.current_player true
    remaining_players := s.remaining_players - 1
    current_player := (s.current_player + 1) % s.num_players }

/-- Response classification (big2.c 399-422) on the string read from the child. -/
def classify (s : Arbiter) (response : List Char) : Arbiter :=
  if response = COMPLETE then
    { s with
      first_winner := true
      completed := s.completed.set s.current_player true
      remaining_players := s.remaining_players - 1
      current_player := (s.current_player + 1) % s.num_players }
  else if response = PASS then
    { s with
      pass_count := s.pass_count + 1
      current_player := (s.current_player + 1) % s.num_players }
  else
    { s with
      last_card := response
      last_card_value := get_card_value response
      last_played_player := s.current_player
      pass_count := 0
      current_player := (s.current_player + 1) % s.num_players }

/-- Trick reset check (big2.c 424-429). -/
def reset_check (s : Arbiter) : Arbiter :=
  if s.pass_count = s.remaining_players - 1 then
    { s with
      current_player := s.last_played_player
      pass_count := 0
      last_card_value := 0
      last_card := D0 }
  else s

/-- Rest of a loop iteration after the request was written (big2.c 390-429): `none` is a
`read` that returned no bytes, which leaves the iteration by `continue`. -/
def arbiter_respond (s : Arbiter) (response : Option (List Char)) : Arbiter :=
  match response with
  | none => channel_closed s
  | some r => reset_check (classify s r)

/-- Lines printed by the parent for the agents. -/
inductive Event where
  | winner (agent : Nat)
  | completes (agent : Nat)
  | passes (agent : Nat)
  | plays (agent : Nat) (card : List Char)
  | loser (agent : Nat)
  deriving DecidableEq

/-- Line printed while a response is classified (big2.c 399-414), for agent index
`current_player` (printed as `current_player + 1`). -/
def announce (s : Arbiter) (response : Option (List Char)) : List Event :=
  match response with
  | none => []
  | some r =>
    if r = COMPLETE then
      if s.first_winner then [Event.completes s.current_player]
      else [Event.winner s.current_player]
    else if r = PASS then [Event.passes s.current_player]
    else [Event.plays s.current_player r]

/-- Everything observed in a run of the parent loop: the requests in the order sent, each
with the agent index and the response read, and the lines printed. -/
structure Trace where
  requests : List (Nat × Message × Option (List Char))
  events : List Event
  deriving DecidableEq

/-- The statement `round++` (big2.c 374) with the counter as an integer without a bound;
`next_round32` is the statement on the 32-bit `int`, and the two agree as long as the
counter is below `INT_MAX`, which it is in every run of fewer than 2^31 - 1
iterations. -/
def next_round (s : Arbiter) : Arbiter := { s with round := s.round + 1 }

/-- Body of one iteration of the parent loop (big2.c 369-429).  The agents are any state
`σ` with a function giving the response of agent `i` to a message (`none`: `read` returned
no bytes).  A completed agent is skipped; otherwise `round++`, the request is selected
and written, and the response is read and processed. -/
def arbiter_iteration {σ : Type} (agent : σ → Nat → Message → σ × Option (List Char))
    (s : Arbiter) (a : σ) (t : Trace) : Arbiter × σ × Trace :=
  if s.completed.getD s.current_player false then
    ({ s with current_player := (s.current_player + 1) % s.num_players }, a, t)
  else
    let msg := select_message (next_round s)
    let r := agent a s.current_player msg
    (arbiter_respond (next_round s) r.2, r.1,
      { requests := t.requests ++ [(s.current_player, msg, r.2)]
        events := t.events ++ announce (next_round s) r.2 })

/-- Parent loop (big2.c 367-432) for at most `fuel` iterations.  Returns the arbiter, the
agents and the trace when the guard `remaining_players > 1` fails or the fuel is used
up. -/
def arbiter_loop {σ : Type} (agent : σ → Nat → Message → σ × Option (List Char)) :
    Nat → Arbiter → σ → Trace → Arbiter × σ × Trace
  | 0, s, a, t => (s, a, t)
  | fuel + 1, s, a, t =>
    if s.remaining_players > 1 then
      arbiter_loop agent fuel (arbiter_iteration agent s a t).1
        (arbiter_iteration agent s a t).2.1 (arbiter_iteration agent s a t).2.2
    else (s, a, t)

/-- The children as agents: child `i` answers by `child_handle`; a child that has left its
request loop has closed its pipe ends. -/
def children_agent (children : List Child) (i : Nat) (msg : Message) :
    List Child × Option (List Char) :=
  match children[i]? with
  | none => (children, none)
  | some c =>
    if c.running then
      let (response, c1) := child_handle c.my_cards msg
      (children.set i c1, some response)
    else (children, none)

/-- Outcome of the set-up of `main` (big2.c 166-365) for a player count in 1..52: the
no-opening-card abort, or the initial arbiter and children. -/
inductive Setup where
  | no_player_has_D3
  | started (start_player : Nat) (s : Arbiter) (children : List Child)
  deriving DecidableEq

/-- Set-up of `main`: deal, fork the children with their hands, search for D3. -/
def setup (num_players : Nat) (input : List (List Char)) : Setup :=
  let player_hands := deal num_players input
  match find_start_player player_hands 0 with
  | none => Setup.no_player_has_D3
  | some start_player =>
    Setup.started start_player (arbiter_init num_players start_player)
      (player_hands.map (fun hand => ⟨hand, true⟩))

/-- Loop of the loser report (big2.c 435-440) over `completed[i .. num_players)`. -/
def loser_report_loop : List Bool → Nat → List Event
  | [], _ => []
  | c :: rest, i => if !c then [Event.loser i] else loser_report_loop rest (i + 1)

/-- Loser report (big2.c 435-440): the first agent whose completed flag is clear. -/
def loser_report (s : Arbiter) : List Event :=
  loser_report_loop (s.completed.take s.num_players) 0

/-! ## Notions used in the statements -/

/-- Hand `p` at deal position `current_card`: entry `j` is `cards[p + j * N]` as long as
that index is below `current_card`. -/
def dealt_upto (N : Nat) (cards : List (List Char)) (c : Nat)
    (H : List (List (List Char))) : Prop :=
  ∀ p, p < N → ∀ j, (H.getD p [])[j]? = if p + j * N < c then cards[p + j * N]? else none

/-- Accepted tokens in the words of the deck preparation contract: going through the input
in order, a token is discarded exactly when it equals a token accepted earlier, and is
accepted (placed after the tokens accepted so far) otherwise. -/
def accepted_tokens : List (List Char) → List (List Char) → List (List Char)
  | [], accepted => accepted
  | t :: input, accepted =>
    if t ∈ accepted then accepted_tokens input accepted
    else accepted_tokens input (accepted ++ [t])

/-- The agent and message of the first request of a run. -/
def first_request (t : Trace) : Option (Nat × Message) :=
  t.requests.head?.map (fun r => (r.1, r.2.1))

/-- Trick leader after one more request: the agent of the request when it was answered by
a card (a response that is neither COMPLETE nor PASS), the leader so far otherwise. -/
def last_card_step (p : Nat) (r : Nat × Message × Option (List Char)) : Nat :=
  match r.2.2 with
  | some c => if c = COMPLETE ∨ c = PASS then p else r.1
  | none => p

/-- The agent of the most recent request that was answered by a card; `start` when no
card has been played. -/
def last_card_player (start : Nat) (requests : List (Nat × Message × Option (List Char))) :
    Nat :=
  requests.foldl last_card_step start

/-- The run of the parent loop from its initial state (big2.c 355-432) with starting
player `start_player`, stopped after at most `fuel` iterations. -/
def game_run {σ : Type} (agent : σ → Nat → Message → σ × Option (List Char))
    (num_players start_player : Nat) (a : σ) (fuel : Nat) : Arbiter × σ × Trace :=
  arbiter_loop agent fuel (arbiter_init num_players start_player) a ⟨[], []⟩

/-- Children of the three-player deal of the input D3 D4 D5 S2 C4 C5. -/
def three_player_children : List Child :=
  [⟨[D3, ['S', '2']], true⟩, ⟨[['D', '4'], ['C', '4']], true⟩,
    ⟨[['D', '5'], ['C', '5']], true⟩]

/-- The response ends the agent's part in the game: no bytes (closed channel) or
COMPLETE.  These are the responses after which the parent sets the completed flag. -/
def is_done (response : Option (List Char)) : Prop :=
  response = none ∨ response = some COMPLETE

instance (response : Option (List Char)) : Decidable (is_done response) := by
  unfold is_done; infer_instance

/-- The agents that answered COMPLETE, in the order of their responses. -/
def complete_agents (requests : List (Nat × Message × Option (List Char))) : List Nat :=
  (requests.filter (fun x => decide (x.2.2 = some COMPLETE))).map (fun x => x.1)

/-- The printed line is a winner or an ordinary completion line. -/
def is_completion_event : Event → Bool
  | Event.winner _ => true
  | Event.completes _ => true
  | _ => false

/-- The printed line is a winner line. -/
def is_winner_event : Event → Bool
  | Event.winner _ => true
  | _ => false

/-- Completion lines for agents that complete in the given order: the first is the
winner, every later one an ordinary completion. -/
def completion_announcements : List Nat → List Event
  | [] => []
  | w :: rest => Event.winner w :: rest.map Event.completes

/-- Well-formedness of the parent variables for `N` players: indices are in range, the
round counter has not gone below its initial value, and `remaining_players` is the
number of clear completed flags and is at least 1. -/
structure ArbiterOk (N : Nat) (s : Arbiter) : Prop where
  num : s.num_players = N
  len : s.completed.length = N
  cur : s.current_player < N
  last : s.last_played_player < N
  round : 1 ≤ s.round
  rem : s.remaining_players = (s.completed.count false : Int)
  rem_pos : 1 ≤ s.remaining_players

/-- Agreement of the parent variables with the trace of the run so far: the completed
flags are exactly the agents with a COMPLETE or closed-channel response, no request
followed such a response of the same agent, and the winner flag and the completion lines
follow the COMPLETE responses. -/
structure TraceOk (s : Arbiter) (t : Trace) : Prop where
  flagged : ∀ x ∈ t.requests, is_done x.2.2 → s.completed.getD x.1 false = true
  source : ∀ i, s.completed.getD i false = true →
    ∃ x ∈ t.requests, x.1 = i ∧ is_done x.2.2
  apart : t.requests.Pairwise (fun x y => is_done x.2.2 → y.1 ≠ x.1)
  winner_flag : s.first_winner = true ↔ complete_agents t.requests ≠ []
  events : t.events.filter is_completion_event
    = completion_announcements (complete_agents t.requests)

/-- Children of the two-player deal of the input D3 D4. -/
def two_player_children : List Child :=
  [⟨[D3], true⟩, ⟨[['D', '4']], true⟩]

/-- The hand of child `i`; empty for an index outside the children. -/
def hand_of (children : List Child) (i : Nat) : List (List Char) :=
  match children[i]? with
  | some c => c.my_cards
  | none => []

/-- Number of cards held by all children together. -/
def total_cards (children : List Child) : Nat :=
  (children.map (fun c => c.my_cards.length)).sum

/-- The 52 valid cards. -/
def all_valid_cards : List (List Char) :=
  suit_sequence.flatMap (fun s => rank_sequence.map (fun r => [s, r]))

/-- Agreement of the children with the parent variables in a game of valid cards: child `i`
is in its request loop exactly while its completed flag is clear, every card held is a
valid card, and `pass_count` stays below `remaining_players - 1` at a loop head. -/
structure ChildrenOk (N : Nat) (s : Arbiter) (children : List Child) : Prop where
  len : children.length = N
  running : ∀ i c, children[i]? = some c →
    (c.running = true ↔ s.completed.getD i false = false)
  valid : ∀ i, ∀ card ∈ hand_of children i, valid_card card
  pass_lo : 0 ≤ s.pass_count
  pass_hi : s.remaining_players > 1 → s.pass_count + 1 < s.remaining_players

/-- Number of turns from agent `cur` to agent `i` in the cyclic order of `N` agents. -/
def turn_distance (N cur i : Nat) : Nat :=
  if cur ≤ i then i - cur else i + N - cur

/-- First component of the termination measure: the cards still held plus the agents
still in the game.  Every card played and every COMPLETE lowers it. -/
def progress_measure (s : Arbiter) (children : List Child) : Nat :=
  total_cards children + s.remaining_players.toNat

/-- Second component of the termination measure: the passes that can still follow before
the trick is reset; none when the current highest card is the cleared card D0. -/
def pass_measure (s : Arbiter) : Nat :=
  if s.last_card = D0 then 0 else (s.remaining_players - s.pass_count).toNat

/-- Shape of the game while no agent has answered COMPLETE: every completed flag is
clear; either a trick is about to be led (the turn is the trick leader, no pass counted,
the highest card cleared) or the turn is `pass_count + 1` places after the trick leader;
and the agents that have passed in the current trick hold cards. -/
structure BeforeWinner (N : Nat) (s : Arbiter) (children : List Child) : Prop where
  flags : ∀ i, s.completed.getD i false = false
  rem : s.remaining_players = N
  trick : (s.current_player = s.last_played_player ∧ s.pass_count = 0 ∧ s.last_card = D0) ∨
    (turn_distance N s.last_played_player s.current_player : Int) = s.pass_count + 1
  zone : ∀ i, i < N → i ≠ s.last_played_player →
    (turn_distance N s.last_played_player i : Int) ≤ s.pass_count → hand_of children i ≠ []

/-- Agent `x` had an empty hand at every loop head up to the `k`-th at which agent `y`
had one, in the game of the children `children` started by agent `sp`. -/
def emptied_no_later (N sp : Nat) (children : List Child) (k x y : Nat) : Prop :=
  ∀ m, m ≤ k → hand_of (game_run children_agent N sp children m).2.1 y = [] →
    hand_of (game_run children_agent N sp children m).2.1 x = []

/-- Outcome of the start of `main` (big2.c 166-180). -/
inductive Entry where
  | invalid_player_count
  | deck_preparation (num_players : Nat) (cards : List (List Char))
  deriving DecidableEq

/-- Start of `main` (big2.c 166-180) for a command line with one argument whose `atoi`
value is `num_players`: the player count check, which returns 1 before the first `scanf`,
and after it the loop that reads the tokens of the input into `cards`. -/
def main_entry (num_players : Int) (input : List (List Char)) : Entry :=
  if num_players ≤ 0 ∨ num_players > 52 then Entry.invalid_player_count
  else Entry.deck_preparation num_players.toNat (read_cards input [])

/-- Children of the three-player deal of the input D3 XX YY. -/
def stuck_children : List Child :=
  [⟨[D3], true⟩, ⟨[['X', 'X']], true⟩, ⟨[['Y', 'Y']], true⟩]

/-- The value of a 32-bit two's complement `int` that holds the result `x` of an
addition: results beyond `INT_MAX` go on at `INT_MIN`. -/
def wrap32 (x : Int) : Int := (x + 2147483648) % 4294967296 - 2147483648

/-- The statement `round++` (big2.c 374) on the 32-bit `int round` (big2.c 159). -/
def next_round32 (s : Arbiter) : Arbiter := { s with round := wrap32 (s.round + 1) }

/-- Body of one iteration of the parent loop (big2.c 369-429) as `arbiter_iteration`, with
the round counter kept in 32 bits. -/
def arbiter_iteration32 {σ : Type} (agent : σ → Nat → Message → σ × Option (List Char))
    (s : Arbiter) (a : σ) (t : Trace) : Arbiter × σ × Trace :=
  if s.completed.getD s.current_player false then
    ({ s with current_player := (s.current_player + 1) % s.num_players }, a, t)
  else
    let msg := select_message (next_round32 s)
    let r := agent a s.current_player msg
    (arbiter_respond (next_round32 s) r.2, r.1,
      { requests := t.requests ++ [(s.current_player, msg, r.2)]
        events := t.events ++ announce (next_round32 s) r.2 })

/-- Parent loop (big2.c 367-432) for at most `fuel` iterations as `arbiter_loop`, with the
round counter kept in 32 bits. -/
def arbiter_loop32 {σ : Type} (agent : σ → Nat → Message → σ × Option (List Char)) :
    Nat → Arbiter → σ → Trace → Arbiter × σ × Trace
  | 0, s, a, t => (s, a, t)
  | fuel + 1, s, a, t =>
    if s.remaining_players > 1 then
      arbiter_loop32 agent fuel (arbiter_iteration32 agent s a t).1
        (arbiter_iteration32 agent s a t).2.1 (arbiter_iteration32 agent s a t).2.2
    else (s, a, t)

/-- The children of the run of `stuck_children` after agent 0 has answered COMPLETE. -/
def stuck_hands : List Child :=
  [⟨[], false⟩, ⟨[['X', 'X']], true⟩, ⟨[['Y', 'Y']], true⟩]

/-- The parent variables of the run of `stuck_children` after agent 0 has answered
COMPLETE, at a loop head with the turn at agent `turn` and the round counter at
`round`. -/
def stuck_state (turn : Nat) (round : Int) : Arbiter :=
  { num_players := 3
    current_player := turn
    last_played_player := 0
    completed := [true, false, false]
    remaining_players := 2
    last_card_value := 0
    last_card := D0
    round := round
    pass_count := 0
    first_winner := true }

/-- The trace of the run of `stuck_children` after its first four requests and `m`
further requests, each a PLAY request with the cleared card D0 to agent 1 answered by
PASS. -/
def stuck_trace (m : Nat) : Trace :=
  { requests :=
      [(0, ⟨Command.FIRST, []⟩, some D3), (1, ⟨Command.PLAY, D3⟩, some PASS),
        (2, ⟨Command.PLAY, D3⟩, some PASS), (0, ⟨Command.PLAY, D0⟩, some COMPLETE)]
        ++ List.replicate m (1, ⟨Command.PLAY, D0⟩, some PASS)
    events :=
      [Event.plays 0 D3, Event.passes 1, Event.passes 2, Event.winner 0]
        ++ List.replicate m (Event.passes 1) }

/-- An input of 53 different tokens with D3 in the last place: the valid cards other than
D3, the token XX, then D3. -/
def late_D3_input : List (List Char) :=
  all_valid_cards.erase D3 ++ [['X', 'X'], D3]

/-! ## The second variant (`Assignment2/playGame.c`) -/

namespace PlayGame

/-- The array `ranks` of `rank_order` with its terminating NUL, which `strchr` also
searches. -/
def ranks : List Char :=
  ['3', '4', '5', '6', '7', '8', '9', 'T', 'J', 'Q', 'K', 'A', '2', Char.ofNat 0]

/-- Function `rank_order` (playGame.c 15-19): the offset of `r` in `ranks`, `-1` when
`strchr` finds nothing. -/
def rank_order (r : Char) : Int :=
  if r ∈ ranks then (ranks.indexOf r : Int) else -1

/-- Function `suit_order` (playGame.c 23-31). -/
def suit_order (s : Char) : Int :=
  if s = 'S' then 3 else if s = 'H' then 2 else if s = 'C' then 1
  else if s = 'D' then 0 else -1

/-- Function `card_compare` (playGame.c 34-42). -/
def card_compare (a b : List Char) : Int :=
  let r1 := rank_order (cstr_at a 1)
  let r2 := rank_order (cstr_at b 1)
  if r1 ≠ r2 then r1 - r2
  else suit_order (cstr_at a 0) - suit_order (cstr_at b 0)

/-- Number of children, `NUM_CHILD`. -/
def NUM_CHILD : Nat := 4

/-- Cards of a hand, `HAND_SIZE`. -/
def HAND_SIZE : Nat := 13

/-- Cards of the deck, `TOTAL_CARDS`. -/
def TOTAL_CARDS : Nat := 52

/-- Inner loop of `sort_hand` (playGame.c 51-55) for the card `temp` taken from `hand[i]`.
The first list is `hand[j], hand[j-1], .., hand[0]`, the second the entries already moved
one place up, `hand[j+2 .. i]`; the result is `hand[0 .. i]` after `temp` is stored. -/
def sort_hand_shift (temp : List Char) :
    List (List Char) → List (List Char) → List (List Char)
  | [], moved => temp :: moved
  | h :: below, moved =>
    if card_compare h temp > 0 then sort_hand_shift temp below (h :: moved)
    else below.reverse ++ h :: temp :: moved

/-- Outer loop of `sort_hand` (playGame.c 48-56): `sorted` is `hand[0 .. i)`, the second
list `hand[i .. n)`. -/
def sort_hand_loop : List (List Char) → List (List Char) → List (List Char)
  | sorted, [] => sorted
  | sorted, temp :: rest => sort_hand_loop (sort_hand_shift temp sorted.reverse []) rest

/-- Function `sort_hand` (playGame.c 44-57): insertion sort, starting at `i = 1`. -/
def sort_hand : List (List Char) → List (List Char)
  | [] => []
  | c :: rest => sort_hand_loop [c] rest

/-- Function `remove_card` (playGame.c 59-66) for an index below the count: the entries
after `idx` move down one place and the count drops by one. -/
def remove_card (hand : List (List Char)) (idx : Nat) : List (List Char) :=
  hand.eraseIdx idx

/-- The string "ASK". -/
def ASK : List Char := ['A', 'S', 'K']

/-- The string "CARD". -/
def CARD : List Char := ['C', 'A', 'R', 'D']

/-- The string "RESET". -/
def RESET : List Char := ['R', 'E', 'S', 'E', 'T']

/-- The string "PLAY". -/
def PLAY : List Char := ['P', 'L', 'A', 'Y']

/-- The string "NO". -/
def NO : List Char := ['N', 'O']

/-- The message "ASK D3" of the parent. -/
def ASK_D3 : List Char := ['A', 'S', 'K', ' ', 'D', '3']

/-- The response "PLAY D3" to "ASK D3". -/
def PLAY_D3 : List Char := ['P', 'L', 'A', 'Y', ' ', 'D', '3']

/-- White space as `sscanf` skips it. -/
def isspace (c : Char) : Bool :=
  c = ' ' || c = '\t' || c = '\n' || c = Char.ofNat 11 || c = Char.ofNat 12 || c = '\r'

/-- The conversion `%2s` of `sscanf` after a matched literal and white space directive:
white space is skipped, then at most two characters up to the next white space are
stored.  When nothing is left to store `sscanf` assigns nothing and the C variable keeps
an indeterminate value; the model gives the empty string then. -/
def scan_2s (s : List Char) : List Char :=
  ((s.dropWhile isspace).takeWhile (fun c => !isspace c)).take 2

/-- The response written after a card was played (playGame.c 156-167, 184-195): with
" COMPLETE" appended when no card is left. -/
def play_response (played : List Char) (handCount : Nat) : List Char :=
  if handCount = 0 then PLAY ++ [' '] ++ played ++ [' '] ++ COMPLETE
  else PLAY ++ [' '] ++ played

/-- State of a child in its command loop: `hand[0 .. handCount)` and whether the loop is
still running (`false` after the `break` that follows COMPLETE). -/
structure Child where
  hand : List (List Char)
  running : Bool
  deriving DecidableEq

/-- Search loop of the CARD handler (playGame.c 141-148) over `hand[i .. handCount)`: the
first index whose card beats `current`. -/
def find_chosen (current : List Char) : List (List Char) → Nat → Option Nat
  | [], _ => none
  | h :: rest, i =>
    if rank_order (cstr_at h 1) > rank_order (cstr_at current 1) ∨
        (rank_order (cstr_at h 1) = rank_order (cstr_at current 1) ∧
          suit_order (cstr_at h 0) > suit_order (cstr_at current 0)) then some i
    else find_chosen current rest (i + 1)

/-- Search loop of the ASK handler (playGame.c 115-125): the first index holding "D3". -/
def find_D3 : List (List Char) → Nat → Option Nat
  | [], _ => none
  | h :: rest, i => if h = D3 then some i else find_D3 rest (i + 1)

/-- Handler of "ASK .." (playGame.c 112-134): the child afterwards and the bytes written
to the parent (`none`: nothing is written). -/
def handle_ASK (hand : List (List Char)) (buf : List Char) : Child × Option (List Char) :=
  if D3 <:+: buf then
    match find_D3 hand 0 with
    | some i => (⟨remove_card hand i, true⟩, some PLAY_D3)
    | none => (⟨hand, true⟩, some NO)
  else (⟨hand, true⟩, none)

/-- Handler of "CARD <card>" (playGame.c 136-174). -/
def handle_CARD (hand : List (List Char)) (buf : List Char) : Child × Option (List Char) :=
  let current := scan_2s (buf.drop 4)
  match find_chosen current hand 0 with
  | some chosen =>
    let played := hand.getD chosen []
    let hand1 := remove_card hand chosen
    (⟨hand1, decide (hand1.length ≠ 0)⟩, some (play_response played hand1.length))
  | none => (⟨hand, true⟩, some PASS)

/-- Handler of "RESET" (playGame.c 176-197). -/
def handle_RESET (hand : List (List Char)) : Child × Option (List Char) :=
  if hand.length > 0 then
    let played := hand.getD 0 []
    let hand1 := remove_card hand 0
    (⟨hand1, decide (hand1.length ≠ 0)⟩, some (play_response played hand1.length))
  else (⟨hand, true⟩, none)

/-- One turn of the command loop of `child_process` (playGame.c 106-198) on the received
bytes `buf`. -/
def child_command (hand : List (List Char)) (buf : List Char) :
    Child × Option (List Char) :=
  if buf.take 3 = ASK then handle_ASK hand buf
  else if buf.take 4 = CARD then handle_CARD hand buf
  else if buf.take 5 = RESET then handle_RESET hand
  else (⟨hand, true⟩, none)

/-- Variables of the game loop of `main` (playGame.c 328-334). -/
structure Parent where
  current_turn : Nat
  round_starter : Nat
  current_card : List Char
  pass_count : Int
  finished : List Bool
  finish_count : Int
  first_winner_reported : Bool
  deriving DecidableEq

/-- Command selection (playGame.c 341-352): the command and the parent after it. -/
def select_command (p : Parent) : List Char × Parent :=
  if p.first_winner_reported then (RESET, p)
  else if p.current_card.length > 0 then (CARD ++ [' '] ++ p.current_card, p)
  else (RESET, { p with round_starter := p.current_turn })

/-- Closed channel branch (playGame.c 357-362): `read` returned no bytes. -/
def read_failed (p : Parent) : Parent :=
  { p with
    finished := p.finished.set p.current_turn true
    finish_count := p.finish_count + 1
    current_turn := (p.current_turn + 1) % NUM_CHILD }

/-- Processing of a response (playGame.c 365-397). -/
def process_response (p : Parent) (resp : List Char) : Parent :=
  if resp.take 4 = PASS then
    let active_count : Int := ((p.finished.take NUM_CHILD).count false : Nat)
    if p.pass_count + 1 ≥ active_count - 1 then
      { p with current_card := [], pass_count := 0, current_turn := p.round_starter }
    else
      { p with
        pass_count := p.pass_count + 1
        current_turn := (p.current_turn + 1) % NUM_CHILD }
  else if resp.take 4 = PLAY then
    if COMPLETE <:+: resp then
      { p with
        round_starter := p.current_turn
        current_card := scan_2s (resp.drop 4)
        pass_count := 0
        finished := p.finished.set p.current_turn true
        finish_count := p.finish_count + 1
        first_winner_reported := true
        current_turn := (p.current_turn + 1) % NUM_CHILD }
    else
      { p with
        round_starter := p.current_turn
        current_card := scan_2s (resp.drop 4)
        pass_count := 0
        current_turn := (p.current_turn + 1) % NUM_CHILD }
  else { p with current_turn := (p.current_turn + 1) % NUM_CHILD }

/-- One request of the game loop as it is observed: the child asked, the command written,
the hand of the child when the command arrived, and the bytes read back (`none`: `read`
returned no bytes). -/
structure Move where
  child : Nat
  cmd : List Char
  hand : List (List Char)
  resp : Option (List Char)
  deriving DecidableEq

/-- The game: the parent variables, the four children, the requests so far, and whether
the parent waits in `read` for a child that wrote nothing. -/
structure Game where
  parent : Parent
  children : List Child
  moves : List Move
  blocked : Bool
  deriving DecidableEq

/-- Body of one iteration of the game loop (playGame.c 337-397) with the children as they
are: a finished child is skipped; otherwise the command is written to the child of the
turn, which answers by `child_command` if its loop is running; a child that has left its
loop has closed its pipe ends, and `read` returns no bytes. -/
def game_iteration (g : Game) : Game :=
  if g.parent.finished.getD g.parent.current_turn false then
    { g with
      parent := { g.parent with current_turn := (g.parent.current_turn + 1) % NUM_CHILD } }
  else
    let turn := g.parent.current_turn
    let cmd := (select_command g.parent).1
    let p := (select_command g.parent).2
    match g.children[turn]? with
    | none => g
    | some c =>
      if c.running then
        match (child_command c.hand cmd).2 with
        | some resp =>
          { parent := process_response p resp
            children := g.children.set turn (child_command c.hand cmd).1
            moves := g.moves ++ [⟨turn, cmd, c.hand, some resp⟩]
            blocked := false }
        | none =>
          { parent := p
            children := g.children.set turn (child_command c.hand cmd).1
            moves := g.moves
            blocked := true }
      else
        { parent := read_failed p
          children := g.children
          moves := g.moves ++ [⟨turn, cmd, c.hand, none⟩]
          blocked := false }

/-- Game loop (playGame.c 336-398) for at most `fuel` iterations; it stops when the guard
`finish_count < 3` fails, when the parent waits for bytes that never come, or when the
fuel is used up. -/
def game_loop : Nat → Game → Game
  | 0, g => g
  | fuel + 1, g =>
    if g.parent.finish_count < 3 ∧ g.blocked = false then game_loop fuel (game_iteration g)
    else g

/-- The child after its INIT message (playGame.c 82-94): at most `HAND_SIZE` cards are
taken and sorted. -/
def init_child (cards : List (List Char)) : Child :=
  ⟨sort_hand (cards.take HAND_SIZE), true⟩

/-- The hands sent to the children (playGame.c 295-306): child `i` gets
`deck[i * HAND_SIZE .. (i + 1) * HAND_SIZE)`. -/
def deal_hands (deck : List (List Char)) : List (List (List Char)) :=
  (List.range NUM_CHILD).map (fun i => (deck.drop (i * HAND_SIZE)).take HAND_SIZE)

/-- Loop that asks the children for D3 (playGame.c 309-319), with `n` children from index
`i` still to ask: the starting child and the children afterwards (`none` also when a
child writes nothing, which leaves the parent in `read`). -/
def ask_D3_loop : Nat → Nat → List Child → Option (Nat × List Child)
  | 0, _, _ => none
  | n + 1, i, children =>
    match children[i]? with
    | none => none
    | some c =>
      match (child_command c.hand ASK_D3).2 with
      | none => none
      | some resp =>
        if resp.take 7 = PLAY_D3 then
          some (i, children.set i (child_command c.hand ASK_D3).1)
        else ask_D3_loop n (i + 1) (children.set i (child_command c.hand ASK_D3).1)

/-- Set-up of `main` from the shuffled deck (playGame.c 279-334): `none` when the deck
does not hold 52 cards or no child has D3. -/
def start_game (deck : List (List Char)) : Option Game :=
  if deck.length ≠ TOTAL_CARDS then none
  else
    match ask_D3_loop NUM_CHILD 0 ((deal_hands deck).map init_child) with
    | none => none
    | some (starting_child, children) =>
      some
        { parent :=
            { current_turn := (starting_child + 1) % NUM_CHILD
              round_starter := starting_child
              current_card := D3
              pass_count := 0
              finished := List.replicate NUM_CHILD false
              finish_count := 0
              first_winner_reported := false }
          children := children
          moves := []
          blocked := false }

/-- The hand is in ascending order of `card_compare`: no card is above a later card. -/
def ascending (hand : List (List Char)) : Prop :=
  hand.Pairwise (fun a b => card_compare a b ≤ 0)

/-- The response of the move makes the parent report a winner or a completion
(playGame.c 379-395): the bytes start with "PLAY" and contain "COMPLETE". -/
def reports_completion (m : Move) : Prop :=
  ∃ r, m.resp = some r ∧ r.take 4 = PLAY ∧ COMPLETE <:+: r

/-- The move is a RESET request answered by playing the first card of the mover's hand,
a card that is not above any card of that hand. -/
def plays_smallest (m : Move) : Prop :=
  m.cmd = RESET ∧
  ∃ c rest, m.hand = c :: rest ∧ (∀ d ∈ m.hand, card_compare c d ≤ 0) ∧
    m.resp = some (play_response c rest.length)

/-- Well-formedness of the game at a loop head: four children and flags, indices in range,
every child whose finished flag is clear is in its command loop with a non-empty hand,
the hands are in ascending order, the parent is not waiting, the winner flag is set
exactly when some response so far reported a completion, and every move after such a
response played the smallest card on a RESET request. -/
structure GameOk (g : Game) : Prop where
  children : g.children.length = NUM_CHILD
  finished : g.parent.finished.length = NUM_CHILD
  turn : g.parent.current_turn < NUM_CHILD
  starter : g.parent.round_starter < NUM_CHILD
  active : ∀ (i : Nat) (c : Child), g.children[i]? = some c →
    g.parent.finished.getD i false = false → c.running = true ∧ c.hand ≠ []
  sorted : ∀ (i : Nat) (c : Child), g.children[i]? = some c → ascending c.hand
  running : g.blocked = false
  reported : g.parent.first_winner_reported = true ↔ ∃ m ∈ g.moves, reports_completion m
  later : g.moves.Pairwise (fun a b => reports_completion a → plays_smallest b)

/-- A game near its end: child 0 holds S2, the others two cards each, child 0 has just
played D3 and child 1 is to answer. -/
def short_game : Game :=
  { parent :=
      { current_turn := 1
        round_starter := 0
        current_card := D3
        pass_count := 0
        finished := List.replicate NUM_CHILD false
        finish_count := 0
        first_winner_reported := false }
    children := [⟨[['S', '2']], true⟩, ⟨[['D', '4'], ['C', '4']], true⟩,
      ⟨[['D', '5'], ['C', '5']], true⟩, ⟨[['D', '6'], ['C', '6']], true⟩]
    moves := []
    blocked := false }

end PlayGame

/-! ## Parking bookings (`SPMS_G18.c`) -/

namespace SPMS

/-- Size of the booking arrays, `MAX_BOOKINGS`. -/
def MAX_BOOKINGS : Nat := 200

/-- Parking slots, `PARKING_CAPACITY`. -/
def PARKING_CAPACITY : Nat := 10

/-- Pieces of every essential, `ESSENTIAL_CAPACITY`. -/
def ESSENTIAL_CAPACITY : Nat := 3

/-- The struct `Booking` (SPMS_G18.c 23-34) without the member name.  In place of the
strings `time` and the float `duration` it holds the two `int` values the availability
checks read from them: `start_hour` is `get_start_hour(time)` and `duration` is
`(int)(duration)`, for a duration whose integer part an `int` can hold.  An unset
essential is the empty string. -/
structure Booking where
  type : List Char
  date : List Char
  start_hour : Int
  duration : Int
  essential1 : List Char
  essential2 : List Char
  essential3 : List Char
  requires_parking : Bool
  accepted : Bool
  deriving DecidableEq

/-- The type string "Parking". -/
def str_Parking : List Char := ['P', 'a', 'r', 'k', 'i', 'n', 'g']

/-- The type string "Reservation". -/
def str_Reservation : List Char := ['R', 'e', 's', 'e', 'r', 'v', 'a', 't', 'i', 'o', 'n']

/-- The type string "Event". -/
def str_Event : List Char := ['E', 'v', 'e', 'n', 't']

/-- The type string "Essentials". -/
def str_Essentials : List Char := ['E', 's', 's', 'e', 'n', 't', 'i', 'a', 'l', 's']

/-- Function `get_priority` (SPMS_G18.c 59-70). -/
def get_priority (b : Booking) : Int :=
  if b.type = str_Event then 3
  else if b.type = str_Reservation then 2
  else if b.type = str_Parking then 1
  else if b.type = str_Essentials then 0
  else 0

/-- Function `times_overlap` (SPMS_G18.c 100-106); the two end hours are sums of 32-bit
`int`s. -/
def times_overlap (b1 b2 : Booking) : Bool :=
  let start1 := b1.start_hour
  let start2 := b2.start_hour
  let end1 := wrap32 (start1 + b1.duration)
  let end2 := wrap32 (start2 + b2.duration)
  decide (start1 < end2) && decide (start2 < end1)

/-- Function `essential_requested` (SPMS_G18.c 109-115). -/
def essential_requested (b : Booking) (ess : List Char) : Bool :=
  (decide (b.essential1.length > 0) && decide (b.essential1 = ess)) ||
  (decide (b.essential2.length > 0) && decide (b.essential2 = ess)) ||
  (decide (b.essential3.length > 0) && decide (b.essential3 = ess))

/-- The counting loop for the parking slots (SPMS_G18.c 121-129, 179-187, 278-287) over
the given bookings. -/
def count_parking (bookings : List Booking) (newBooking : Booking) : Nat :=
  bookings.countP (fun b =>
    b.accepted && decide (b.date = newBooking.date) && b.requires_parking &&
      times_overlap b newBooking)

/-- The counting loop for one essential (SPMS_G18.c 134-142, 192-200, 305-314) over the
given bookings. -/
def count_essential (bookings : List Booking) (newBooking : Booking) (ess : List Char) :
    Nat :=
  bookings.countP (fun b =>
    b.accepted && decide (b.date = newBooking.date) && times_overlap b newBooking &&
      essential_requested b ess)

/-- Function `check_availability` (SPMS_G18.c 117-173) on the global bookings
`bookings[0 .. bookingCount)`. -/
def check_availability (bookings : List Booking) (newBooking : Booking) : Bool :=
  if newBooking.requires_parking = true ∧
      count_parking bookings newBooking ≥ PARKING_CAPACITY then false
  else if newBooking.essential1.length > 0 ∧
      count_essential bookings newBooking newBooking.essential1 ≥ ESSENTIAL_CAPACITY then
    false
  else if newBooking.essential2.length > 0 ∧
      count_essential bookings newBooking newBooking.essential2 ≥ ESSENTIAL_CAPACITY then
    false
  else if newBooking.essential3.length > 0 ∧
      count_essential bookings newBooking newBooking.essential3 ≥ ESSENTIAL_CAPACITY then
    false
  else true

/-- Function `check_availability_temp` (SPMS_G18.c 175-231): the same checks on
`tempBookings[0 .. count)`. -/
def check_availability_temp (tempBookings : List Booking) (count : Nat)
    (newBooking : Booking) : Bool :=
  if newBooking.requires_parking = true ∧
      count_parking (tempBookings.take count) newBooking ≥ PARKING_CAPACITY then false
  else if newBooking.essential1.length > 0 ∧
      count_essential (tempBookings.take count) newBooking newBooking.essential1
        ≥ ESSENTIAL_CAPACITY then
    false
  else if newBooking.essential2.length > 0 ∧
      count_essential (tempBookings.take count) newBooking newBooking.essential2
        ≥ ESSENTIAL_CAPACITY then
    false
  else if newBooking.essential3.length > 0 ∧
      count_essential (tempBookings.take count) newBooking newBooking.essential3
        ≥ ESSENTIAL_CAPACITY then
    false
  else true

/-- The four booking commands. -/
inductive CommandName where
  | addParking
  | addReservation
  | addEvent
  | bookEssentials
  deriving DecidableEq

/-- A booking command line with its member, date, time and duration tokens present (a
line that lacks one of them changes nothing) and every token short enough for its field:
the date token, the hour of the time token, the integer part of the duration token, and
the tokens that follow, which `strtok` never returns empty. -/
structure Request where
  name : CommandName
  date : List Char
  start_hour : Int
  duration : Int
  tokens : List (List Char)
  deriving DecidableEq

/-- The end of the four `process_add..` functions (SPMS_G18.c 424-425 and alike): the
booking is checked against the bookings so far and stored behind them. -/
def store_booking (bookings : List Booking) (b : Booking) : List Booking :=
  bookings ++ [{ b with accepted := check_availability bookings b }]

/-- Function `process_addParking` (SPMS_G18.c 396-427). -/
def process_addParking (bookings : List Booking) (c : Request) : List Booking :=
  store_booking bookings
    { type := str_Parking
      date := c.date
      start_hour := c.start_hour
      duration := c.duration
      essential1 := c.tokens.getD 0 []
      essential2 := c.tokens.getD 1 []
      essential3 := []
      requires_parking := true
      accepted := false }

/-- Function `process_addReservation` (SPMS_G18.c 430-461). -/
def process_addReservation (bookings : List Booking) (c : Request) : List Booking :=
  store_booking bookings
    { type := str_Reservation
      date := c.date
      start_hour := c.start_hour
      duration := c.duration
      essential1 := c.tokens.getD 0 []
      essential2 := c.tokens.getD 1 []
      essential3 := []
      requires_parking := true
      accepted := false }

/-- Function `process_addEvent` (SPMS_G18.c 464-499). -/
def process_addEvent (bookings : List Booking) (c : Request) : List Booking :=
  store_booking bookings
    { type := str_Event
      date := c.date
      start_hour := c.start_hour
      duration := c.duration
      essential1 := c.tokens.getD 0 []
      essential2 := c.tokens.getD 1 []
      essential3 := c.tokens.getD 2 []
      requires_parking := true
      accepted := false }

/-- Function `process_bookEssentials` (SPMS_G18.c 502-529). -/
def process_bookEssentials (bookings : List Booking) (c : Request) : List Booking :=
  store_booking bookings
    { type := str_Essentials
      date := c.date
      start_hour := c.start_hour
      duration := c.duration
      essential1 := c.tokens.getD 0 []
      essential2 := []
      essential3 := []
      requires_parking := false
      accepted := false }

/-- The booking branches of `process_command` (SPMS_G18.c 1060-1067). -/
def process_command (bookings : List Booking) (c : Request) : List Booking :=
  match c.name with
  | CommandName.addParking => process_addParking bookings c
  | CommandName.addReservation => process_addReservation bookings c
  | CommandName.addEvent => process_addEvent bookings c
  | CommandName.bookEssentials => process_bookEssentials bookings c

/-- The bookings after a sequence of booking commands, starting from `bookings`. -/
def process_commands (bookings : List Booking) (commands : List Request) : List Booking :=
  commands.foldl process_command bookings

/-- A revoking loop of `simulate_PRIO` (SPMS_G18.c 289-300, 316-327, 343-354, 370-381)
for booking `i`, here `newBooking`, with `n` indices from `j` on still to visit: an
accepted booking that uses the exhausted resource (`uses`), is on the same date,
overlaps and has a lower priority is revoked, and the loop is left as soon as the new
booking fits. -/
def revoke_loop (uses : Booking → Bool) (newBooking : Booking) (i : Nat) :
    Nat → Nat → List Booking → List Booking
  | 0, _, dest => dest
  | n + 1, j, dest =>
    match dest[j]? with
    | none => dest
    | some b =>
      if b.accepted = true ∧ b.date = newBooking.date ∧ uses b = true ∧
          times_overlap b newBooking = true ∧ get_priority b < get_priority newBooking then
        if check_availability_temp (dest.set j { b with accepted := false }) i newBooking
        then dest.set j { b with accepted := false }
        else revoke_loop uses newBooking i n (j + 1) (dest.set j { b with accepted := false })
      else revoke_loop uses newBooking i n (j + 1) dest

/-- The pre-emption block of `simulate_PRIO` for the parking slots (SPMS_G18.c 277-302). -/
def preempt_parking (dest : List Booking) (i : Nat) (newBooking : Booking) : List Booking :=
  if newBooking.requires_parking = true ∧
      count_parking (dest.take i) newBooking ≥ PARKING_CAPACITY then
    revoke_loop (fun b => b.requires_parking) newBooking i i 0 dest
  else dest

/-- The pre-emption block of `simulate_PRIO` for one essential (SPMS_G18.c 304-329,
331-356, 358-383). -/
def preempt_essential (ess : List Char) (dest : List Booking) (i : Nat)
    (newBooking : Booking) : List Booking :=
  if ess.length > 0 ∧ count_essential (dest.take i) newBooking ess ≥ ESSENTIAL_CAPACITY then
    revoke_loop (fun b => essential_requested b ess) newBooking i i 0 dest
  else dest

/-- Body of the main loop of `simulate_PRIO` (SPMS_G18.c 272-389) for booking `i`. -/
def simulate_PRIO_step (dest : List Booking) (i : Nat) : List Booking :=
  match dest[i]? with
  | none => dest
  | some b =>
    if check_availability_temp dest i b then dest.set i { b with accepted := true }
    else
      let dest1 := preempt_parking dest i b
      let dest2 := preempt_essential b.essential1 dest1 i b
      let dest3 := preempt_essential b.essential2 dest2 i b
      let dest4 := preempt_essential b.essential3 dest3 i b
      dest4.set i { b with accepted := check_availability_temp dest4 i b }

/-- Function `simulate_PRIO` (SPMS_G18.c 263-391): the array `dest` when it returns. -/
def simulate_PRIO (src : List Booking) (count : Nat) : List Booking :=
  (List.range count).foldl simulate_PRIO_step
    ((src.take count).map (fun b => { b with accepted := false }))

/-- The booking covers the hour `h`: `h` is at or after its start hour and before its end
`start_hour + duration`. -/
def covers (b : Booking) (h : Int) : Bool :=
  decide (b.start_hour ≤ h) && decide (h < b.start_hour + b.duration)

/-- Number of accepted bookings that require a parking slot and cover hour `h` of
`date`. -/
def parking_load (bookings : List Booking) (date : List Char) (h : Int) : Nat :=
  bookings.countP (fun b =>
    b.accepted && b.requires_parking && decide (b.date = date) && covers b h)

/-- Number of accepted bookings that request the essential `ess` and cover hour `h` of
`date`. -/
def essential_load (bookings : List Booking) (date ess : List Char) (h : Int) : Nat :=
  bookings.countP (fun b =>
    b.accepted && essential_requested b ess && decide (b.date = date) && covers b h)

/-- The end hour `start_hour + duration` of the command is within the range of a 32-bit
`int`. -/
def end_in_range (c : Request) : Prop :=
  -2147483648 ≤ c.start_hour + c.duration ∧ c.start_hour + c.duration ≤ 2147483647

instance (c : Request) : Decidable (end_in_range c) := by
  unfold end_in_range; infer_instance

/-- The end hour of the booking as `times_overlap` computes it is the sum
`start_hour + duration`. -/
def end_exact (b : Booking) : Prop :=
  wrap32 (b.start_hour + b.duration) = b.start_hour + b.duration

/-- The date "2025-05-10". -/
def may_10 : List Char := ['2', '0', '2', '5', '-', '0', '5', '-', '1', '0']

/-- The essential name "battery". -/
def battery : List Char := ['b', 'a', 't', 't', 'e', 'r', 'y']

/-- Eleven commands for 09:00 to 11:00 of one date: three addEvent with the essential
"battery", seven addParking without essentials, one addReservation with "battery". -/
def prio_input : List Request :=
  [⟨CommandName.addEvent, may_10, 9, 2, [battery]⟩,
    ⟨CommandName.addEvent, may_10, 9, 2, [battery]⟩,
    ⟨CommandName.addEvent, may_10, 9, 2, [battery]⟩,
    ⟨CommandName.addParking, may_10, 9, 2, []⟩,
    ⟨CommandName.addParking, may_10, 9, 2, []⟩,
    ⟨CommandName.addParking, may_10, 9, 2, []⟩,
    ⟨CommandName.addParking, may_10, 9, 2, []⟩,
    ⟨CommandName.addParking, may_10, 9, 2, []⟩,
    ⟨CommandName.addParking, may_10, 9, 2, []⟩,
    ⟨CommandName.addParking, may_10, 9, 2, []⟩,
    ⟨CommandName.addReservation, may_10, 9, 2, [battery]⟩]

/-- Eleven addParking commands for one date with the time token "999:0" and the duration
token "2147483520", a value that a float and an `int` hold exactly: the end hour
999 + 2147483520 is beyond `INT_MAX`. -/
def overflow_input : List Request :=
  List.replicate 11 ⟨CommandName.addParking, may_10, 999, 2147483520, []⟩

end SPMS

/-! ## Theorems -/

theorem rank_value_of_mem {r : Char} (h : r ∈ rank_sequence) :
    rank_value r = (rank_sequence.indexOf r : Int) + 3 := by
  simp only [rank_sequence, List.mem_cons, List.mem_singleton, List.not_mem_nil, or_false] at h
  rcases h with h | h | h | h | h | h | h | h | h | h | h | h | h <;> subst h <;> decide

theorem suit_value_of_mem {s : Char} (h : s ∈ suit_sequence) :
    suit_value s = (suit_sequence.indexOf s : Int) + 1 := by
  simp only [suit_sequence, List.mem_cons, List.mem_singleton, List.not_mem_nil, or_false] at h
  rcases h with h | h | h | h <;> subst h <;> decide

theorem get_card_value_of_valid {card : List Char} (h : valid_card card) :
    get_card_value card
      = ((rank_sequence.indexOf (cstr_at card 1) : Int) + 3) * 10
        + ((suit_sequence.indexOf (cstr_at card 0) : Int) + 1) := by
  obtain ⟨_, hs, hr⟩ := h
  simp only [get_card_value]
  rw [rank_value_of_mem hr, suit_value_of_mem hs]

theorem ite_bounds (p : Prop) [Decidable p] (a b lo hi : Int)
    (ha : lo ≤ a ∧ a ≤ hi) (hb : lo ≤ b ∧ b ≤ hi) :
    lo ≤ (if p then a else b) ∧ (if p then a else b) ≤ hi := by
  by_cases h : p
  · rw [if_pos h]; exact ha
  · rw [if_neg h]; exact hb

theorem rank_value_bounds (c : Char) : 0 ≤ rank_value c ∧ rank_value c ≤ 15 := by
  unfold rank_value
  repeat (refine ite_bounds _ _ _ _ _ (by omega) ?_)
  omega

theorem suit_value_bounds (c : Char) : 0 ≤ suit_value c ∧ suit_value c ≤ 4 := by
  unfold suit_value
  repeat (refine ite_bounds _ _ _ _ _ (by omega) ?_)
  omega

theorem get_card_value_bounds (card : List Char) :
    0 ≤ get_card_value card ∧ get_card_value card ≤ 154 := by
  have h1 := rank_value_bounds (cstr_at card 1)
  have h2 := suit_value_bounds (cstr_at card 0)
  unfold get_card_value
  omega

theorem suit_index_lt {s : Char} (h : s ∈ suit_sequence) : suit_sequence.indexOf s < 4 := by
  have := List.indexOf_lt_length.2 h
  simpa [suit_sequence] using this

theorem card_eq_of_chars {a b : List Char} (ha : a.length = 2) (hb : b.length = 2)
    (h0 : cstr_at a 0 = cstr_at b 0) (h1 : cstr_at a 1 = cstr_at b 1) : a = b := by
  match a, b, ha, hb with
  | [a0, a1], [b0, b1], _, _ =>
    simp [cstr_at] at h0 h1
    simp [h0, h1]

/-- C1: `get_card_value` orders the 52 valid cards by rank first (sequence
3,4,5,6,7,8,9,T,J,Q,K,A,2) and suit second (sequence D,C,H,S), and two different valid
cards never have the same value. -/
theorem get_card_value_rank_then_suit (a b : List Char)
    (ha : valid_card a) (hb : valid_card b) :
    (get_card_value a < get_card_value b ↔
      (precedes rank_sequence (cstr_at a 1) (cstr_at b 1) ∨
        (cstr_at a 1 = cstr_at b 1 ∧ precedes suit_sequence (cstr_at a 0) (cstr_at b 0))))
    ∧ (a ≠ b → get_card_value a ≠ get_card_value b) := by
  rw [get_card_value_of_valid ha, get_card_value_of_valid hb]
  have hsa := suit_index_lt ha.2.1
  have hsb := suit_index_lt hb.2.1
  have hrinj := List.indexOf_inj ha.2.2 hb.2.2
  have hsinj := List.indexOf_inj ha.2.1 hb.2.1
  unfold precedes
  constructor
  · constructor
    · intro h
      by_cases hr : rank_sequence.indexOf (cstr_at a 1) = rank_sequence.indexOf (cstr_at b 1)
      · right
        refine ⟨hrinj.1 hr, ?_⟩
        omega
      · left
        omega
    · rintro (h | ⟨h1, h2⟩)
      · omega
      · rw [h1]
        omega
  · intro hne heq
    apply hne
    have hr : rank_sequence.indexOf (cstr_at a 1) = rank_sequence.indexOf (cstr_at b 1) := by
      omega
    have hs : suit_sequence.indexOf (cstr_at a 0) = suit_sequence.indexOf (cstr_at b 0) := by
      omega
    exact card_eq_of_chars ha.1 hb.1 (hsinj.1 hs) (hrinj.1 hr)

/-- Witness of C1 at the cards D3 and C3 (same rank, D before C). -/
theorem get_card_value_rank_then_suit_witness :
    (get_card_value ['D', '3'] < get_card_value ['C', '3'] ↔
      (precedes rank_sequence (cstr_at ['D', '3'] 1) (cstr_at ['C', '3'] 1) ∨
        (cstr_at ['D', '3'] 1 = cstr_at ['C', '3'] 1 ∧
          precedes suit_sequence (cstr_at ['D', '3'] 0) (cstr_at ['C', '3'] 0))))
    ∧ (['D', '3'] ≠ ['C', '3'] → get_card_value ['D', '3'] ≠ get_card_value ['C', '3']) :=
  get_card_value_rank_then_suit ['D', '3'] ['C', '3'] (by decide) (by decide)

/-! ### Deck preparation -/

theorem is_duplicate_length_iff (cards : List (List Char)) (card : List Char) :
    is_duplicate cards cards.length card = true ↔ card ∈ cards := by
  induction cards with
  | nil => simp [is_duplicate]
  | cons c cs ih =>
    simp only [List.length_cons, is_duplicate, List.mem_cons]
    by_cases h : c = card
    · simp [h]
    · simp only [h, if_false, ih]
      constructor
      · intro hm; exact Or.inr hm
      · rintro (h1 | h1)
        · exact absurd h1.symm h
        · exact h1

theorem read_cards_nodup (input cards : List (List Char)) (h : cards.Nodup) :
    (read_cards input cards).Nodup := by
  induction input generalizing cards with
  | nil => simpa [read_cards] using h
  | cons x xs ih =>
    simp only [read_cards]
    split
    · split
      · exact ih cards h
      · rename_i hd
        apply ih
        have hx : x ∉ cards := fun hm => hd ((is_duplicate_length_iff cards x).2 hm)
        exact List.Nodup.append h (List.nodup_singleton x) (by simpa using hx)
    · exact h

theorem read_cards_mem (input cards : List (List Char))
    (hlen : cards.length + input.length ≤ MAX_CARDS) (t : List Char) :
    t ∈ read_cards input cards ↔ t ∈ cards ∨ t ∈ input := by
  induction input generalizing cards with
  | nil => simp [read_cards]
  | cons x xs ih =>
    simp only [List.length_cons] at hlen
    have hlt : cards.length < MAX_CARDS := by omega
    simp only [read_cards, hlt, if_true, List.mem_cons]
    split
    · rename_i hd
      have hx := (is_duplicate_length_iff cards x).1 hd
      rw [ih cards (by omega)]
      constructor
      · rintro (h | h)
        · exact Or.inl h
        · exact Or.inr (Or.inr h)
      · rintro (h | h | h)
        · exact Or.inl h
        · exact Or.inl (h ▸ hx)
        · exact Or.inr h
    · rw [ih (cards ++ [x]) (by simp; omega)]
      simp only [List.mem_append, List.mem_singleton]
      tauto

theorem modify_append_flatten_perm (x : List Char) (H : List (List (List Char))) (p : Nat)
    (hp : p < H.length) :
    (H.modify (fun hand => hand ++ [x]) p).flatten.Perm (H.flatten ++ [x]) := by
  induction H generalizing p with
  | nil => simp at hp
  | cons h hs ih =>
    cases p with
    | zero =>
      simp only [List.modify_zero_cons, List.flatten_cons, List.append_assoc]
      exact List.Perm.append_left h List.perm_append_comm
    | succ p =>
      simp only [List.modify_succ_cons, List.flatten_cons, List.append_assoc]
      exact List.Perm.append_left h (ih p (by simpa using hp))

theorem deal_loop_perm (N : Nat) (hN : 0 < N) (rest : List (List Char)) :
    ∀ (c : Nat) (H : List (List (List Char))) (U : List (List Char)),
      (U ++ rest).Nodup → H.length = N →
      (deal_loop N rest c H U).length = N ∧
        (deal_loop N rest c H U).flatten.Perm (H.flatten ++ rest) := by
  induction rest with
  | nil => intro c H U _ hH; simp [deal_loop, hH]
  | cons x rest ih =>
    intro c H U hnd hH
    have hx : x ∉ U := by
      intro hm
      have := List.nodup_append.1 hnd
      exact this.2.2 hm (List.mem_cons_self x rest) 
    have hd : is_duplicate U U.length x = false := by
      cases hd : is_duplicate U U.length x with
      | false => rfl
      | true => exact absurd ((is_duplicate_length_iff U x).1 hd) hx
    simp only [deal_loop, hd]
    have hnd2 : ((U ++ [x]) ++ rest).Nodup := by simpa using hnd
    have hlen : (H.modify (fun hand => hand ++ [x]) (c % N)).length = N := by simp [hH]
    obtain ⟨h1, h2⟩ := ih (c + 1) _ (U ++ [x]) hnd2 hlen
    refine ⟨h1, h2.trans ?_⟩
    have hp := modify_append_flatten_perm x H (c % N) (by rw [hH]; exact Nat.mod_lt _ hN)
    have := List.Perm.append_right rest hp
    simpa using this

theorem dealt_upto_step (N : Nat) (hN : 0 < N) (cards : List (List Char)) (c : Nat)
    (H : List (List (List Char))) (x : List Char) (hH : H.length = N)
    (hx : cards[c]? = some x) (hP : dealt_upto N cards c H) :
    dealt_upto N cards (c + 1) (H.modify (fun hand => hand ++ [x]) (c % N)) := by
  have hc : c < cards.length := by
    by_contra hcon
    rw [List.getElem?_eq_none (Nat.not_lt.1 hcon)] at hx
    exact Option.noConfusion hx
  have hr : c % N < N := Nat.mod_lt _ hN
  have hdecomp : c % N + (c / N) * N = c := by
    have := Nat.mod_add_div c N
    rw [Nat.mul_comm] at this
    exact this
  have hlen : (H.getD (c % N) []).length = c / N := by
    have hle : (H.getD (c % N) []).length ≤ c / N := by
      have := hP (c % N) hr (c / N)
      rw [hdecomp, if_neg (Nat.lt_irrefl c)] at this
      exact List.getElem?_eq_none_iff.1 this
    have hge : c / N ≤ (H.getD (c % N) []).length := by
      by_contra hcon
      have hlt : (H.getD (c % N) []).length < c / N := Nat.not_le.1 hcon
      have h1 := hP (c % N) hr (H.getD (c % N) []).length
      have hmul : ((H.getD (c % N) []).length + 1) * N ≤ (c / N) * N :=
        Nat.mul_le_mul_right N hlt
      have hidx : c % N + (H.getD (c % N) []).length * N < c := by
        rw [Nat.add_mul, Nat.one_mul] at hmul
        omega
      rw [if_pos hidx, List.getElem?_eq_none (Nat.le_refl _)] at h1
      rw [List.getElem?_eq_getElem (by omega)] at h1
      exact Option.noConfusion h1
    omega
  intro p hp j
  have hpH : p < H.length := by omega
  by_cases hpr : p = c % N
  · subst hpr
    have hget : (H.modify (fun hand => hand ++ [x]) (c % N)).getD (c % N) []
        = H.getD (c % N) [] ++ [x] := by
      simp [List.getD_eq_getElem?_getD, List.getElem?_modify_eq, List.getElem?_eq_getElem hpH]
    rw [hget, List.getElem?_append]
    by_cases hj : j < c / N
    · have hmul : (j + 1) * N ≤ (c / N) * N := Nat.mul_le_mul_right N hj
      rw [Nat.add_mul, Nat.one_mul] at hmul
      have hidx : c % N + j * N < c := by omega
      rw [if_pos (by omega), hP _ hr j, if_pos hidx, if_pos (by omega)]
    · rw [if_neg (by omega)]
      by_cases hj2 : j = c / N
      · subst hj2
        rw [hlen, Nat.sub_self, hdecomp, if_pos (Nat.lt_succ_self c), hx]
        rfl
      · have hj3 : c / N + 1 ≤ j := by omega
        have hmul : (c / N + 1) * N ≤ j * N := Nat.mul_le_mul_right N hj3
        rw [Nat.add_mul, Nat.one_mul] at hmul
        rw [if_neg (by omega)]
        have : 1 ≤ j - (H.getD (c % N) []).length := by omega
        rw [List.getElem?_eq_none (by simpa using this)]
  · have hget : (H.modify (fun hand => hand ++ [x]) (c % N)).getD p [] = H.getD p [] := by
      simp [List.getD_eq_getElem?_getD, List.getElem?_modify_ne _ _ (Ne.symm hpr)]
    rw [hget, hP p hp j]
    have hne : p + j * N ≠ c := by
      intro heq
      apply hpr
      rw [← heq, Nat.add_mul_mod_self_right, Nat.mod_eq_of_lt hp]
    by_cases h1 : p + j * N < c
    · rw [if_pos h1, if_pos (by omega)]
    · rw [if_neg h1, if_neg (by omega)]

theorem deal_loop_dealt (N : Nat) (hN : 0 < N) (cards : List (List Char)) (hnd : cards.Nodup)
    (rest : List (List Char)) :
    ∀ (H : List (List (List Char))) (U : List (List Char)),
      cards = U ++ rest → H.length = N → dealt_upto N cards U.length H →
      dealt_upto N cards cards.length (deal_loop N rest U.length H U) := by
  induction rest with
  | nil =>
    intro H U hc _ hP
    subst hc
    simpa [deal_loop] using hP
  | cons x rest ih =>
    intro H U hc hH hP
    have hnd1 : (U ++ x :: rest).Nodup := hc ▸ hnd
    have hx : x ∉ U := by
      intro hm
      exact (List.nodup_append.1 hnd1).2.2 hm (List.mem_cons_self x rest)
    have hd : is_duplicate U U.length x = false := by
      cases hd : is_duplicate U U.length x with
      | false => rfl
      | true => exact absurd ((is_duplicate_length_iff U x).1 hd) hx
    simp only [deal_loop, hd]
    have hcx : cards[U.length]? = some x := by
      rw [hc, List.getElem?_append_right (Nat.le_refl _)]; simp
    have := ih (H.modify (fun hand => hand ++ [x]) (U.length % N)) (U ++ [x])
      (by rw [hc]; simp) (by simp [hH])
      (by simpa using dealt_upto_step N hN cards U.length H x hH hcx hP)
    simpa using this

theorem read_cards_eq_accepted (input cards : List (List Char))
    (hlen : cards.length + input.length ≤ MAX_CARDS) :
    read_cards input cards = accepted_tokens input cards := by
  induction input generalizing cards with
  | nil => rfl
  | cons x xs ih =>
    simp only [List.length_cons] at hlen
    have hlt : cards.length < MAX_CARDS := by omega
    simp only [read_cards, accepted_tokens, hlt, if_true]
    by_cases hm : x ∈ cards
    · rw [if_pos ((is_duplicate_length_iff cards x).2 hm), if_pos hm]
      exact ih cards (by omega)
    · have hd : ¬ is_duplicate cards cards.length x = true :=
        fun hd => hm ((is_duplicate_length_iff cards x).1 hd)
      rw [if_neg hd, if_neg hm]
      exact ih _ (by simp; omega)

theorem deal_flatten_perm (input : List (List Char)) (N : Nat) (hN : 0 < N) :
    (deal N input).length = N ∧ (deal N input).flatten.Perm (read_cards input []) := by
  have hnd : ([] ++ read_cards input []).Nodup := by
    simpa using read_cards_nodup input [] List.nodup_nil
  have := deal_loop_perm N hN (read_cards input []) 0 (List.replicate N []) [] hnd (by simp)
  simpa [deal] using this

theorem count_eq_one_of_nodup_mem {l : List (List Char)} {t : List Char} (hnd : l.Nodup)
    (h : t ∈ l) : l.count t = 1 := by
  induction l with
  | nil => simp at h
  | cons x xs ih =>
    rw [List.nodup_cons] at hnd
    rw [List.count_cons]
    by_cases hx : x = t
    · subst hx
      simp [List.count_eq_zero.2 hnd.1]
    · have hxs : t ∈ xs := by
        rcases List.mem_cons.1 h with h1 | h1
        · exact absurd h1.symm hx
        · exact h1
      simp [ih hnd.2 hxs, hx]

theorem deal_partition (input : List (List Char)) (N : Nat)
    (hlen : input.length ≤ 52) (hN1 : 1 ≤ N) :
    (deal N input).length = N ∧
    (∀ t ∈ input, ∃ p, p < N ∧ ((deal N input).getD p []).count t = 1 ∧
      ∀ q, q ≠ p → t ∉ (deal N input).getD q []) ∧
    (∀ p, p < N → ∀ t ∈ (deal N input).getD p [], t ∈ input) := by
  obtain ⟨hl, hperm⟩ := deal_flatten_perm input N hN1
  have hmem : ∀ t, t ∈ read_cards input [] ↔ t ∈ input := by
    intro t
    have := read_cards_mem input [] (by simpa [MAX_CARDS] using hlen) t
    simpa using this
  have hnd : (deal N input).flatten.Nodup :=
    hperm.nodup_iff.2 (read_cards_nodup input [] List.nodup_nil)
  obtain ⟨hnd1, hdisj⟩ := List.nodup_flatten.1 hnd
  have hdisj2 := List.pairwise_iff_getElem.1 hdisj
  refine ⟨hl, ?_, ?_⟩
  · intro t ht
    have ht1 : t ∈ (deal N input).flatten := hperm.mem_iff.2 ((hmem t).2 ht)
    obtain ⟨hand, hhand, hth⟩ := List.mem_flatten.1 ht1
    obtain ⟨p, hp, hpe⟩ := List.mem_iff_getElem.1 hhand
    have hgp : (deal N input).getD p [] = hand := by
      rw [List.getD_eq_getElem?_getD, List.getElem?_eq_getElem hp, hpe]; rfl
    refine ⟨p, by omega, ?_, ?_⟩
    · rw [hgp]
      exact count_eq_one_of_nodup_mem (hnd1 hand hhand) hth
    · intro q hq htq
      by_cases hql : q < (deal N input).length
      · have hgq : (deal N input).getD q [] = (deal N input)[q] := by
          rw [List.getD_eq_getElem?_getD, List.getElem?_eq_getElem hql]; rfl
        rw [hgq] at htq
        rw [← hpe] at hth
        rcases Nat.lt_or_gt_of_ne hq with h | h
        · exact hdisj2 q p hql hp h htq hth
        · exact hdisj2 p q hp hql h hth htq
      · rw [List.getD_eq_getElem?_getD, List.getElem?_eq_none (Nat.not_lt.1 hql)] at htq
        simp at htq
  · intro p hp t ht
    apply (hmem t).1
    apply hperm.mem_iff.1
    have hpl : p < (deal N input).length := by omega
    refine List.mem_flatten.2 ⟨(deal N input)[p], List.getElem_mem hpl, ?_⟩
    rw [List.getD_eq_getElem?_getD, List.getElem?_eq_getElem hpl] at ht
    exact ht

/-- C2: deck preparation partitions the deduplicated input.  For an input of at most 52
two-character tokens and a player count in 1..52 there are `N` hands, every input token
is in exactly one hand and exactly once there, and a hand holds input tokens only. -/
theorem deal_partitions_input (input : List (List Char)) (N : Nat)
    (hlen : input.length ≤ 52) (_htok : ∀ t ∈ input, t.length = 2)
    (hN1 : 1 ≤ N) (_hN2 : N ≤ 52) :
    (deal N input).length = N ∧
    (∀ t ∈ input, ∃ p, p < N ∧ ((deal N input).getD p []).count t = 1 ∧
      ∀ q, q ≠ p → t ∉ (deal N input).getD q []) ∧
    (∀ p, p < N → ∀ t ∈ (deal N input).getD p [], t ∈ input) :=
  deal_partition input N hlen hN1

/-- Witness of C2: input D3 D4 D3 S2 dealt to two players. -/
theorem deal_partitions_input_witness :
    (deal 2 [D3, ['D', '4'], D3, ['S', '2']]).length = 2 ∧
    (∀ t ∈ [D3, ['D', '4'], D3, ['S', '2']], ∃ p, p < 2 ∧
      ((deal 2 [D3, ['D', '4'], D3, ['S', '2']]).getD p []).count t = 1 ∧
      ∀ q, q ≠ p → t ∉ (deal 2 [D3, ['D', '4'], D3, ['S', '2']]).getD q []) ∧
    (∀ p, p < 2 → ∀ t ∈ (deal 2 [D3, ['D', '4'], D3, ['S', '2']]).getD p [],
      t ∈ [D3, ['D', '4'], D3, ['S', '2']]) :=
  deal_partitions_input [D3, ['D', '4'], D3, ['S', '2']] 2 (by decide) (by decide)
    (by decide) (by decide)

theorem dealt_upto_init (N : Nat) (cards : List (List Char)) :
    dealt_upto N cards 0 (List.replicate N []) := by
  intro p hp j
  rw [if_neg (Nat.not_lt_zero _)]
  simp [List.getD_eq_getElem?_getD, List.getElem?_replicate, hp]

/-- C3: the accepted tokens are the input with every token dropped that equals a token
accepted earlier, and the `k`-th accepted token is entry `k / N` of hand `k % N`; the
hands hold nothing else. -/
theorem deal_round_robin (input : List (List Char)) (N : Nat)
    (hlen : input.length ≤ 52) (_htok : ∀ t ∈ input, t.length = 2)
    (hN1 : 1 ≤ N) (_hN2 : N ≤ 52) :
    read_cards input [] = accepted_tokens input [] ∧
    (∀ k, k < (accepted_tokens input []).length →
      ((deal N input).getD (k % N) [])[k / N]? = (accepted_tokens input [])[k]?) ∧
    (∀ p j, p < N → (accepted_tokens input []).length ≤ p + j * N →
      ((deal N input).getD p [])[j]? = none) := by
  have hacc := read_cards_eq_accepted input [] (by simpa [MAX_CARDS] using hlen)
  have hP := deal_loop_dealt N hN1 (read_cards input []) (read_cards_nodup input [] List.nodup_nil)
    (read_cards input []) (List.replicate N []) [] (by simp) (by simp)
    (dealt_upto_init N _)
  have hP2 : dealt_upto N (accepted_tokens input []) (accepted_tokens input []).length
      (deal N input) := by
    rw [← hacc]; exact hP
  refine ⟨hacc, ?_, ?_⟩
  · intro k hk
    have := hP2 (k % N) (Nat.mod_lt _ hN1) (k / N)
    have hdecomp : k % N + (k / N) * N = k := by
      have := Nat.mod_add_div k N
      rw [Nat.mul_comm] at this
      exact this
    rw [hdecomp, if_pos hk] at this
    exact this
  · intro p j hp hle
    have := hP2 p hp j
    rw [if_neg (by omega)] at this
    exact this

/-- Witness of C3: input D3 D4 D3 S2 dealt to two players. -/
theorem deal_round_robin_witness :
    read_cards [D3, ['D', '4'], D3, ['S', '2']] []
      = accepted_tokens [D3, ['D', '4'], D3, ['S', '2']] [] ∧
    (∀ k, k < (accepted_tokens [D3, ['D', '4'], D3, ['S', '2']] []).length →
      ((deal 2 [D3, ['D', '4'], D3, ['S', '2']]).getD (k % 2) [])[k / 2]?
        = (accepted_tokens [D3, ['D', '4'], D3, ['S', '2']] [])[k]?) ∧
    (∀ p j, p < 2 → (accepted_tokens [D3, ['D', '4'], D3, ['S', '2']] []).length ≤ p + j * 2 →
      ((deal 2 [D3, ['D', '4'], D3, ['S', '2']]).getD p [])[j]? = none) :=
  deal_round_robin [D3, ['D', '4'], D3, ['S', '2']] 2 (by decide) (by decide)
    (by decide) (by decide)

/-! ### Opening player -/

theorem any_eq_D3_iff (hand : List (List Char)) :
    hand.any (fun c => decide (c = D3)) = true ↔ D3 ∈ hand := by
  induction hand with
  | nil => simp
  | cons c cs ih =>
    simp only [List.any_cons, Bool.or_eq_true, decide_eq_true_eq, ih, List.mem_cons]
    constructor
    · rintro (h | h)
      · exact Or.inl h.symm
      · exact Or.inr h
    · rintro (h | h)
      · exact Or.inl h.symm
      · exact Or.inr h

theorem find_start_player_none (H : List (List (List Char))) (i : Nat) :
    find_start_player H i = none ↔ ∀ hand ∈ H, D3 ∉ hand := by
  induction H generalizing i with
  | nil => simp [find_start_player]
  | cons h hs ih =>
    simp only [find_start_player, List.mem_cons, forall_eq_or_imp]
    by_cases hd : D3 ∈ h
    · simp [(any_eq_D3_iff h).2 hd, hd]
    · have : ¬ h.any (fun c => decide (c = D3)) = true := fun e => hd ((any_eq_D3_iff h).1 e)
      rw [if_neg this, ih (i + 1)]
      simp [hd]

theorem find_start_player_some (H : List (List (List Char))) (i p : Nat)
    (h : find_start_player H i = some p) :
    i ≤ p ∧ p - i < H.length ∧ D3 ∈ H.getD (p - i) [] := by
  induction H generalizing i with
  | nil => simp [find_start_player] at h
  | cons hd tl ih =>
    simp only [find_start_player] at h
    by_cases hm : D3 ∈ hd
    · rw [if_pos ((any_eq_D3_iff hd).2 hm)] at h
      have : i = p := Option.some.inj h
      subst this
      simp [hm]
    · have : ¬ hd.any (fun c => decide (c = D3)) = true := fun e => hm ((any_eq_D3_iff hd).1 e)
      rw [if_neg this] at h
      obtain ⟨h1, h2, h3⟩ := ih (i + 1) h
      have hpi : p - i = (p - (i + 1)) + 1 := by omega
      refine ⟨by omega, by rw [hpi]; simpa using h2, ?_⟩
      rw [hpi]
      simpa using h3

theorem arbiter_iteration_requests {σ : Type}
    (agent : σ → Nat → Message → σ × Option (List Char)) (s : Arbiter) (a : σ) (t : Trace) :
    ∃ more, (arbiter_iteration agent s a t).2.2.requests = t.requests ++ more := by
  unfold arbiter_iteration
  split
  · exact ⟨[], by simp⟩
  · exact ⟨_, rfl⟩

theorem arbiter_loop_requests_prefix {σ : Type}
    (agent : σ → Nat → Message → σ × Option (List Char)) (fuel : Nat) :
    ∀ (s : Arbiter) (a : σ) (t : Trace),
      ∃ more, (arbiter_loop agent fuel s a t).2.2.requests = t.requests ++ more := by
  induction fuel with
  | zero => intro s a t; exact ⟨[], by simp [arbiter_loop]⟩
  | succ fuel ih =>
    intro s a t
    simp only [arbiter_loop]
    split
    · obtain ⟨m1, h1⟩ := arbiter_iteration_requests agent s a t
      obtain ⟨m2, h2⟩ := ih (arbiter_iteration agent s a t).1
        (arbiter_iteration agent s a t).2.1 (arbiter_iteration agent s a t).2.2
      exact ⟨m1 ++ m2, by rw [h2, h1, List.append_assoc]⟩
    · exact ⟨[], by simp⟩

theorem first_request_of_init {σ : Type}
    (agent : σ → Nat → Message → σ × Option (List Char)) (N sp fuel : Nat) (a : σ)
    (hN : 2 ≤ N) (hsp : sp < N) :
    first_request (arbiter_loop agent (fuel + 1) (arbiter_init N sp) a ⟨[], []⟩).2.2
      = some (sp, ⟨Command.FIRST, []⟩) := by
  have hrem : (arbiter_init N sp).remaining_players > 1 := by
    simp only [arbiter_init]; omega
  have hcomp : (arbiter_init N sp).completed.getD (arbiter_init N sp).current_player false
      = false := by
    simp [arbiter_init, List.getD_eq_getElem?_getD, List.getElem?_replicate, hsp]
  have hit : (arbiter_iteration agent (arbiter_init N sp) a ⟨[], []⟩).2.2.requests
      = [(sp, ⟨Command.FIRST, []⟩,
          (agent a sp ⟨Command.FIRST, []⟩).2)] := by
    simp only [arbiter_iteration, hcomp]
    simp [arbiter_init, select_message, next_round]
  simp only [arbiter_loop, hrem, if_true]
  obtain ⟨more, hm⟩ := arbiter_loop_requests_prefix agent fuel
    (arbiter_iteration agent (arbiter_init N sp) a ⟨[], []⟩).1
    (arbiter_iteration agent (arbiter_init N sp) a ⟨[], []⟩).2.1
    (arbiter_iteration agent (arbiter_init N sp) a ⟨[], []⟩).2.2
  simp only [first_request]
  rw [hm, hit]
  rfl

theorem no_request_single_player {σ : Type}
    (agent : σ → Nat → Message → σ × Option (List Char)) (sp fuel : Nat) (a : σ) :
    (arbiter_loop agent fuel (arbiter_init 1 sp) a ⟨[], []⟩).2.2.requests = [] := by
  cases fuel with
  | zero => rfl
  | succ fuel => simp [arbiter_loop, arbiter_init]

theorem start_player_unique (input : List (List Char)) (N sp : Nat)
    (hlen : input.length ≤ 52) (hN1 : 1 ≤ N)
    (hsp : find_start_player (deal N input) 0 = some sp) :
    sp < N ∧ D3 ∈ (deal N input).getD sp [] ∧
      ∀ q, D3 ∈ (deal N input).getD q [] → q = sp := by
  obtain ⟨hl, hex, hin⟩ := deal_partition input N hlen hN1
  obtain ⟨_, h2, h3⟩ := find_start_player_some (deal N input) 0 sp hsp
  simp only [Nat.sub_zero] at h2 h3
  have hspN : sp < N := by omega
  refine ⟨hspN, h3, ?_⟩
  obtain ⟨p, _, _, hp3⟩ := hex D3 (hin sp hspN D3 h3)
  have hsp_p : sp = p := by
    by_contra hne
    exact hp3 sp hne h3
  intro q hq
  by_contra hne
  exact hp3 q (by omega) hq

/-- C4 (amended): the run aborts with the no-opening-card error exactly when no hand
contains D3; otherwise the starting turn is the only agent whose hand contains D3, and
with at least two players the first request of the game is FIRST, sent to that agent,
while with one player no request is sent at all. -/
theorem opening_player_and_first_request (input : List (List Char)) (N : Nat)
    (hlen : input.length ≤ 52) (_htok : ∀ t ∈ input, t.length = 2)
    (hN1 : 1 ≤ N) (_hN2 : N ≤ 52) :
    (setup N input = Setup.no_player_has_D3 ↔ ∀ hand ∈ deal N input, D3 ∉ hand) ∧
    (∀ sp s children, setup N input = Setup.started sp s children →
      sp < N ∧ D3 ∈ (deal N input).getD sp [] ∧
      (∀ q, D3 ∈ (deal N input).getD q [] → q = sp) ∧
      s.current_player = sp ∧
      (2 ≤ N → ∀ fuel, first_request
        (arbiter_loop children_agent (fuel + 1) s children ⟨[], []⟩).2.2
          = some (sp, ⟨Command.FIRST, []⟩)) ∧
      (N = 1 → ∀ fuel,
        (arbiter_loop children_agent fuel s children ⟨[], []⟩).2.2.requests = [])) := by
  constructor
  · rw [← find_start_player_none (deal N input) 0]
    simp only [setup]
    cases find_start_player (deal N input) 0 with
    | none => simp
    | some sp => simp
  · intro sp s children hs
    simp only [setup] at hs
    cases hf : find_start_player (deal N input) 0 with
    | none => rw [hf] at hs; exact Setup.noConfusion hs
    | some sp1 =>
      rw [hf] at hs
      simp only [Setup.started.injEq] at hs
      obtain ⟨h1, h2, h3⟩ := hs
      subst h1 h2 h3
      obtain ⟨u1, u2, u3⟩ := start_player_unique input N sp1 hlen hN1 hf
      refine ⟨u1, u2, u3, rfl, ?_, ?_⟩
      · intro hN fuel
        exact first_request_of_init children_agent N sp1 fuel _ hN u1
      · intro hN fuel
        subst hN
        exact no_request_single_player children_agent sp1 fuel _

/-- Witness of C4 (amended): input D3 D4 with two players. -/
theorem opening_player_and_first_request_witness :
    (setup 2 [D3, ['D', '4']] = Setup.no_player_has_D3 ↔
      ∀ hand ∈ deal 2 [D3, ['D', '4']], D3 ∉ hand) ∧
    (∀ sp s children, setup 2 [D3, ['D', '4']] = Setup.started sp s children →
      sp < 2 ∧ D3 ∈ (deal 2 [D3, ['D', '4']]).getD sp [] ∧
      (∀ q, D3 ∈ (deal 2 [D3, ['D', '4']]).getD q [] → q = sp) ∧
      s.current_player = sp ∧
      (2 ≤ 2 → ∀ fuel, first_request
        (arbiter_loop children_agent (fuel + 1) s children ⟨[], []⟩).2.2
          = some (sp, ⟨Command.FIRST, []⟩)) ∧
      (2 = 1 → ∀ fuel,
        (arbiter_loop children_agent fuel s children ⟨[], []⟩).2.2.requests = [])) :=
  opening_player_and_first_request [D3, ['D', '4']] 2 (by decide) (by decide)
    (by decide) (by decide)

/-- C4 fails as stated with one player: for the input D3 the set-up succeeds with agent 0
as starting turn, and the parent loop sends no request whatever the number of
iterations allowed. -/
theorem single_player_sends_no_first_request :
    setup 1 [D3] = Setup.started 0 (arbiter_init 1 0) [⟨[D3], true⟩] ∧
    ∀ fuel, first_request
      (arbiter_loop children_agent fuel (arbiter_init 1 0) [⟨[D3], true⟩] ⟨[], []⟩).2.2
        = none := by
  refine ⟨by decide, ?_⟩
  intro fuel
  simp [first_request, no_request_single_player]

/-! ### Player agent -/

theorem find_largest_loop_spec (t : Int) (cards : List (List Char)) :
    ∀ (i : Nat) (mv mi : Int),
      (find_largest_loop t cards i mv mi = mi ∧
        ∀ c ∈ cards, ¬ (get_card_value c > t ∧ get_card_value c < mv)) ∨
      (∃ k, k < cards.length ∧ find_largest_loop t cards i mv mi = ((i + k : Nat) : Int) ∧
        get_card_value (cards.getD k []) > t ∧ get_card_value (cards.getD k []) < mv ∧
        ∀ c ∈ cards, get_card_value c > t →
          get_card_value (cards.getD k []) ≤ get_card_value c) := by
  induction cards with
  | nil => intro i mv mi; left; simp [find_largest_loop]
  | cons c0 rest ih =>
    intro i mv mi
    simp only [find_largest_loop]
    by_cases hc : get_card_value c0 > t ∧ get_card_value c0 < mv
    · rw [if_pos hc]
      rcases ih (i + 1) (get_card_value c0) (i : Int) with ⟨h1, h2⟩ | ⟨k, hk, h1, h2, h3, h4⟩
      · right
        refine ⟨0, by simp, by simpa using h1, by simpa using hc.1, by simpa using hc.2, ?_⟩
        intro c hcm hct
        simp only [List.getD_cons_zero]
        rcases List.mem_cons.1 hcm with e | hm
        · rw [e]
        · have := h2 c hm
          omega
      · right
        refine ⟨k + 1, by simpa using hk, ?_, by simpa using h2, ?_, ?_⟩
        · rw [h1]; congr 1; omega
        · simp only [List.getD_cons_succ]; omega
        · intro c hcm hct
          simp only [List.getD_cons_succ]
          rcases List.mem_cons.1 hcm with e | hm
          · subst e; omega
          · exact h4 c hm hct
    · rw [if_neg hc]
      rcases ih (i + 1) mv mi with ⟨h1, h2⟩ | ⟨k, hk, h1, h2, h3, h4⟩
      · left
        refine ⟨h1, ?_⟩
        intro c hcm
        rcases List.mem_cons.1 hcm with e | hm
        · rw [e]; exact hc
        · exact h2 c hm
      · right
        refine ⟨k + 1, by simpa using hk, ?_, by simpa using h2, by simpa using h3, ?_⟩
        · rw [h1]; congr 1; omega
        · intro c hcm hct
          simp only [List.getD_cons_succ]
          rcases List.mem_cons.1 hcm with e | hm
          · subst e; omega
          · exact h4 c hm hct

theorem find_largest_spec (cards : List (List Char)) (t : Int) :
    (find_largest_card_index_greater_than cards t = -1 ∧
      ∀ c ∈ cards, ¬ get_card_value c > t) ∨
    (∃ k, k < cards.length ∧ find_largest_card_index_greater_than cards t = (k : Int) ∧
      get_card_value (cards.getD k []) > t ∧
      ∀ c ∈ cards, get_card_value c > t →
        get_card_value (cards.getD k []) ≤ get_card_value c) := by
  unfold find_largest_card_index_greater_than
  rcases find_largest_loop_spec t cards 0 9999 (-1) with ⟨h1, h2⟩ | ⟨k, hk, h1, h2, _, h4⟩
  · left
    refine ⟨h1, ?_⟩
    intro c hc hgt
    have := get_card_value_bounds c
    exact h2 c hc ⟨hgt, by omega⟩
  · right
    exact ⟨k, hk, by simpa using h1, h2, h4⟩

theorem find_min_loop_spec (cards : List (List Char)) :
    ∀ (i : Nat) (mv : Int) (mi : Nat),
      (find_min_card_index_loop cards i mv mi = mi ∧
        ∀ c ∈ cards, ¬ get_card_value c < mv) ∨
      (∃ k, k < cards.length ∧ find_min_card_index_loop cards i mv mi = i + k ∧
        get_card_value (cards.getD k []) < mv ∧
        ∀ c ∈ cards, get_card_value (cards.getD k []) ≤ get_card_value c) := by
  induction cards with
  | nil => intro i mv mi; left; simp [find_min_card_index_loop]
  | cons c0 rest ih =>
    intro i mv mi
    simp only [find_min_card_index_loop]
    by_cases hc : get_card_value c0 < mv
    · rw [if_pos hc]
      rcases ih (i + 1) (get_card_value c0) i with ⟨h1, h2⟩ | ⟨k, hk, h1, h2, h4⟩
      · right
        refine ⟨0, by simp, by simpa using h1, by simpa using hc, ?_⟩
        intro c hcm
        simp only [List.getD_cons_zero]
        rcases List.mem_cons.1 hcm with e | hm
        · rw [e]
        · have := h2 c hm
          omega
      · right
        refine ⟨k + 1, by simpa using hk, by rw [h1]; omega, ?_, ?_⟩
        · simp only [List.getD_cons_succ]; omega
        · intro c hcm
          simp only [List.getD_cons_succ]
          rcases List.mem_cons.1 hcm with e | hm
          · subst e; omega
          · exact h4 c hm
    · rw [if_neg hc]
      rcases ih (i + 1) mv mi with ⟨h1, h2⟩ | ⟨k, hk, h1, h2, h4⟩
      · left
        refine ⟨h1, ?_⟩
        intro c hcm
        rcases List.mem_cons.1 hcm with e | hm
        · rw [e]; exact hc
        · exact h2 c hm
      · right
        refine ⟨k + 1, by simpa using hk, by rw [h1]; omega, by simpa using h2, ?_⟩
        intro c hcm
        simp only [List.getD_cons_succ]
        rcases List.mem_cons.1 hcm with e | hm
        · subst e; omega
        · exact h4 c hm

theorem find_min_spec (cards : List (List Char)) (hne : cards ≠ []) :
    find_min_card_index cards < cards.length ∧
      ∀ c ∈ cards,
        get_card_value (cards.getD (find_min_card_index cards) []) ≤ get_card_value c := by
  unfold find_min_card_index
  rcases find_min_loop_spec cards 0 9999 0 with ⟨_, h2⟩ | ⟨k, hk, h1, _, h4⟩
  · exfalso
    cases cards with
    | nil => exact hne rfl
    | cons c rest =>
      have := get_card_value_bounds c
      exact h2 c (List.mem_cons_self c rest) (by omega)
  · rw [h1]
    simp only [Nat.zero_add]
    exact ⟨hk, h4⟩

theorem find_D3_index_spec (cards : List (List Char)) :
    ∀ j : Nat,
      (find_D3_index cards j = -1 ∧ D3 ∉ cards) ∨
      (∃ k, k < cards.length ∧ find_D3_index cards j = ((j + k : Nat) : Int) ∧
        cards.getD k [] = D3 ∧ ∀ m, m < k → cards.getD m [] ≠ D3) := by
  induction cards with
  | nil => intro j; left; simp [find_D3_index]
  | cons c rest ih =>
    intro j
    simp only [find_D3_index]
    by_cases hc : c = D3
    · right
      refine ⟨0, by simp, by simp [hc], by simpa using hc, ?_⟩
      intro m hm
      omega
    · rw [if_neg hc]
      rcases ih (j + 1) with ⟨h1, h2⟩ | ⟨k, hk, h1, h2, h3⟩
      · left
        refine ⟨h1, ?_⟩
        intro hm
        rcases List.mem_cons.1 hm with e | hm
        · exact hc e.symm
        · exact h2 hm
      · right
        refine ⟨k + 1, by simpa using hk, ?_, by simpa using h2, ?_⟩
        · rw [h1]; congr 1; omega
        · intro m hm
          cases m with
          | zero => simpa using hc
          | succ m => simpa using h3 m (by omega)

theorem getD_mem {cards : List (List Char)} {k : Nat} (hk : k < cards.length) :
    cards.getD k [] ∈ cards := by
  rw [List.getD_eq_getElem?_getD, List.getElem?_eq_getElem hk]
  exact List.getElem_mem hk

theorem length_ne_zero_of_ne_nil {cards : List (List Char)} (hne : cards ≠ []) :
    ¬ cards.length = 0 := fun h => hne (List.length_eq_zero.1 h)

theorem handle_PLAY_spec (cards : List (List Char)) (ref : List Char) (hne : cards ≠ []) :
    (handle_PLAY cards ref = (PASS, ⟨cards, true⟩) ∧
      ∀ c ∈ cards, ¬ get_card_value c > get_card_value ref) ∨
    (∃ k, k < cards.length ∧
      handle_PLAY cards ref = (cards.getD k [], ⟨cards.eraseIdx k, true⟩) ∧
      get_card_value (cards.getD k []) > get_card_value ref ∧
      ∀ c ∈ cards, get_card_value c > get_card_value ref →
        get_card_value (cards.getD k []) ≤ get_card_value c) := by
  simp only [handle_PLAY, if_neg (length_ne_zero_of_ne_nil hne), remove_card_at]
  rcases find_largest_spec cards (get_card_value ref) with ⟨h1, h2⟩ | ⟨k, hk, h1, h2, h3⟩
  · left
    rw [h1]
    exact ⟨by simp, h2⟩
  · right
    refine ⟨k, hk, ?_, h2, h3⟩
    rw [h1]
    have hk1 : ¬ ((k : Int) = -1) := by omega
    simp [hk1]

theorem handle_FIRST_spec (cards : List (List Char)) (hne : cards ≠ []) :
    (D3 ∈ cards → ∃ k, k < cards.length ∧ cards.getD k [] = D3 ∧
      (∀ m, m < k → cards.getD m [] ≠ D3) ∧
      handle_FIRST cards = (D3, ⟨cards.eraseIdx k, true⟩)) ∧
    (D3 ∉ cards →
      handle_FIRST cards = (cards.getD (find_min_card_index cards) [],
        ⟨cards.eraseIdx (find_min_card_index cards), true⟩)) := by
  simp only [handle_FIRST, if_neg (length_ne_zero_of_ne_nil hne), remove_card_at]
  rcases find_D3_index_spec cards 0 with ⟨h1, h2⟩ | ⟨k, hk, h1, h2, h3⟩
  · refine ⟨fun h => absurd h h2, fun _ => ?_⟩
    rw [h1]
    simp
  · have hmem : D3 ∈ cards := h2 ▸ getD_mem hk
    refine ⟨fun _ => ⟨k, hk, h2, h3, ?_⟩, fun h => absurd hmem h⟩
    rw [h1]
    have hk1 : ¬ (((0 + k : Nat) : Int) = -1) := by omega
    simp [hk1]
    rw [← List.getD_eq_getElem?_getD]
    exact h2

theorem handle_LEAD_eq (cards : List (List Char)) (hne : cards ≠ []) :
    handle_LEAD cards = (cards.getD (find_min_card_index cards) [],
      ⟨cards.eraseIdx (find_min_card_index cards), true⟩) := by
  simp only [handle_LEAD, if_neg (length_ne_zero_of_ne_nil hne), remove_card_at]

theorem handle_empty (msg : Message) : child_handle [] msg = (COMPLETE, ⟨[], false⟩) := by
  cases msg with
  | mk command card => cases command <;> rfl

theorem child_handle_cases (cards : List (List Char)) (msg : Message) (hne : cards ≠ []) :
    child_handle cards msg = (PASS, ⟨cards, true⟩) ∨
    ∃ k, k < cards.length ∧
      child_handle cards msg = (cards.getD k [], ⟨cards.eraseIdx k, true⟩) := by
  cases msg with
  | mk command card =>
    cases command with
    | FIRST =>
      right
      simp only [child_handle]
      by_cases hd : D3 ∈ cards
      · obtain ⟨k, hk, h2, _, h4⟩ := (handle_FIRST_spec cards hne).1 hd
        exact ⟨k, hk, by rw [h4, h2]⟩
      · exact ⟨_, (find_min_spec cards hne).1, (handle_FIRST_spec cards hne).2 hd⟩
    | PLAY =>
      simp only [child_handle]
      rcases handle_PLAY_spec cards card hne with ⟨h, _⟩ | ⟨k, hk, h, _⟩
      · exact Or.inl h
      · exact Or.inr ⟨k, hk, h⟩
    | LEAD =>
      right
      exact ⟨_, (find_min_spec cards hne).1, handle_LEAD_eq cards hne⟩

theorem fits_ne_PASS {c : List Char} (h : c.length ≤ 2) : c ≠ PASS := by
  intro e; rw [e] at h; simp [PASS] at h

theorem fits_ne_COMPLETE {c : List Char} (h : c.length ≤ 2) : c ≠ COMPLETE := by
  intro e; rw [e] at h; simp [COMPLETE] at h

/-- C5 (amended): `find_largest_card_index_greater_than` returns -1 exactly when no card of
the hand has a value above the target, and otherwise the index of a card of least value
among those above the target.  On a non-empty hand the PLAY handler answers PASS exactly
when no card exceeds the reference card and otherwise plays a card of least value among
those exceeding it; on the empty hand it answers COMPLETE. -/
theorem beat_selection (cards : List (List Char)) (t : Int) (ref : List Char) :
    (find_largest_card_index_greater_than cards t = -1 ↔
      ∀ c ∈ cards, ¬ get_card_value c > t) ∧
    (find_largest_card_index_greater_than cards t ≠ -1 →
      ∃ i, i < cards.length ∧ find_largest_card_index_greater_than cards t = (i : Int) ∧
        get_card_value (cards.getD i []) > t ∧
        ∀ c ∈ cards, get_card_value c > t →
          get_card_value (cards.getD i []) ≤ get_card_value c) ∧
    (cards ≠ [] → (∀ c ∈ cards, c.length ≤ 2) →
      ((child_handle cards ⟨Command.PLAY, ref⟩).1 = PASS ↔
        ∀ c ∈ cards, ¬ get_card_value c > get_card_value ref) ∧
      ((child_handle cards ⟨Command.PLAY, ref⟩).1 ≠ PASS →
        ∃ i, i < cards.length ∧
          (child_handle cards ⟨Command.PLAY, ref⟩).1 = cards.getD i [] ∧
          get_card_value (cards.getD i []) > get_card_value ref ∧
          ∀ c ∈ cards, get_card_value c > get_card_value ref →
            get_card_value (cards.getD i []) ≤ get_card_value c)) ∧
    (child_handle [] ⟨Command.PLAY, ref⟩).1 = COMPLETE := by
  refine ⟨?_, ?_, ?_, rfl⟩
  · rcases find_largest_spec cards t with ⟨h1, h2⟩ | ⟨k, hk, h1, h2, _⟩
    · exact ⟨fun _ => h2, fun _ => h1⟩
    · constructor
      · intro h; rw [h1] at h; omega
      · intro h; exact absurd h2 (h _ (getD_mem hk))
  · intro hne1
    rcases find_largest_spec cards t with ⟨h1, _⟩ | ⟨k, hk, h1, h2, h3⟩
    · exact absurd h1 hne1
    · exact ⟨k, hk, h1, h2, h3⟩
  · intro hne hfit
    simp only [child_handle]
    rcases handle_PLAY_spec cards ref hne with ⟨h1, h2⟩ | ⟨k, hk, h1, h2, h3⟩
    · rw [h1]
      exact ⟨⟨fun _ => h2, fun _ => rfl⟩, fun h => absurd rfl h⟩
    · rw [h1]
      have hnp : cards.getD k [] ≠ PASS := fits_ne_PASS (hfit _ (getD_mem hk))
      refine ⟨⟨fun h => absurd h hnp, fun h => absurd h2 (h _ (getD_mem hk))⟩, ?_⟩
      intro _
      exact ⟨k, hk, rfl, h2, h3⟩

/-- Witness of C5 (amended): the hand S2, D4 against target 31 and reference D3. -/
theorem beat_selection_witness :
    (∃ i, i < [['S', '2'], ['D', '4']].length ∧
      find_largest_card_index_greater_than [['S', '2'], ['D', '4']] 31 = (i : Int) ∧
      get_card_value ([['S', '2'], ['D', '4']].getD i []) > 31 ∧
      ∀ c ∈ [['S', '2'], ['D', '4']], get_card_value c > 31 →
        get_card_value ([['S', '2'], ['D', '4']].getD i []) ≤ get_card_value c) ∧
    ((child_handle [['S', '2'], ['D', '4']] ⟨Command.PLAY, D3⟩).1 = PASS ↔
        ∀ c ∈ [['S', '2'], ['D', '4']], ¬ get_card_value c > get_card_value D3) ∧
      ((child_handle [['S', '2'], ['D', '4']] ⟨Command.PLAY, D3⟩).1 ≠ PASS →
        ∃ i, i < [['S', '2'], ['D', '4']].length ∧
          (child_handle [['S', '2'], ['D', '4']] ⟨Command.PLAY, D3⟩).1
            = [['S', '2'], ['D', '4']].getD i [] ∧
          get_card_value ([['S', '2'], ['D', '4']].getD i []) > get_card_value D3 ∧
          ∀ c ∈ [['S', '2'], ['D', '4']], get_card_value c > get_card_value D3 →
            get_card_value ([['S', '2'], ['D', '4']].getD i []) ≤ get_card_value c) :=
  ⟨(beat_selection [['S', '2'], ['D', '4']] 31 D3).2.1 (by decide),
    (beat_selection [['S', '2'], ['D', '4']] 31 D3).2.2.1 (by decide) (by decide)⟩

/-- C5 fails as stated on the empty hand: no card exceeds the reference card D3, and the
PLAY handler answers COMPLETE, not PASS. -/
theorem play_empty_hand_not_pass :
    (child_handle [] ⟨Command.PLAY, D3⟩).1 = COMPLETE ∧
    ¬ ((child_handle [] ⟨Command.PLAY, D3⟩).1 = PASS ↔
      ∀ c ∈ ([] : List (List Char)), ¬ get_card_value c > get_card_value D3) := by
  decide

/-- C6: on a non-empty hand the answer to FIRST is the card D3 when D3 is in the hand, and
otherwise a card of least `get_card_value`; the hand afterwards is the old hand with
exactly the played position deleted. -/
theorem open_handling (cards : List (List Char)) (ref : List Char) (hne : cards ≠ []) :
    (D3 ∈ cards → ∃ k, k < cards.length ∧ cards.getD k [] = D3 ∧
      child_handle cards ⟨Command.FIRST, ref⟩ = (D3, ⟨cards.eraseIdx k, true⟩)) ∧
    (D3 ∉ cards → ∃ k, k < cards.length ∧
      (∀ c ∈ cards, get_card_value (cards.getD k []) ≤ get_card_value c) ∧
      child_handle cards ⟨Command.FIRST, ref⟩
        = (cards.getD k [], ⟨cards.eraseIdx k, true⟩)) := by
  simp only [child_handle]
  constructor
  · intro hd
    obtain ⟨k, hk, h2, _, h4⟩ := (handle_FIRST_spec cards hne).1 hd
    exact ⟨k, hk, h2, h4⟩
  · intro hd
    exact ⟨_, (find_min_spec cards hne).1, (find_min_spec cards hne).2,
      (handle_FIRST_spec cards hne).2 hd⟩

/-- Witness of C6: the hand S2, D3, D4 (D3 is played) and the hand S2, D4 (the least
card is played). -/
theorem open_handling_witness :
    (∃ k, k < [['S', '2'], D3, ['D', '4']].length ∧
      [['S', '2'], D3, ['D', '4']].getD k [] = D3 ∧
      child_handle [['S', '2'], D3, ['D', '4']] ⟨Command.FIRST, []⟩
        = (D3, ⟨[['S', '2'], D3, ['D', '4']].eraseIdx k, true⟩)) ∧
    (∃ k, k < [['S', '2'], ['D', '4']].length ∧
      (∀ c ∈ [['S', '2'], ['D', '4']],
        get_card_value ([['S', '2'], ['D', '4']].getD k []) ≤ get_card_value c) ∧
      child_handle [['S', '2'], ['D', '4']] ⟨Command.FIRST, []⟩
        = ([['S', '2'], ['D', '4']].getD k [], ⟨[['S', '2'], ['D', '4']].eraseIdx k, true⟩)) :=
  ⟨(open_handling [['S', '2'], D3, ['D', '4']] [] (by decide)).1 (by decide),
    (open_handling [['S', '2'], ['D', '4']] [] (by decide)).2 (by decide)⟩

/-- C7: on a non-empty hand `find_min_card_index` returns an index below `card_count` of a
card of least value, and the LEAD handler plays and removes exactly that card, whatever
reference card the request carries. -/
theorem lead_handling (cards : List (List Char)) (ref : List Char) (hne : cards ≠ []) :
    find_min_card_index cards < cards.length ∧
    (∀ c ∈ cards,
      get_card_value (cards.getD (find_min_card_index cards) []) ≤ get_card_value c) ∧
    child_handle cards ⟨Command.LEAD, ref⟩
      = (cards.getD (find_min_card_index cards) [],
          ⟨cards.eraseIdx (find_min_card_index cards), true⟩) :=
  ⟨(find_min_spec cards hne).1, (find_min_spec cards hne).2, handle_LEAD_eq cards hne⟩

/-- Witness of C7: the hand S2, D4, C4 with reference card S2. -/
theorem lead_handling_witness :
    find_min_card_index [['S', '2'], ['D', '4'], ['C', '4']]
      < [['S', '2'], ['D', '4'], ['C', '4']].length ∧
    (∀ c ∈ [['S', '2'], ['D', '4'], ['C', '4']],
      get_card_value ([['S', '2'], ['D', '4'], ['C', '4']].getD
        (find_min_card_index [['S', '2'], ['D', '4'], ['C', '4']]) []) ≤ get_card_value c) ∧
    child_handle [['S', '2'], ['D', '4'], ['C', '4']] ⟨Command.LEAD, ['S', '2']⟩
      = ([['S', '2'], ['D', '4'], ['C', '4']].getD
          (find_min_card_index [['S', '2'], ['D', '4'], ['C', '4']]) [],
          ⟨[['S', '2'], ['D', '4'], ['C', '4']].eraseIdx
            (find_min_card_index [['S', '2'], ['D', '4'], ['C', '4']]), true⟩) :=
  lead_handling [['S', '2'], ['D', '4'], ['C', '4']] ['S', '2'] (by decide)

/-- C8: handling one PLAY request leaves the hand unchanged when the answer is PASS; when
the answer is a card, the new hand is the old hand with exactly the played position
deleted, so the count drops by one and the other cards keep their relative order. -/
theorem play_frame (cards : List (List Char)) (ref : List Char)
    (hfit : ∀ c ∈ cards, c.length ≤ 2) :
    ((child_handle cards ⟨Command.PLAY, ref⟩).1 = PASS →
      (child_handle cards ⟨Command.PLAY, ref⟩).2.my_cards = cards) ∧
    ((child_handle cards ⟨Command.PLAY, ref⟩).1 ≠ PASS →
      (child_handle cards ⟨Command.PLAY, ref⟩).1 ≠ COMPLETE →
      ∃ k, k < cards.length ∧
        (child_handle cards ⟨Command.PLAY, ref⟩).1 = cards.getD k [] ∧
        (child_handle cards ⟨Command.PLAY, ref⟩).2.my_cards = cards.eraseIdx k ∧
        (child_handle cards ⟨Command.PLAY, ref⟩).2.my_cards.length + 1 = cards.length ∧
        (∀ j, j < k → (child_handle cards ⟨Command.PLAY, ref⟩).2.my_cards[j]? = cards[j]?) ∧
        (∀ j, k ≤ j →
          (child_handle cards ⟨Command.PLAY, ref⟩).2.my_cards[j]? = cards[j + 1]?)) := by
  by_cases hne : cards = []
  · subst hne
    exact ⟨fun _ => rfl, fun _ h => absurd rfl h⟩
  · simp only [child_handle]
    rcases handle_PLAY_spec cards ref hne with ⟨h1, _⟩ | ⟨k, hk, h1, _, _⟩
    · rw [h1]
      exact ⟨fun _ => rfl, fun h => absurd rfl h⟩
    · rw [h1]
      have hnp : cards.getD k [] ≠ PASS := fits_ne_PASS (hfit _ (getD_mem hk))
      refine ⟨fun h => absurd h hnp, fun _ _ => ⟨k, hk, rfl, rfl, ?_, ?_, ?_⟩⟩
      · simp only [List.length_eraseIdx_of_lt hk]
        omega
      · intro j hj
        exact List.getElem?_eraseIdx_of_lt cards k j hj
      · intro j hj
        exact List.getElem?_eraseIdx_of_ge cards k j hj

/-- Witness of C8: the hand S2, D4, C5 against the reference card D3. -/
theorem play_frame_witness :
    ∃ k, k < [['S', '2'], ['D', '4'], ['C', '5']].length ∧
      (child_handle [['S', '2'], ['D', '4'], ['C', '5']] ⟨Command.PLAY, D3⟩).1
        = [['S', '2'], ['D', '4'], ['C', '5']].getD k [] ∧
      (child_handle [['S', '2'], ['D', '4'], ['C', '5']] ⟨Command.PLAY, D3⟩).2.my_cards
        = [['S', '2'], ['D', '4'], ['C', '5']].eraseIdx k ∧
      (child_handle [['S', '2'], ['D', '4'], ['C', '5']]
        ⟨Command.PLAY, D3⟩).2.my_cards.length + 1
          = [['S', '2'], ['D', '4'], ['C', '5']].length ∧
      (∀ j, j < k →
        (child_handle [['S', '2'], ['D', '4'], ['C', '5']] ⟨Command.PLAY, D3⟩).2.my_cards[j]?
          = [['S', '2'], ['D', '4'], ['C', '5']][j]?) ∧
      (∀ j, k ≤ j →
        (child_handle [['S', '2'], ['D', '4'], ['C', '5']] ⟨Command.PLAY, D3⟩).2.my_cards[j]?
          = [['S', '2'], ['D', '4'], ['C', '5']][j + 1]?) :=
  (play_frame [['S', '2'], ['D', '4'], ['C', '5']] D3 (by decide)).2 (by decide) (by decide)

/-- C9 (amended): when the answer to a FIRST, PLAY or LEAD request plays the last card of
the hand, the response is that card alone and the child keeps running; COMPLETE is the
answer to the next request the child receives, after which it leaves its loop. -/
theorem completion_on_next_request (cards : List (List Char)) (msg : Message)
    (hfit : ∀ c ∈ cards, c.length ≤ 2) (hne : cards ≠ [])
    (hlast : (child_handle cards msg).2.my_cards = []) :
    (child_handle cards msg).1 ∈ cards ∧
    (child_handle cards msg).1 ≠ COMPLETE ∧
    (child_handle cards msg).2.running = true ∧
    ∀ next : Message,
      child_handle (child_handle cards msg).2.my_cards next = (COMPLETE, ⟨[], false⟩) := by
  rcases child_handle_cases cards msg hne with h | ⟨k, hk, h⟩
  · rw [h] at hlast
    exact absurd hlast hne
  · rw [h] at hlast ⊢
    refine ⟨getD_mem hk, fits_ne_COMPLETE (hfit _ (getD_mem hk)), rfl, ?_⟩
    intro next
    simp only at hlast
    rw [hlast]
    exact handle_empty next

/-- Witness of C9 (amended): the hand D4 alone, asked to beat D3. -/
theorem completion_on_next_request_witness :
    (child_handle [['D', '4']] ⟨Command.PLAY, D3⟩).1 ∈ [['D', '4']] ∧
    (child_handle [['D', '4']] ⟨Command.PLAY, D3⟩).1 ≠ COMPLETE ∧
    (child_handle [['D', '4']] ⟨Command.PLAY, D3⟩).2.running = true ∧
    ∀ next : Message,
      child_handle (child_handle [['D', '4']] ⟨Command.PLAY, D3⟩).2.my_cards next
        = (COMPLETE, ⟨[], false⟩) :=
  completion_on_next_request [['D', '4']] ⟨Command.PLAY, D3⟩ (by decide) (by decide)
    (by decide)

/-- C9 fails as stated: a child holding only D3 answers FIRST with the card D3 and nothing
else, its hand is then empty, and its response is not COMPLETE. -/
theorem last_card_response_without_complete :
    child_handle [D3] ⟨Command.FIRST, []⟩ = (D3, ⟨[], true⟩) ∧ D3 ≠ COMPLETE := by
  decide

/-! ### Arbiter -/

theorem reset_check_last_played (s : Arbiter) :
    (reset_check s).last_played_player = s.last_played_player := by
  unfold reset_check
  split <;> rfl

theorem last_card_player_append (start : Nat)
    (requests : List (Nat × Message × Option (List Char)))
    (x : Nat × Message × Option (List Char)) :
    last_card_player start (requests ++ [x])
      = last_card_step (last_card_player start requests) x := by
  simp only [last_card_player, List.foldl_append, List.foldl_cons, List.foldl_nil]

theorem arbiter_respond_last_played (s : Arbiter) (msg : Message)
    (response : Option (List Char)) :
    (arbiter_respond s response).last_played_player
      = last_card_step s.last_played_player (s.current_player, msg, response) := by
  cases response with
  | none => rfl
  | some c =>
    simp only [arbiter_respond, reset_check_last_played, classify, last_card_step]
    by_cases h1 : c = COMPLETE
    · simp [h1]
    · by_cases h2 : c = PASS
      · subst h2
        simp [show PASS ≠ COMPLETE by decide]
      · simp [h1, h2]

theorem arbiter_iteration_last_played {σ : Type}
    (agent : σ → Nat → Message → σ × Option (List Char)) (start : Nat)
    (s : Arbiter) (a : σ) (t : Trace)
    (h : s.last_played_player = last_card_player start t.requests) :
    (arbiter_iteration agent s a t).1.last_played_player
      = last_card_player start (arbiter_iteration agent s a t).2.2.requests := by
  unfold arbiter_iteration
  split
  · exact h
  · simp only [last_card_player_append, ← h]
    exact arbiter_respond_last_played _ _ _

theorem arbiter_loop_last_played {σ : Type}
    (agent : σ → Nat → Message → σ × Option (List Char)) (start : Nat) (fuel : Nat) :
    ∀ (s : Arbiter) (a : σ) (t : Trace),
      s.last_played_player = last_card_player start t.requests →
      (arbiter_loop agent fuel s a t).1.last_played_player
        = last_card_player start (arbiter_loop agent fuel s a t).2.2.requests := by
  induction fuel with
  | zero => intro s a t h; exact h
  | succ fuel ih =>
    intro s a t h
    simp only [arbiter_loop]
    split
    · exact ih _ _ _ (arbiter_iteration_last_played agent start s a t h)
    · exact h

theorem arbiter_iteration_processed {σ : Type}
    (agent : σ → Nat → Message → σ × Option (List Char))
    (s : Arbiter) (a : σ) (t : Trace) (r : List Char)
    (h : (arbiter_iteration agent s a t).2.2.requests
      = t.requests ++ [(s.current_player, select_message (next_round s), some r)]) :
    (arbiter_iteration agent s a t).1 = reset_check (classify (next_round s) r) := by
  unfold arbiter_iteration at h ⊢
  split at h
  · simp at h
  · rename_i hc
    rw [if_neg hc]
    simp only [List.append_cancel_left_eq, List.cons.injEq, Prod.mk.injEq, and_true,
      true_and] at h
    simp only [h, arbiter_respond]

theorem arbiter_loop_succ {σ : Type}
    (agent : σ → Nat → Message → σ × Option (List Char)) (fuel : Nat) :
    ∀ (s : Arbiter) (a : σ) (t : Trace),
      arbiter_loop agent (fuel + 1) s a t
        = if (arbiter_loop agent fuel s a t).1.remaining_players > 1 then
            arbiter_iteration agent (arbiter_loop agent fuel s a t).1
              (arbiter_loop agent fuel s a t).2.1 (arbiter_loop agent fuel s a t).2.2
          else arbiter_loop agent fuel s a t := by
  induction fuel with
  | zero =>
    intro s a t
    simp only [arbiter_loop]
  | succ fuel ih =>
    intro s a t
    rw [arbiter_loop]
    by_cases hg : s.remaining_players > 1
    · rw [if_pos hg, ih]
      simp only [arbiter_loop, if_pos hg]
    · rw [if_neg hg]
      simp only [arbiter_loop, if_neg hg]

theorem game_run_succ {σ : Type}
    (agent : σ → Nat → Message → σ × Option (List Char)) (N sp : Nat) (a : σ) (fuel : Nat)
    (hg : (game_run agent N sp a fuel).1.remaining_players > 1) :
    game_run agent N sp a (fuel + 1)
      = arbiter_iteration agent (game_run agent N sp a fuel).1
          (game_run agent N sp a fuel).2.1 (game_run agent N sp a fuel).2.2 := by
  unfold game_run at hg ⊢
  rw [arbiter_loop_succ, if_pos hg]

theorem game_run_last_played {σ : Type}
    (agent : σ → Nat → Message → σ × Option (List Char)) (N sp : Nat) (a : σ) (fuel : Nat) :
    (game_run agent N sp a fuel).1.last_played_player
      = last_card_player sp (game_run agent N sp a fuel).2.2.requests :=
  arbiter_loop_last_played agent sp fuel _ _ _ rfl

theorem reset_check_of_eq (s : Arbiter) (h : s.pass_count = s.remaining_players - 1) :
    reset_check s = { s with
      current_player := s.last_played_player
      pass_count := 0
      last_card_value := 0
      last_card := D0 } := by
  unfold reset_check
  rw [if_pos h]

theorem reset_check_of_ne (s : Arbiter) (h : s.pass_count ≠ s.remaining_players - 1) :
    reset_check s = s := by
  unfold reset_check
  rw [if_neg h]

theorem classify_card (s : Arbiter) (c : List Char) (h1 : c ≠ COMPLETE) (h2 : c ≠ PASS) :
    classify s c = { s with
      last_card := c
      last_card_value := get_card_value c
      last_played_player := s.current_player
      pass_count := 0
      current_player := (s.current_player + 1) % s.num_players } := by
  unfold classify
  rw [if_neg h1, if_neg h2]

theorem classify_PASS (s : Arbiter) :
    classify s PASS = { s with
      pass_count := s.pass_count + 1
      current_player := (s.current_player + 1) % s.num_players } := by
  unfold classify
  rw [if_neg (by decide), if_pos rfl]

/-- C10: at the end of an iteration of the run that processed a response `r`, the trick is
reset exactly when `pass_count` equals `remaining_players - 1` after the classification:
then `pass_count` is 0, `last_card` is D0, `last_card_value` is 0 and the turn is the last
agent that played a card, and nothing else differs from the classified state; otherwise
the state is the classified state.  Scenario: with three active agents, after a card and
two passes the reset fires at the second pass only and the turn is back at the agent that
played the card. -/
theorem trick_reset {σ : Type} (agent : σ → Nat → Message → σ × Option (List Char))
    (N sp fuel : Nat) (a : σ) (r : List Char) (s : Arbiter) (c : List Char)
    (hguard : (game_run agent N sp a fuel).1.remaining_players > 1)
    (hresp : (game_run agent N sp a (fuel + 1)).2.2.requests
      = (game_run agent N sp a fuel).2.2.requests ++
          [((game_run agent N sp a fuel).1.current_player,
            select_message (next_round (game_run agent N sp a fuel).1), some r)])
    (hthree : s.remaining_players = 3) (hc1 : c ≠ COMPLETE) (hc2 : c ≠ PASS) :
    ((classify (next_round (game_run agent N sp a fuel).1) r).pass_count
        = (classify (next_round (game_run agent N sp a fuel).1) r).remaining_players - 1 →
      (game_run agent N sp a (fuel + 1)).1.pass_count = 0 ∧
      (game_run agent N sp a (fuel + 1)).1.last_card = D0 ∧
      (game_run agent N sp a (fuel + 1)).1.last_card_value = 0 ∧
      (game_run agent N sp a (fuel + 1)).1.current_player
        = last_card_player sp (game_run agent N sp a (fuel + 1)).2.2.requests ∧
      (game_run agent N sp a (fuel + 1)).1
        = { classify (next_round (game_run agent N sp a fuel).1) r with
            current_player :=
              (classify (next_round (game_run agent N sp a fuel).1) r).last_played_player
            pass_count := 0
            last_card_value := 0
            last_card := D0 }) ∧
    ((classify (next_round (game_run agent N sp a fuel).1) r).pass_count
        ≠ (classify (next_round (game_run agent N sp a fuel).1) r).remaining_players - 1 →
      (game_run agent N sp a (fuel + 1)).1
        = classify (next_round (game_run agent N sp a fuel).1) r) ∧
    ((classify s c).pass_count ≠ (classify s c).remaining_players - 1 ∧
      (classify (arbiter_respond s (some c)) PASS).pass_count
        ≠ (classify (arbiter_respond s (some c)) PASS).remaining_players - 1 ∧
      (classify (arbiter_respond (arbiter_respond s (some c)) (some PASS)) PASS).pass_count
        = (classify (arbiter_respond (arbiter_respond s (some c)) (some PASS))
            PASS).remaining_players - 1 ∧
      arbiter_respond (arbiter_respond (arbiter_respond s (some c)) (some PASS)) (some PASS)
        = { s with
            current_player := s.current_player
            last_played_player := s.current_player
            pass_count := 0
            last_card_value := 0
            last_card := D0 }) := by
  have hlp := game_run_last_played agent N sp a (fuel + 1)
  have hstate : (game_run agent N sp a (fuel + 1)).1
      = reset_check (classify (next_round (game_run agent N sp a fuel).1) r) := by
    rw [game_run_succ agent N sp a fuel hguard] at hresp ⊢
    exact arbiter_iteration_processed agent _ _ _ r hresp
  refine ⟨?_, ?_, ?_⟩
  · intro hcond
    have hreset := reset_check_of_eq _ hcond
    rw [← hlp, hstate, hreset]
    exact ⟨rfl, rfl, rfl, rfl, rfl⟩
  · intro hcond
    rw [hstate, reset_check_of_ne _ hcond]
  · have e1 : arbiter_respond s (some c) = classify s c := by
      simp only [arbiter_respond]
      apply reset_check_of_ne
      rw [classify_card s c hc1 hc2]
      simp only [hthree]
      omega
    have e2 : arbiter_respond (classify s c) (some PASS) = classify (classify s c) PASS := by
      simp only [arbiter_respond]
      apply reset_check_of_ne
      rw [classify_PASS, classify_card s c hc1 hc2]
      simp only [hthree]
      omega
    have h3 : (classify (classify (classify s c) PASS) PASS).pass_count
        = (classify (classify (classify s c) PASS) PASS).remaining_players - 1 := by
      rw [classify_PASS, classify_PASS, classify_card s c hc1 hc2]
      simp only [hthree]
      omega
    rw [e1, e2]
    refine ⟨?_, ?_, h3, ?_⟩
    · rw [classify_card s c hc1 hc2]
      simp only [hthree]
      omega
    · rw [classify_PASS, classify_card s c hc1 hc2]
      simp only [hthree]
      omega
    · simp only [arbiter_respond]
      rw [reset_check_of_eq _ h3, classify_PASS, classify_PASS, classify_card s c hc1 hc2]

/-- Witness of C10: the three-player game set up from the input D3 D4 D5 S2 C4 C5.  Agent 0
plays S2 in the fourth request, agents 1 and 2 pass, and the sixth iteration resets the
trick with the turn back at agent 0; the scenario part is taken at the initial state and
the card S2. -/
theorem trick_reset_witness :
    setup 3 [D3, ['D', '4'], ['D', '5'], ['S', '2'], ['C', '4'], ['C', '5']]
      = Setup.started 0 (arbiter_init 3 0) three_player_children ∧
    ((game_run children_agent 3 0 three_player_children 6).1.pass_count = 0 ∧
      (game_run children_agent 3 0 three_player_children 6).1.last_card = D0 ∧
      (game_run children_agent 3 0 three_player_children 6).1.last_card_value = 0 ∧
      (game_run children_agent 3 0 three_player_children 6).1.current_player
        = last_card_player 0 (game_run children_agent 3 0 three_player_children 6).2.2.requests ∧
      (game_run children_agent 3 0 three_player_children 6).1
        = { classify (next_round (game_run children_agent 3 0 three_player_children 5).1)
              PASS with
            current_player :=
              (classify (next_round (game_run children_agent 3 0 three_player_children 5).1)
                PASS).last_played_player
            pass_count := 0
            last_card_value := 0
            last_card := D0 }) ∧
    ((classify (arbiter_init 3 0) ['S', '2']).pass_count
        ≠ (classify (arbiter_init 3 0) ['S', '2']).remaining_players - 1 ∧
      (classify (arbiter_respond (arbiter_init 3 0) (some ['S', '2'])) PASS).pass_count
        ≠ (classify (arbiter_respond (arbiter_init 3 0) (some ['S', '2']))
            PASS).remaining_players - 1 ∧
      (classify (arbiter_respond (arbiter_respond (arbiter_init 3 0) (some ['S', '2']))
          (some PASS)) PASS).pass_count
        = (classify (arbiter_respond (arbiter_respond (arbiter_init 3 0) (some ['S', '2']))
            (some PASS)) PASS).remaining_players - 1 ∧
      arbiter_respond (arbiter_respond (arbiter_respond (arbiter_init 3 0)
          (some ['S', '2'])) (some PASS)) (some PASS)
        = { arbiter_init 3 0 with
            current_player := (arbiter_init 3 0).current_player
            last_played_player := (arbiter_init 3 0).current_player
            pass_count := 0
            last_card_value := 0
            last_card := D0 }) :=
  ⟨by decide,
    (trick_reset children_agent 3 0 5 three_player_children PASS (arbiter_init 3 0)
      ['S', '2'] (by decide) (by decide) (by decide) (by decide) (by decide)).1 (by decide),
    (trick_reset children_agent 3 0 5 three_player_children PASS (arbiter_init 3 0)
      ['S', '2'] (by decide) (by decide) (by decide) (by decide) (by decide)).2.2⟩

/-! ### Response classification -/

/-- C12: when the response of the current agent is a card `c` (neither COMPLETE nor PASS),
the classification sets the current highest card to `c`, the trick leader to the current
agent, `pass_count` to 0 and the turn to `(current + 1) mod N`, and leaves the completed
flags and `remaining_players` (and every other variable) as they were. -/
theorem played_response_classification (s : Arbiter) (c : List Char)
    (h1 : c ≠ COMPLETE) (h2 : c ≠ PASS) :
    (classify s c).last_card = c ∧
    (classify s c).last_card_value = get_card_value c ∧
    (classify s c).last_played_player = s.current_player ∧
    (classify s c).pass_count = 0 ∧
    (classify s c).current_player = (s.current_player + 1) % s.num_players ∧
    (classify s c).completed = s.completed ∧
    (classify s c).remaining_players = s.remaining_players ∧
    (classify s c).first_winner = s.first_winner ∧
    (classify s c).num_players = s.num_players ∧
    (classify s c).round = s.round := by
  rw [classify_card s c h1 h2]
  exact ⟨rfl, rfl, rfl, rfl, rfl, rfl, rfl, rfl, rfl, rfl⟩

/-- Witness of C12: the card D3 answered in the initial state of a three-player game. -/
theorem played_response_classification_witness :
    (classify (arbiter_init 3 0) D3).last_card = D3 ∧
    (classify (arbiter_init 3 0) D3).last_card_value = get_card_value D3 ∧
    (classify (arbiter_init 3 0) D3).last_played_player = (arbiter_init 3 0).current_player ∧
    (classify (arbiter_init 3 0) D3).pass_count = 0 ∧
    (classify (arbiter_init 3 0) D3).current_player
      = ((arbiter_init 3 0).current_player + 1) % (arbiter_init 3 0).num_players ∧
    (classify (arbiter_init 3 0) D3).completed = (arbiter_init 3 0).completed ∧
    (classify (arbiter_init 3 0) D3).remaining_players
      = (arbiter_init 3 0).remaining_players ∧
    (classify (arbiter_init 3 0) D3).first_winner = (arbiter_init 3 0).first_winner ∧
    (classify (arbiter_init 3 0) D3).num_players = (arbiter_init 3 0).num_players ∧
    (classify (arbiter_init 3 0) D3).round = (arbiter_init 3 0).round :=
  played_response_classification (arbiter_init 3 0) D3 (by decide) (by decide)

/-- C13: on a PASS response the classification (before the trick-reset check) increases
`pass_count` by exactly one and sets the turn to `(current + 1) mod N`; the current
highest card, the trick leader, the completed flags, `remaining_players`, the winner flag
and every other variable are unchanged. -/
theorem pass_response_classification (s : Arbiter) :
    classify s PASS
      = { num_players := s.num_players
          current_player := (s.current_player + 1) % s.num_players
          last_played_player := s.last_played_player
          completed := s.completed
          remaining_players := s.remaining_players
          last_card_value := s.last_card_value
          last_card := s.last_card
          round := s.round
          pass_count := s.pass_count + 1
          first_winner := s.first_winner } :=
  classify_PASS s

/-! ### Invariants of the parent loop -/

theorem count_false_set_true (l : List Bool) (i : Nat) (h : l.getD i true = false) :
    (l.set i true).count false + 1 = l.count false := by
  induction l generalizing i with
  | nil => simp at h
  | cons b bs ih =>
    cases i with
    | zero =>
      simp only [List.getD_cons_zero] at h
      subst h
      simp
    | succ i =>
      simp only [List.getD_cons_succ] at h
      have := ih i h
      cases b <;> simp [List.count_cons] <;> omega

theorem getD_set_true (l : List Bool) (i j : Nat) :
    (l.set i true).getD j false = (decide (j = i ∧ i < l.length) || l.getD j false) := by
  simp only [List.getD_eq_getElem?_getD, List.getElem?_set]
  by_cases hji : i = j
  · subst hji
    by_cases hl : i < l.length
    · simp [hl]
    · simp [hl, List.getElem?_eq_none (Nat.not_lt.1 hl)]
  · have : ¬ (j = i ∧ i < l.length) := fun h => hji h.1.symm
    simp [hji, this]

theorem getD_true_of_getD_false {l : List Bool} {i : Nat} (h : l.getD i false = false)
    (hi : i < l.length) : l.getD i true = false := by
  rw [List.getD_eq_getElem?_getD, List.getElem?_eq_getElem hi] at h ⊢
  exact h

theorem is_done_none : is_done none := Or.inl rfl

theorem is_done_some (c : List Char) : is_done (some c) ↔ c = COMPLETE := by
  simp [is_done]

/-- What one processed response does to the variables the invariants speak of. -/
theorem arbiter_respond_fields (s : Arbiter) (r : Option (List Char)) :
    (arbiter_respond s r).num_players = s.num_players ∧
    (arbiter_respond s r).round = s.round ∧
    (arbiter_respond s r).completed
      = (if is_done r then s.completed.set s.current_player true else s.completed) ∧
    (arbiter_respond s r).remaining_players
      = (if is_done r then s.remaining_players - 1 else s.remaining_players) ∧
    ((arbiter_respond s r).current_player = (s.current_player + 1) % s.num_players ∨
      (arbiter_respond s r).current_player = (arbiter_respond s r).last_played_player) ∧
    ((arbiter_respond s r).last_played_player = s.last_played_player ∨
      (arbiter_respond s r).last_played_player = s.current_player) ∧
    ((arbiter_respond s r).first_winner = true ↔
      (s.first_winner = true ∨ r = some COMPLETE)) := by
  cases r with
  | none =>
    simp only [arbiter_respond, channel_closed, if_pos is_done_none]
    simp
  | some c =>
    simp only [arbiter_respond, is_done_some]
    by_cases h1 : c = COMPLETE
    · subst h1
      simp only [classify, reset_check, if_true]
      split <;> simp
    · by_cases h2 : c = PASS
      · subst h2
        rw [classify_PASS]
        simp only [reset_check, if_neg h1]
        split <;> simp [h1]
      · rw [classify_card s c h1 h2]
        simp only [reset_check, if_neg h1]
        split <;> simp [h1]

theorem ArbiterOk_init (N sp : Nat) (hN : 0 < N) (hsp : sp < N) :
    ArbiterOk N (arbiter_init N sp) := by
  refine ⟨rfl, by simp [arbiter_init], hsp, hsp, by simp [arbiter_init], ?_, ?_⟩
  · simp [arbiter_init, List.count_replicate]
  · simp only [arbiter_init]; omega

theorem ArbiterOk_respond (N : Nat) (hN : 0 < N) (s : Arbiter) (r : Option (List Char))
    (hok : ArbiterOk N s) (hc : s.completed.getD s.current_player false = false)
    (hg : s.remaining_players > 1) :
    ArbiterOk N (arbiter_respond s r) := by
  obtain ⟨f1, f2, f3, f4, f5, f6, _⟩ := arbiter_respond_fields s r
  have hlast : (arbiter_respond s r).last_played_player < N := by
    rcases f6 with h | h
    · rw [h]; exact hok.last
    · rw [h]; exact hok.cur
  refine ⟨f1.trans hok.num, ?_, ?_, hlast, by rw [f2]; exact hok.round, ?_, ?_⟩
  · rw [f3]; split
    · rw [List.length_set]; exact hok.len
    · exact hok.len
  · rcases f5 with h | h
    · rw [h, hok.num]; exact Nat.mod_lt _ hN
    · rw [h]; exact hlast
  · rw [f3, f4]
    split
    · have hcur : s.current_player < s.completed.length := by rw [hok.len]; exact hok.cur
      have := count_false_set_true s.completed s.current_player
        (getD_true_of_getD_false hc hcur)
      rw [hok.rem]
      omega
    · exact hok.rem
  · rw [f4]
    split
    · omega
    · exact hok.rem_pos

theorem ArbiterOk_next_round (N : Nat) (s : Arbiter) (hok : ArbiterOk N s) :
    ArbiterOk N (next_round s) := by
  refine ⟨hok.num, hok.len, hok.cur, hok.last, ?_, hok.rem, hok.rem_pos⟩
  have := hok.round
  simp only [next_round]
  omega

theorem ArbiterOk_skip (N : Nat) (hN : 0 < N) (s : Arbiter) (hok : ArbiterOk N s) :
    ArbiterOk N { s with current_player := (s.current_player + 1) % s.num_players } := by
  refine ⟨hok.num, hok.len, ?_, hok.last, hok.round, hok.rem, hok.rem_pos⟩
  show (s.current_player + 1) % s.num_players < N
  rw [hok.num]
  exact Nat.mod_lt _ hN

theorem ArbiterOk_iteration {σ : Type} (agent : σ → Nat → Message → σ × Option (List Char))
    (N : Nat) (hN : 0 < N) (s : Arbiter) (a : σ) (t : Trace)
    (hok : ArbiterOk N s) (hg : s.remaining_players > 1) :
    ArbiterOk N (arbiter_iteration agent s a t).1 := by
  unfold arbiter_iteration
  split
  · exact ArbiterOk_skip N hN s hok
  · rename_i hc
    exact ArbiterOk_respond N hN (next_round s) _ (ArbiterOk_next_round N s hok)
      (by simpa [next_round] using hc) (by simpa [next_round] using hg)

theorem complete_agents_append (requests : List (Nat × Message × Option (List Char)))
    (p : Nat) (msg : Message) (r : Option (List Char)) :
    complete_agents (requests ++ [(p, msg, r)])
      = complete_agents requests ++ (if r = some COMPLETE then [p] else []) := by
  simp only [complete_agents, List.filter_append, List.map_append]
  by_cases h : r = some COMPLETE
  · simp [h, List.filter_cons]
  · simp [h, List.filter_cons]

theorem completion_announcements_append (l : List Nat) (p : Nat) :
    completion_announcements (l ++ [p])
      = completion_announcements l ++ [if l = [] then Event.winner p else Event.completes p] := by
  cases l with
  | nil => simp [completion_announcements]
  | cons w rest => simp [completion_announcements]

theorem announce_completion (s : Arbiter) (r : Option (List Char)) :
    (announce s r).filter is_completion_event
      = if r = some COMPLETE then
          [if s.first_winner = true then Event.completes s.current_player
            else Event.winner s.current_player]
        else [] := by
  cases r with
  | none => simp [announce]
  | some c =>
    simp only [announce, Option.some.injEq]
    by_cases h1 : c = COMPLETE
    · simp only [h1, if_true]
      by_cases hw : s.first_winner = true
      · simp [hw, is_completion_event]
      · simp [hw, is_completion_event]
    · rw [if_neg h1, if_neg h1]
      by_cases h2 : c = PASS
      · simp [h2, is_completion_event]
      · simp [h2, is_completion_event]

theorem TraceOk_init (N sp : Nat) : TraceOk (arbiter_init N sp) ⟨[], []⟩ := by
  refine ⟨by simp, ?_, by simp, by simp [arbiter_init, complete_agents], by
    simp [complete_agents, completion_announcements]⟩
  intro i hi
  simp only [arbiter_init, List.getD_eq_getElem?_getD, List.getElem?_replicate] at hi
  split at hi <;> simp at hi

theorem TraceOk_skip (s : Arbiter) (t : Trace) (htr : TraceOk s t) (c : Nat) :
    TraceOk { s with current_player := c } t :=
  ⟨htr.flagged, htr.source, htr.apart, htr.winner_flag, htr.events⟩

theorem TraceOk_respond (N : Nat) (s : Arbiter) (t : Trace) (msg : Message)
    (r : Option (List Char)) (hok : ArbiterOk N s) (htr : TraceOk s t)
    (hc : s.completed.getD s.current_player false = false) :
    TraceOk (arbiter_respond (next_round s) r)
      { requests := t.requests ++ [(s.current_player, msg, r)]
        events := t.events ++ announce (next_round s) r } := by
  have f3 : (arbiter_respond (next_round s) r).completed
      = (if is_done r then s.completed.set s.current_player true else s.completed) :=
    (arbiter_respond_fields (next_round s) r).2.2.1
  have f7 : (arbiter_respond (next_round s) r).first_winner = true ↔
      (s.first_winner = true ∨ r = some COMPLETE) :=
    (arbiter_respond_fields (next_round s) r).2.2.2.2.2.2
  have hcur : s.current_player < s.completed.length := by rw [hok.len]; exact hok.cur
  have hmono : ∀ i, s.completed.getD i false = true →
      (arbiter_respond (next_round s) r).completed.getD i false = true := by
    intro i hi
    rw [f3]
    split
    · rw [getD_set_true, hi]; simp
    · exact hi
  refine ⟨?_, ?_, ?_, ?_, ?_⟩
  · intro x hx hd
    simp only [List.mem_append, List.mem_singleton] at hx
    rcases hx with hx | hx
    · exact hmono _ (htr.flagged x hx hd)
    · subst hx
      simp only at hd ⊢
      rw [f3, if_pos hd, getD_set_true]
      simp [hcur]
  · intro i hi
    rw [f3] at hi
    by_cases hd : is_done r
    · rw [if_pos hd, getD_set_true] at hi
      by_cases hic : i = s.current_player
      · exact ⟨(s.current_player, msg, r), by simp, hic.symm, hd⟩
      · have : s.completed.getD i false = true := by simpa [hic] using hi
        obtain ⟨x, hx, h1, h2⟩ := htr.source i this
        exact ⟨x, by simp [hx], h1, h2⟩
    · rw [if_neg hd] at hi
      obtain ⟨x, hx, h1, h2⟩ := htr.source i hi
      exact ⟨x, by simp [hx], h1, h2⟩
  · simp only
    rw [List.pairwise_append]
    refine ⟨htr.apart, by simp, ?_⟩
    intro x hx y hy hd
    simp only [List.mem_singleton] at hy
    subst hy
    simp only
    intro heq
    have := htr.flagged x hx hd
    rw [← heq, hc] at this
    exact Bool.noConfusion this
  · simp only
    rw [complete_agents_append, f7, htr.winner_flag]
    by_cases h : r = some COMPLETE
    · simp [h]
    · simp [h]
  · simp only
    rw [List.filter_append, htr.events, announce_completion, complete_agents_append]
    by_cases h : r = some COMPLETE
    · rw [if_pos h, if_pos h, completion_announcements_append]
      congr 2
      simp only [next_round]
      by_cases hw : s.first_winner = true
      · rw [if_pos hw, if_neg (htr.winner_flag.1 hw)]
      · rw [if_neg hw, if_pos]
        by_contra hne
        exact hw (htr.winner_flag.2 hne)
    · rw [if_neg h, if_neg h]
      simp

theorem TraceOk_iteration {σ : Type} (agent : σ → Nat → Message → σ × Option (List Char))
    (N : Nat) (s : Arbiter) (a : σ) (t : Trace)
    (hok : ArbiterOk N s) (htr : TraceOk s t) :
    TraceOk (arbiter_iteration agent s a t).1 (arbiter_iteration agent s a t).2.2 := by
  unfold arbiter_iteration
  split
  · exact TraceOk_skip s t htr _
  · rename_i hc
    exact TraceOk_respond N s t _ _ hok htr (by simpa using hc)

/-- Both invariants hold along every run of the parent loop. -/
theorem run_invariants {σ : Type} (agent : σ → Nat → Message → σ × Option (List Char))
    (N : Nat) (hN : 0 < N) (fuel : Nat) :
    ∀ (s : Arbiter) (a : σ) (t : Trace), ArbiterOk N s → TraceOk s t →
      ArbiterOk N (arbiter_loop agent fuel s a t).1 ∧
      TraceOk (arbiter_loop agent fuel s a t).1 (arbiter_loop agent fuel s a t).2.2 := by
  induction fuel with
  | zero => intro s a t h1 h2; exact ⟨h1, h2⟩
  | succ fuel ih =>
    intro s a t h1 h2
    simp only [arbiter_loop]
    split
    · rename_i hg
      exact ih _ _ _ (ArbiterOk_iteration agent N hN s a t h1 hg)
        (TraceOk_iteration agent N s a t h1 h2)
    · exact ⟨h1, h2⟩

theorem game_run_invariants {σ : Type} (agent : σ → Nat → Message → σ × Option (List Char))
    (N sp : Nat) (hN : 0 < N) (hsp : sp < N) (a : σ) (fuel : Nat) :
    ArbiterOk N (game_run agent N sp a fuel).1 ∧
    TraceOk (game_run agent N sp a fuel).1 (game_run agent N sp a fuel).2.2 :=
  run_invariants agent N hN fuel _ _ _ (ArbiterOk_init N sp hN hsp) (TraceOk_init N sp)

theorem game_run_requests_step {σ : Type}
    (agent : σ → Nat → Message → σ × Option (List Char)) (N sp : Nat) (a : σ) (fuel : Nat)
    (x : Nat × Message × Option (List Char))
    (h : (game_run agent N sp a (fuel + 1)).2.2.requests
      = (game_run agent N sp a fuel).2.2.requests ++ [x]) :
    (game_run agent N sp a fuel).1.remaining_players > 1 ∧
    (game_run agent N sp a fuel).1.completed.getD
      (game_run agent N sp a fuel).1.current_player false = false ∧
    x.1 = (game_run agent N sp a fuel).1.current_player ∧
    x.2.1 = select_message (next_round (game_run agent N sp a fuel).1) := by
  by_cases hg : (game_run agent N sp a fuel).1.remaining_players > 1
  · rw [game_run_succ agent N sp a fuel hg] at h
    unfold arbiter_iteration at h
    split at h
    · simp at h
    · rename_i hc
      simp only [List.append_cancel_left_eq, List.cons.injEq, and_true] at h
      refine ⟨hg, by simpa using hc, ?_, ?_⟩
      · rw [← h]
      · rw [← h]
  · exfalso
    have : game_run agent N sp a (fuel + 1) = game_run agent N sp a fuel := by
      unfold game_run
      rw [arbiter_loop_succ]
      unfold game_run at hg
      rw [if_neg hg]
    rw [this] at h
    simp at h

/-- C14: for every sequence of responses, a request is only ever sent to an agent whose
completed flag is clear, and after a COMPLETE response (or a closed channel) of an agent
no later request goes to that agent. -/
theorem no_request_to_completed {σ : Type}
    (agent : σ → Nat → Message → σ × Option (List Char)) (N sp : Nat) (a : σ)
    (hsp : sp < N) :
    (∀ fuel x, (game_run agent N sp a (fuel + 1)).2.2.requests
        = (game_run agent N sp a fuel).2.2.requests ++ [x] →
      (game_run agent N sp a fuel).1.completed.getD x.1 false = false) ∧
    (∀ (fuel i j : Nat), i < j → ∀ x y : Nat × Message × Option (List Char),
      (game_run agent N sp a fuel).2.2.requests[i]? = some x →
      (game_run agent N sp a fuel).2.2.requests[j]? = some y →
      (x.2.2 = some COMPLETE ∨ x.2.2 = none) → y.1 ≠ x.1) := by
  constructor
  · intro fuel x h
    obtain ⟨_, h2, h3, _⟩ := game_run_requests_step agent N sp a fuel x h
    rw [h3]
    exact h2
  · intro fuel i j hij x y hx hy hd
    have hap := (game_run_invariants agent N sp (by omega) hsp a fuel).2.apart
    rw [List.pairwise_iff_getElem] at hap
    obtain ⟨hi, hxe⟩ := List.getElem?_eq_some.1 hx
    obtain ⟨hj, hye⟩ := List.getElem?_eq_some.1 hy
    have := hap i j hi hj hij
    rw [hxe, hye] at this
    exact this (by rcases hd with h | h; exact Or.inr h; exact Or.inl h)

/-- Witness of C14: the three-player game of the input D3 D4 D5 S2 C4 C5. -/
theorem no_request_to_completed_witness :
    (∀ fuel x, (game_run children_agent 3 0 three_player_children (fuel + 1)).2.2.requests
        = (game_run children_agent 3 0 three_player_children fuel).2.2.requests ++ [x] →
      (game_run children_agent 3 0 three_player_children fuel).1.completed.getD x.1 false
        = false) ∧
    (∀ (fuel i j : Nat), i < j → ∀ x y : Nat × Message × Option (List Char),
      (game_run children_agent 3 0 three_player_children fuel).2.2.requests[i]? = some x →
      (game_run children_agent 3 0 three_player_children fuel).2.2.requests[j]? = some y →
      (x.2.2 = some COMPLETE ∨ x.2.2 = none) → y.1 ≠ x.1) :=
  no_request_to_completed children_agent 3 0 three_player_children (by decide)

theorem loser_report_loop_spec (l : List Bool) :
    ∀ k, l.count false = 1 →
      ∃ i, i < l.length ∧ l.getD i true = false ∧
        (∀ j, j < l.length → l.getD j true = false → j = i) ∧
        loser_report_loop l k = [Event.loser (k + i)] := by
  induction l with
  | nil => intro k h; simp at h
  | cons b bs ih =>
    intro k h
    cases b with
    | false =>
      have h0 : bs.count false = 0 := by
        simp [List.count_cons] at h
        exact h
      refine ⟨0, by simp, by simp, ?_, by simp [loser_report_loop]⟩
      intro j hj hjf
      cases j with
      | zero => rfl
      | succ j =>
        exfalso
        simp only [List.getD_cons_succ] at hjf
        simp only [List.length_cons, Nat.add_lt_add_iff_right] at hj
        rw [List.getD_eq_getElem?_getD, List.getElem?_eq_getElem hj] at hjf
        have hmem : false ∈ bs := by
          have := List.getElem_mem hj
          simp only [Option.getD_some] at hjf
          rw [hjf] at this
          exact this
        exact (List.count_eq_zero.1 h0) hmem
    | true =>
      have h1 : bs.count false = 1 := by
        simp [List.count_cons] at h
        exact h
      obtain ⟨i, hi, hif, huniq, hrep⟩ := ih (k + 1) h1
      refine ⟨i + 1, by simpa using hi, by simpa using hif, ?_, ?_⟩
      · intro j hj hjf
        cases j with
        | zero => simp at hjf
        | succ j =>
          simp only [List.getD_cons_succ] at hjf
          simp only [List.length_cons, Nat.add_lt_add_iff_right] at hj
          rw [huniq j hj hjf]
      · simp only [loser_report_loop, Bool.not_true, Bool.false_eq_true, if_false]
        rw [hrep]
        congr 2
        omega

theorem loser_of_exit (N : Nat) (s : Arbiter) (hok : ArbiterOk N s)
    (hexit : ¬ s.remaining_players > 1) :
    ∃ i, i < N ∧ s.completed.getD i true = false ∧
      (∀ j, j < N → s.completed.getD j true = false → j = i) ∧
      loser_report s = [Event.loser i] := by
  have hrem : s.remaining_players = 1 := by
    have := hok.rem_pos
    omega
  have hcount : s.completed.count false = 1 := by
    have := hok.rem
    omega
  obtain ⟨i, hi, hif, huniq, hrep⟩ := loser_report_loop_spec s.completed 0 hcount
  rw [hok.len] at hi huniq
  refine ⟨i, hi, hif, huniq, ?_⟩
  unfold loser_report
  rw [List.take_of_length_le (by rw [hok.len, hok.num]), hrep]
  simp

/-- C15: for every sequence of responses, at every loop head `remaining_players` is the
number of agents whose completed flag is clear; when the loop exits exactly one agent is
not completed, and the loser report announces that agent. -/
theorem remaining_players_counts_active {σ : Type}
    (agent : σ → Nat → Message → σ × Option (List Char)) (N sp : Nat) (a : σ)
    (hsp : sp < N) :
    (∀ fuel, (game_run agent N sp a fuel).1.remaining_players
      = ((game_run agent N sp a fuel).1.completed.count false : Int)) ∧
    (∀ fuel, ¬ (game_run agent N sp a fuel).1.remaining_players > 1 →
      ∃ i, i < N ∧ (game_run agent N sp a fuel).1.completed.getD i true = false ∧
        (∀ j, j < N → (game_run agent N sp a fuel).1.completed.getD j true = false → j = i) ∧
        loser_report (game_run agent N sp a fuel).1 = [Event.loser i]) := by
  constructor
  · intro fuel
    exact (game_run_invariants agent N sp (by omega) hsp a fuel).1.rem
  · intro fuel hexit
    exact loser_of_exit N _ (game_run_invariants agent N sp (by omega) hsp a fuel).1 hexit

/-- Witness of C15: the three-player game of the input D3 D4 D5 S2 C4 C5. -/
theorem remaining_players_counts_active_witness :
    (∀ fuel, (game_run children_agent 3 0 three_player_children fuel).1.remaining_players
      = ((game_run children_agent 3 0 three_player_children fuel).1.completed.count false
          : Int)) ∧
    (∀ fuel, ¬ (game_run children_agent 3 0 three_player_children fuel).1.remaining_players
        > 1 →
      ∃ i, i < 3 ∧
        (game_run children_agent 3 0 three_player_children fuel).1.completed.getD i true
          = false ∧
        (∀ j, j < 3 →
          (game_run children_agent 3 0 three_player_children fuel).1.completed.getD j true
            = false → j = i) ∧
        loser_report (game_run children_agent 3 0 three_player_children fuel).1
          = [Event.loser i]) :=
  remaining_players_counts_active children_agent 3 0 three_player_children (by decide)

theorem filter_winner_of_completion (events : List Event) :
    (events.filter is_completion_event).filter is_winner_event
      = events.filter is_winner_event := by
  induction events with
  | nil => rfl
  | cons e es ih =>
    cases e <;> simp [List.filter_cons, is_completion_event, is_winner_event, ih]

theorem filter_winner_announcements (l : List Nat) :
    (completion_announcements l).filter is_winner_event
      = match l with
        | [] => []
        | w :: _ => [Event.winner w] := by
  cases l with
  | nil => rfl
  | cons w rest =>
    simp only [completion_announcements, List.filter_cons, is_winner_event, if_true]
    congr 1
    induction rest with
    | nil => rfl
    | cons r rs ih => simp [List.filter_cons, is_winner_event, ih]

theorem winner_events_of_trace (s : Arbiter) (t : Trace) (htr : TraceOk s t) :
    t.events.filter is_winner_event
      = match complete_agents t.requests with
        | [] => []
        | w :: _ => [Event.winner w] := by
  rw [← filter_winner_of_completion, htr.events, filter_winner_announcements]

theorem mem_complete_agents {requests : List (Nat × Message × Option (List Char))} {w : Nat}
    (h : w ∈ complete_agents requests) :
    ∃ x ∈ requests, x.1 = w ∧ x.2.2 = some COMPLETE := by
  simp only [complete_agents, List.mem_map, List.mem_filter, decide_eq_true_eq] at h
  obtain ⟨x, ⟨hx, hc⟩, hw⟩ := h
  exact ⟨x, hx, hw, hc⟩

theorem exists_flag_of_count (l : List Bool) (h1 : l.count false = 1) (h2 : 2 ≤ l.length) :
    ∃ i, l.getD i false = true := by
  by_contra hcon
  have hall : ∀ b ∈ l, false = b := by
    intro b hb
    cases b with
    | false => rfl
    | true =>
      exfalso
      obtain ⟨i, hi, hie⟩ := List.mem_iff_getElem.1 hb
      apply hcon
      refine ⟨i, ?_⟩
      rw [List.getD_eq_getElem?_getD, List.getElem?_eq_getElem hi, hie]
      rfl
  have := List.count_eq_length.2 hall
  omega

theorem winner_and_loser_of_exit (N : Nat) (hN : 2 ≤ N) (s : Arbiter) (t : Trace)
    (hok : ArbiterOk N s) (htr : TraceOk s t) (hexit : ¬ s.remaining_players > 1)
    (hopen : ∀ x ∈ t.requests, x.2.2 ≠ none) :
    ∃ w l, t.events.filter is_winner_event = [Event.winner w] ∧
      loser_report s = [Event.loser l] ∧ w ≠ l := by
  obtain ⟨l, _, hlf, _, hrep⟩ := loser_of_exit N s hok hexit
  have hcount : s.completed.count false = 1 := by
    have h1 := hok.rem
    have h2 := hok.rem_pos
    omega
  obtain ⟨i, hi⟩ := exists_flag_of_count s.completed hcount (by rw [hok.len]; exact hN)
  obtain ⟨x, hx, _, hxd⟩ := htr.source i hi
  have hxc : x.2.2 = some COMPLETE := by
    rcases hxd with h | h
    · exact absurd h (hopen x hx)
    · exact h
  have hne : complete_agents t.requests ≠ [] := by
    intro he
    have : x.1 ∈ complete_agents t.requests := by
      simp only [complete_agents, List.mem_map, List.mem_filter, decide_eq_true_eq]
      exact ⟨x, ⟨hx, hxc⟩, rfl⟩
    rw [he] at this
    simp at this
  have hw := winner_events_of_trace s t htr
  cases hca : complete_agents t.requests with
  | nil => exact absurd hca hne
  | cons w rest =>
    rw [hca] at hw
    refine ⟨w, l, hw, hrep, ?_⟩
    intro hwl
    have hwm : w ∈ complete_agents t.requests := by rw [hca]; simp
    obtain ⟨y, hy, hy1, hy2⟩ := mem_complete_agents hwm
    have := htr.flagged y hy (Or.inr hy2)
    rw [hy1, hwl] at this
    have hlN : l < s.completed.length := by
      by_contra hcon
      rw [List.getD_eq_getElem?_getD, List.getElem?_eq_none (Nat.not_lt.1 hcon)] at this
      simp at this
    rw [List.getD_eq_getElem?_getD, List.getElem?_eq_getElem hlN] at this hlf
    simp only [Option.getD_some] at this hlf
    rw [this] at hlf
    exact Bool.noConfusion hlf

/-- C17: in every run of the parent loop the winner is announced at most once; the
completion lines printed are the winner line for the agent of the first COMPLETE response
followed by an ordinary completion line for each later COMPLETE response; and a run with
at least two players that has left the loop without a closed channel has announced
exactly one winner, an agent different from the announced loser. -/
theorem winner_announcement {σ : Type}
    (agent : σ → Nat → Message → σ × Option (List Char)) (N sp : Nat) (a : σ) (fuel : Nat)
    (hsp : sp < N) :
    ((game_run agent N sp a fuel).2.2.events.filter is_winner_event).length ≤ 1 ∧
    (game_run agent N sp a fuel).2.2.events.filter is_completion_event
      = completion_announcements (complete_agents (game_run agent N sp a fuel).2.2.requests) ∧
    (2 ≤ N → ¬ (game_run agent N sp a fuel).1.remaining_players > 1 →
      (∀ x ∈ (game_run agent N sp a fuel).2.2.requests, x.2.2 ≠ none) →
      ∃ w l, (game_run agent N sp a fuel).2.2.events.filter is_winner_event = [Event.winner w] ∧
        loser_report (game_run agent N sp a fuel).1 = [Event.loser l] ∧ w ≠ l) := by
  obtain ⟨hok, htr⟩ := game_run_invariants agent N sp (by omega) hsp a fuel
  refine ⟨?_, htr.events, ?_⟩
  · rw [winner_events_of_trace _ _ htr]
    split <;> simp
  · intro hN hexit hopen
    exact winner_and_loser_of_exit N hN _ _ hok htr hexit hopen

/-- Witness of C17: the three-player game of the input D3 D4 D5 S2 C4 C5 after twelve
iterations; agent 0 is the winner and agent 2 the loser. -/
theorem winner_announcement_witness :
    ((game_run children_agent 3 0 three_player_children 12).2.2.events.filter
      is_winner_event).length ≤ 1 ∧
    (game_run children_agent 3 0 three_player_children 12).2.2.events.filter
        is_completion_event
      = completion_announcements
          (complete_agents (game_run children_agent 3 0 three_player_children 12).2.2.requests) ∧
    (∃ w l, (game_run children_agent 3 0 three_player_children 12).2.2.events.filter
        is_winner_event = [Event.winner w] ∧
      loser_report (game_run children_agent 3 0 three_player_children 12).1
        = [Event.loser l] ∧ w ≠ l) :=
  ⟨(winner_announcement children_agent 3 0 three_player_children 12 (by decide)).1,
    (winner_announcement children_agent 3 0 three_player_children 12 (by decide)).2.1,
    (winner_announcement children_agent 3 0 three_player_children 12 (by decide)).2.2
      (by decide) (by decide) (by decide)⟩

/-! ### Scenarios and the second variant -/

theorem arbiter_loop_of_exit {σ : Type}
    (agent : σ → Nat → Message → σ × Option (List Char)) (fuel : Nat)
    (s : Arbiter) (a : σ) (t : Trace) (h : ¬ s.remaining_players > 1) :
    arbiter_loop agent fuel s a t = (s, a, t) := by
  cases fuel with
  | zero => rfl
  | succ fuel => simp only [arbiter_loop, if_neg h]

theorem arbiter_loop_add {σ : Type}
    (agent : σ → Nat → Message → σ × Option (List Char)) (k m : Nat) :
    ∀ (s : Arbiter) (a : σ) (t : Trace),
      arbiter_loop agent (k + m) s a t
        = arbiter_loop agent m (arbiter_loop agent k s a t).1
            (arbiter_loop agent k s a t).2.1 (arbiter_loop agent k s a t).2.2 := by
  induction k with
  | zero => intro s a t; simp [arbiter_loop]
  | succ k ih =>
    intro s a t
    rw [Nat.add_right_comm]
    simp only [arbiter_loop]
    split
    · exact ih _ _ _
    · rename_i hg
      exact (arbiter_loop_of_exit agent m s a t hg).symm

theorem game_run_of_exit {σ : Type}
    (agent : σ → Nat → Message → σ × Option (List Char)) (N sp : Nat) (a : σ) (k m : Nat)
    (h : ¬ (game_run agent N sp a k).1.remaining_players > 1) :
    game_run agent N sp a (k + m) = game_run agent N sp a k := by
  unfold game_run at h ⊢
  rw [arbiter_loop_add, arbiter_loop_of_exit agent m _ _ _ h]

/-- C19: with two players and the input D3 D4, agent A (index 0) holds only D3 and agent
B (index 1) only D4; the run leaves the loop after three iterations, the lines printed
are "A plays D3", "B plays D4", "A is winner", and the loser report names B. -/
theorem two_player_scenario :
    setup 2 [D3, ['D', '4']] = Setup.started 0 (arbiter_init 2 0) two_player_children ∧
    (game_run children_agent 2 0 two_player_children 3).1.remaining_players = 1 ∧
    (∀ fuel, game_run children_agent 2 0 two_player_children (3 + fuel)
      = game_run children_agent 2 0 two_player_children 3) ∧
    (game_run children_agent 2 0 two_player_children 3).2.2.events
      = [Event.plays 0 D3, Event.plays 1 ['D', '4'], Event.winner 0] ∧
    loser_report (game_run children_agent 2 0 two_player_children 3).1 = [Event.loser 1] := by
  refine ⟨by decide, by decide, ?_, by decide, by decide⟩
  intro fuel
  exact game_run_of_exit children_agent 2 0 two_player_children 3 fuel (by decide)

theorem classify_round (s : Arbiter) (r : List Char) :
    (classify s r).round = s.round := by
  unfold classify
  split
  · rfl
  · split <;> rfl

/-- C11 does not hold of big2.c: in the three-player game of the input D3 D4 D5 S2 C4 C5
the sixth iteration resets the trick, and the request that follows goes to the trick
leader (agent 0) as PLAY with the card D0, not as LEAD.  In general, whenever an
iteration ends with a reset and the loop goes on, the next request selected is PLAY with
D0: the reset has set `pass_count` to 0, so the LEAD test of the request selection
fails. -/
theorem request_after_reset_is_play :
    ((classify (next_round (game_run children_agent 3 0 three_player_children 5).1)
        PASS).pass_count
      = (classify (next_round (game_run children_agent 3 0 three_player_children 5).1)
          PASS).remaining_players - 1) ∧
    (game_run children_agent 3 0 three_player_children 6).2.2.requests
      = (game_run children_agent 3 0 three_player_children 5).2.2.requests
          ++ [(2, ⟨Command.PLAY, ['S', '2']⟩, some PASS)] ∧
    (game_run children_agent 3 0 three_player_children 7).2.2.requests
      = (game_run children_agent 3 0 three_player_children 6).2.2.requests
          ++ [(0, ⟨Command.PLAY, D0⟩, some COMPLETE)] ∧
    (∀ (s : Arbiter) (r : List Char), 1 ≤ s.round →
      (classify (next_round s) r).pass_count
        = (classify (next_round s) r).remaining_players - 1 →
      (arbiter_respond (next_round s) (some r)).remaining_players > 1 →
      select_message (next_round (arbiter_respond (next_round s) (some r)))
        = ⟨Command.PLAY, D0⟩) := by
  refine ⟨by decide, by decide, by decide, ?_⟩
  intro s r hround hcond hg
  have hstate : arbiter_respond (next_round s) (some r)
      = { classify (next_round s) r with
          current_player := (classify (next_round s) r).last_played_player
          pass_count := 0
          last_card_value := 0
          last_card := D0 } := reset_check_of_eq _ hcond
  rw [hstate] at hg ⊢
  have hr : (classify (next_round s) r).round = (next_round s).round :=
    classify_round (next_round s) r
  simp only [select_message, next_round] at hg ⊢
  simp only [next_round] at hr
  rw [if_neg (by omega), if_neg (by omega)]

theorem rank_order_of_mem {r : Char} (h : r ∈ rank_sequence) :
    PlayGame.rank_order r = (rank_sequence.indexOf r : Int) := by
  simp only [rank_sequence, List.mem_cons, List.mem_singleton, List.not_mem_nil, or_false] at h
  rcases h with h | h | h | h | h | h | h | h | h | h | h | h | h <;> subst h <;> decide

theorem suit_order_of_mem {s : Char} (h : s ∈ suit_sequence) :
    PlayGame.suit_order s = (suit_sequence.indexOf s : Int) := by
  simp only [suit_sequence, List.mem_cons, List.mem_singleton, List.not_mem_nil, or_false] at h
  rcases h with h | h | h | h <;> subst h <;> decide

theorem card_orders_agree_aux (a b : List Char) (ha : valid_card a) (hb : valid_card b) :
    get_card_value a < get_card_value b ↔ PlayGame.card_compare a b < 0 := by
  rw [get_card_value_of_valid ha, get_card_value_of_valid hb]
  simp only [PlayGame.card_compare]
  rw [rank_order_of_mem ha.2.2, rank_order_of_mem hb.2.2, suit_order_of_mem ha.2.1,
    suit_order_of_mem hb.2.1]
  have hsa := suit_index_lt ha.2.1
  have hsb := suit_index_lt hb.2.1
  split
  · omega
  · rename_i h
    simp only [ne_eq, not_not] at h
    omega

/-- C20 (amended): on valid cards the two source variants order cards alike:
`get_card_value a < get_card_value b` in big2.c exactly when `card_compare a b` of
playGame.c is negative. -/
theorem card_orders_agree (a b : List Char) (ha : valid_card a) (hb : valid_card b) :
    get_card_value a < get_card_value b ↔ PlayGame.card_compare a b < 0 :=
  card_orders_agree_aux a b ha hb

/-- Witness of C20 (amended): the cards D3 and S3. -/
theorem card_orders_agree_witness :
    get_card_value ['D', '3'] < get_card_value ['S', '3'] ↔
      PlayGame.card_compare ['D', '3'] ['S', '3'] < 0 :=
  card_orders_agree ['D', '3'] ['S', '3'] (by decide) (by decide)

/-- C20 fails as stated: there are no two valid cards on which big2.c puts `a` below `b`
while `card_compare a b` of playGame.c is not negative. -/
theorem no_valid_cards_ordered_differently :
    ¬ ∃ a b : List Char, valid_card a ∧ valid_card b ∧
      get_card_value a < get_card_value b ∧ ¬ PlayGame.card_compare a b < 0 := by
  rintro ⟨a, b, ha, hb, h1, h2⟩
  exact h2 ((card_orders_agree_aux a b ha hb).1 h1)

/-! ### The game with children as agents -/

theorem hand_of_set (children : List Child) (i j : Nat) (c : Child) :
    hand_of (children.set i c) j
      = if j = i ∧ i < children.length then c.my_cards else hand_of children j := by
  simp only [hand_of, List.getElem?_set]
  by_cases hij : i = j
  · subst hij
    by_cases hl : i < children.length
    · simp [hl]
    · simp [hl, List.getElem?_eq_none (Nat.not_lt.1 hl)]
  · have : ¬ (j = i ∧ i < children.length) := fun h => hij h.1.symm
    simp [hij, this]

theorem hand_of_eq {children : List Child} {i : Nat} {c : Child}
    (h : children[i]? = some c) : hand_of children i = c.my_cards := by
  simp [hand_of, h]

theorem children_agent_running (children : List Child) (i : Nat) (msg : Message)
    (c : Child) (h1 : children[i]? = some c) (h2 : c.running = true) :
    children_agent children i msg
      = (children.set i (child_handle c.my_cards msg).2,
          some (child_handle c.my_cards msg).1) := by
  simp only [children_agent, h1, h2, if_true]

theorem children_iteration_eq (s : Arbiter) (children : List Child) (t : Trace) (c : Child)
    (hc : s.completed.getD s.current_player false = false)
    (h1 : children[s.current_player]? = some c) (h2 : c.running = true) :
    arbiter_iteration children_agent s children t
      = (reset_check (classify (next_round s)
            (child_handle c.my_cards (select_message (next_round s))).1),
          children.set s.current_player
            (child_handle c.my_cards (select_message (next_round s))).2,
          { requests := t.requests ++ [(s.current_player, select_message (next_round s),
              some (child_handle c.my_cards (select_message (next_round s))).1)]
            events := t.events ++ announce (next_round s)
              (some (child_handle c.my_cards (select_message (next_round s))).1) }) := by
  simp only [arbiter_iteration, hc, Bool.false_eq_true, if_false,
    children_agent_running children s.current_player _ c h1 h2, arbiter_respond]

theorem child_handle_pass (cards : List (List Char)) (msg : Message) (hne : cards ≠ [])
    (hfit : ∀ c ∈ cards, c.length ≤ 2) (h : (child_handle cards msg).1 = PASS) :
    child_handle cards msg = (PASS, ⟨cards, true⟩) ∧ msg.command = Command.PLAY ∧
      ∀ c ∈ cards, ¬ get_card_value c > get_card_value msg.card := by
  cases msg with
  | mk command card =>
    cases command with
    | FIRST =>
      exfalso
      simp only [child_handle] at h
      by_cases hd : D3 ∈ cards
      · obtain ⟨k, _, _, _, h4⟩ := (handle_FIRST_spec cards hne).1 hd
        rw [h4] at h
        have hD : D3 = PASS := h
        exact absurd hD (by decide)
      · rw [(handle_FIRST_spec cards hne).2 hd] at h
        exact fits_ne_PASS (hfit _ (getD_mem (find_min_spec cards hne).1)) h
    | PLAY =>
      simp only [child_handle] at h
      rcases handle_PLAY_spec cards card hne with ⟨h1, h2⟩ | ⟨k, hk, h1, _, _⟩
      · exact ⟨h1, rfl, h2⟩
      · rw [h1] at h
        exact absurd h (fits_ne_PASS (hfit _ (getD_mem hk)))
    | LEAD =>
      exfalso
      simp only [child_handle] at h
      rw [handle_LEAD_eq cards hne] at h
      exact fits_ne_PASS (hfit _ (getD_mem (find_min_spec cards hne).1)) h

theorem valid_card_fits {c : List Char} (h : valid_card c) : c.length ≤ 2 := by
  rw [h.1]

theorem valid_card_value {c : List Char} (h : valid_card c) : get_card_value c ≥ 31 := by
  rw [get_card_value_of_valid h]
  omega

/-- The three ways a child in its loop answers a request: COMPLETE on an empty hand, PASS
with the hand untouched, or a card that leaves the hand. -/
theorem child_response_cases (cards : List (List Char)) (msg : Message)
    (hvalid : ∀ c ∈ cards, valid_card c) :
    (cards = [] ∧ child_handle cards msg = (COMPLETE, ⟨[], false⟩)) ∨
    (cards ≠ [] ∧ child_handle cards msg = (PASS, ⟨cards, true⟩) ∧
      msg.command = Command.PLAY ∧
      ∀ c ∈ cards, ¬ get_card_value c > get_card_value msg.card) ∨
    (cards ≠ [] ∧ ∃ k, k < cards.length ∧
      child_handle cards msg = (cards.getD k [], ⟨cards.eraseIdx k, true⟩)) := by
  by_cases hne : cards = []
  · left
    subst hne
    exact ⟨rfl, handle_empty msg⟩
  · right
    rcases child_handle_cases cards msg hne with h | ⟨k, hk, h⟩
    · left
      have hp : (child_handle cards msg).1 = PASS := by rw [h]
      obtain ⟨h1, h2, h3⟩ := child_handle_pass cards msg hne
        (fun c hc => valid_card_fits (hvalid c hc)) hp
      exact ⟨hne, h1, h2, h3⟩
    · right
      exact ⟨hne, k, hk, h⟩

theorem pass_bounds_respond (s : Arbiter) (r : List Char) (h0 : 0 ≤ s.pass_count)
    (h1 : s.pass_count + 1 < s.remaining_players) :
    0 ≤ (arbiter_respond s (some r)).pass_count ∧
    ((arbiter_respond s (some r)).remaining_players > 1 →
      (arbiter_respond s (some r)).pass_count + 1
        < (arbiter_respond s (some r)).remaining_players) := by
  simp only [arbiter_respond]
  by_cases hc : r = COMPLETE
  · subst hc
    simp only [classify, reset_check, if_true]
    split <;> dsimp only <;> refine ⟨by omega, fun h => by omega⟩
  · by_cases hp : r = PASS
    · subst hp
      rw [classify_PASS]
      simp only [reset_check]
      split <;> dsimp only <;> refine ⟨by omega, fun h => by omega⟩
    · rw [classify_card s r hc hp]
      simp only [reset_check]
      split <;> dsimp only <;> refine ⟨by omega, fun h => by omega⟩

theorem getElem?_of_lt_children {children : List Child} {i : Nat} (h : i < children.length) :
    ∃ c, children[i]? = some c := ⟨children[i], List.getElem?_eq_getElem h⟩

/-- One iteration of the game with children at an agent whose completed flag is clear. -/
theorem children_step (N : Nat) (s : Arbiter) (children : List Child) (t : Trace)
    (hok : ArbiterOk N s) (hch : ChildrenOk N s children)
    (hc : s.completed.getD s.current_player false = false) :
    ∃ (r : List Char) (c1 : Child),
      arbiter_iteration children_agent s children t
        = (arbiter_respond (next_round s) (some r), children.set s.current_player c1,
            { requests := t.requests ++ [(s.current_player, select_message (next_round s),
                some r)]
              events := t.events ++ announce (next_round s) (some r) }) ∧
      ((hand_of children s.current_player = [] ∧ r = COMPLETE ∧ c1 = ⟨[], false⟩) ∨
        (hand_of children s.current_player ≠ [] ∧ r = PASS ∧
          c1 = ⟨hand_of children s.current_player, true⟩ ∧
          (select_message (next_round s)).command = Command.PLAY ∧
          ∀ card ∈ hand_of children s.current_player,
            ¬ get_card_value card > get_card_value (select_message (next_round s)).card) ∨
        (hand_of children s.current_player ≠ [] ∧
          ∃ k, k < (hand_of children s.current_player).length ∧
            r = (hand_of children s.current_player).getD k [] ∧
            c1 = ⟨(hand_of children s.current_player).eraseIdx k, true⟩)) := by
  obtain ⟨c, hcs⟩ := getElem?_of_lt_children (show s.current_player < children.length by
    rw [hch.len]; exact hok.cur)
  have hrun : c.running = true := (hch.running _ c hcs).2 hc
  have hhand : hand_of children s.current_player = c.my_cards := hand_of_eq hcs
  have hvalid : ∀ card ∈ c.my_cards, valid_card card := by
    intro card hcard
    exact hch.valid s.current_player card (by rw [hhand]; exact hcard)
  refine ⟨(child_handle c.my_cards (select_message (next_round s))).1,
    (child_handle c.my_cards (select_message (next_round s))).2,
    children_iteration_eq s children t c hc hcs hrun, ?_⟩
  rw [hhand]
  rcases child_response_cases c.my_cards (select_message (next_round s)) hvalid with
    ⟨h1, h2⟩ | ⟨h1, h2, h3, h4⟩ | ⟨h1, k, hk, h2⟩
  · left; rw [h2]; exact ⟨h1, rfl, rfl⟩
  · right; left; rw [h2]; exact ⟨h1, rfl, rfl, h3, h4⟩
  · right; right; rw [h2]; exact ⟨h1, k, hk, rfl, rfl⟩

theorem getD_set_true_ne (l : List Bool) (i j : Nat) (h : j ≠ i) :
    (l.set i true).getD j false = l.getD j false := by
  rw [getD_set_true]
  have : ¬ (j = i ∧ i < l.length) := fun hh => h hh.1
  simp [this]

theorem ChildrenOk_skip (N : Nat) (s : Arbiter) (children : List Child)
    (hch : ChildrenOk N s children) (c : Nat) :
    ChildrenOk N { s with current_player := c } children :=
  ⟨hch.len, hch.running, hch.valid, hch.pass_lo, hch.pass_hi⟩

theorem ChildrenOk_step (N : Nat) (s : Arbiter) (children : List Child)
    (hok : ArbiterOk N s) (hch : ChildrenOk N s children)
    (hg : s.remaining_players > 1)
    (hc : s.completed.getD s.current_player false = false)
    (r : List Char) (c1 : Child)
    (hcase : (hand_of children s.current_player = [] ∧ r = COMPLETE ∧ c1 = ⟨[], false⟩) ∨
        (hand_of children s.current_player ≠ [] ∧ r = PASS ∧
          c1 = ⟨hand_of children s.current_player, true⟩) ∨
        (hand_of children s.current_player ≠ [] ∧
          ∃ k, k < (hand_of children s.current_player).length ∧
            r = (hand_of children s.current_player).getD k [] ∧
            c1 = ⟨(hand_of children s.current_player).eraseIdx k, true⟩)) :
    ChildrenOk N (arbiter_respond (next_round s) (some r))
      (children.set s.current_player c1) := by
  have hcur : s.current_player < children.length := by rw [hch.len]; exact hok.cur
  have hcurc : s.current_player < s.completed.length := by rw [hok.len]; exact hok.cur
  have f3 : (arbiter_respond (next_round s) (some r)).completed
      = (if is_done (some r) then s.completed.set s.current_player true else s.completed) :=
    (arbiter_respond_fields (next_round s) (some r)).2.2.1
  have hpass := pass_bounds_respond (next_round s) r hch.pass_lo (hch.pass_hi hg)
  have hrc : (r = COMPLETE ↔ c1.running = false) ∧
      (∀ card ∈ c1.my_cards, valid_card card) := by
    rcases hcase with ⟨_, h2, h3⟩ | ⟨_, h2, h3⟩ | ⟨_, k, hk, h2, h3⟩
    · subst h2 h3
      exact ⟨by simp, by simp⟩
    · subst h2 h3
      exact ⟨by simp; decide, fun card hcard => hch.valid _ card hcard⟩
    · subst h3
      constructor
      · have := fits_ne_COMPLETE (valid_card_fits (hch.valid _ _ (h2 ▸ getD_mem hk)))
        simp only [Bool.true_eq_false, iff_false]
        exact this
      · intro card hcard
        exact hch.valid _ card (List.mem_of_mem_eraseIdx hcard)
  refine ⟨by rw [List.length_set]; exact hch.len, ?_, ?_, hpass.1, hpass.2⟩
  · intro i c hic
    rw [f3]
    rw [List.getElem?_set] at hic
    by_cases hi : s.current_player = i
    · subst hi
      rw [if_pos rfl, if_pos hcur] at hic
      have hce : c1 = c := Option.some.inj hic
      subst hce
      by_cases hr : r = COMPLETE
      · rw [if_pos ((is_done_some r).2 hr), getD_set_true]
        simp [hcurc, hrc.1.1 hr]
      · rw [if_neg (fun h => hr ((is_done_some r).1 h)), hc]
        have : c1.running ≠ false := fun h => hr (hrc.1.2 h)
        simp [this]
    · rw [if_neg hi] at hic
      have := hch.running i c hic
      split
      · rw [getD_set_true_ne _ _ _ (Ne.symm hi)]; exact this
      · exact this
  · intro i card hcard
    rw [hand_of_set] at hcard
    split at hcard
    · exact hrc.2 card hcard
    · exact hch.valid i card hcard

theorem total_cards_set (children : List Child) (i : Nat) (c c1 : Child)
    (h : children[i]? = some c) :
    total_cards (children.set i c1) + c.my_cards.length
      = total_cards children + c1.my_cards.length := by
  induction children generalizing i with
  | nil => simp at h
  | cons x xs ih =>
    cases i with
    | zero =>
      simp only [List.getElem?_cons_zero, Option.some.injEq] at h
      subst h
      simp only [total_cards, List.set_cons_zero, List.map_cons, List.sum_cons]
      omega
    | succ i =>
      simp only [List.getElem?_cons_succ] at h
      have := ih i h
      simp only [total_cards, List.set_cons_succ, List.map_cons, List.sum_cons] at this ⊢
      omega

theorem exists_active (N : Nat) (s : Arbiter) (hok : ArbiterOk N s) :
    ∃ j, j < N ∧ s.completed.getD j false = false := by
  have hpos : 0 < s.completed.count false := by
    have h1 := hok.rem
    have h2 := hok.rem_pos
    omega
  obtain ⟨j, hj, hje⟩ := List.mem_iff_getElem.1 (List.count_pos_iff.1 hpos)
  refine ⟨j, by rw [← hok.len]; exact hj, ?_⟩
  rw [List.getD_eq_getElem?_getD, List.getElem?_eq_getElem hj, hje]
  rfl

theorem arbiter_loop_skip {σ : Type} (agent : σ → Nat → Message → σ × Option (List Char))
    (fuel : Nat) (s : Arbiter) (a : σ) (t : Trace) (hg : s.remaining_players > 1)
    (hc : s.completed.getD s.current_player false = true) :
    arbiter_loop agent (fuel + 1) s a t
      = arbiter_loop agent fuel
          { s with current_player := (s.current_player + 1) % s.num_players } a t := by
  simp only [arbiter_loop, if_pos hg, arbiter_iteration, hc, if_true]

/-- From any loop head with the guard true, finitely many skipping iterations lead to a
loop head whose turn is an agent with a clear completed flag; nothing else changes. -/
theorem skip_to_active {σ : Type} (agent : σ → Nat → Message → σ × Option (List Char))
    (N : Nat) (hN : 0 < N) (d : Nat) :
    ∀ (s : Arbiter) (a : σ) (t : Trace), ArbiterOk N s → s.remaining_players > 1 →
      s.completed.getD ((s.current_player + d) % N) false = false →
      ∃ k c, c < N ∧ s.completed.getD c false = false ∧
        ∀ m, arbiter_loop agent (k + m) s a t
          = arbiter_loop agent m { s with current_player := c } a t := by
  induction d with
  | zero =>
    intro s a t hok _ hd
    rw [Nat.add_zero, Nat.mod_eq_of_lt hok.cur] at hd
    exact ⟨0, s.current_player, hok.cur, hd, fun m => by rw [Nat.zero_add]⟩
  | succ d ih =>
    intro s a t hok hg hd
    by_cases hc : s.completed.getD s.current_player false = false
    · exact ⟨0, s.current_player, hok.cur, hc, fun m => by rw [Nat.zero_add]⟩
    · have hc1 : s.completed.getD s.current_player false = true := by
        cases h : s.completed.getD s.current_player false with
        | false => exact absurd h hc
        | true => rfl
      have hok1 := ArbiterOk_skip N hN s hok
      have hd1 : s.completed.getD (((s.current_player + 1) % s.num_players + d) % N) false
          = false := by
        rw [hok.num, Nat.mod_add_mod, Nat.add_assoc, Nat.add_comm 1 d]
        exact hd
      obtain ⟨k, c, hcN, hcf, hloop⟩ := ih _ a t hok1 hg hd1
      refine ⟨k + 1, c, hcN, hcf, fun m => ?_⟩
      rw [Nat.add_right_comm, arbiter_loop_skip agent (k + m) s a t hg hc1]
      exact hloop m

theorem to_active {σ : Type} (agent : σ → Nat → Message → σ × Option (List Char))
    (N : Nat) (hN : 0 < N) (s : Arbiter) (a : σ) (t : Trace) (hok : ArbiterOk N s)
    (hg : s.remaining_players > 1) :
    ∃ k c, c < N ∧ s.completed.getD c false = false ∧
      ∀ m, arbiter_loop agent (k + m) s a t
        = arbiter_loop agent m { s with current_player := c } a t := by
  obtain ⟨j, hj, hjf⟩ := exists_active N s hok
  have hcur := hok.cur
  apply skip_to_active agent N hN (j + N - s.current_player) s a t hok hg
  have : s.current_player + (j + N - s.current_player) = j + N := by omega
  rw [this, Nat.add_mod_right, Nat.mod_eq_of_lt hj]
  exact hjf

theorem ArbiterOk_turn (N : Nat) (s : Arbiter) (hok : ArbiterOk N s) (c : Nat) (hc : c < N) :
    ArbiterOk N { s with current_player := c } :=
  ⟨hok.num, hok.len, hc, hok.last, hok.round, hok.rem, hok.rem_pos⟩

theorem remaining_le (N : Nat) (s : Arbiter) (hok : ArbiterOk N s) :
    s.remaining_players ≤ N := by
  have h1 := hok.rem
  have h2 := List.count_le_length false s.completed
  rw [hok.len] at h2
  omega

theorem value_D0 : get_card_value D0 = 1 := by decide

/-- Every iteration at an agent with a clear flag lowers the termination measure: a card
or a COMPLETE lowers its first component, a PASS keeps the first and lowers the second. -/
theorem children_step_measure (N : Nat) (s : Arbiter) (children : List Child) (t : Trace)
    (hok : ArbiterOk N s) (hch : ChildrenOk N s children) (hg : s.remaining_players > 1)
    (hc : s.completed.getD s.current_player false = false) :
    ArbiterOk N (arbiter_iteration children_agent s children t).1 ∧
    ChildrenOk N (arbiter_iteration children_agent s children t).1
      (arbiter_iteration children_agent s children t).2.1 ∧
    (progress_measure (arbiter_iteration children_agent s children t).1
        (arbiter_iteration children_agent s children t).2.1 + 1
        ≤ progress_measure s children ∨
      (progress_measure (arbiter_iteration children_agent s children t).1
          (arbiter_iteration children_agent s children t).2.1 = progress_measure s children ∧
        pass_measure (arbiter_iteration children_agent s children t).1 + 1
          ≤ pass_measure s)) := by
  have hN : 0 < N := Nat.lt_of_le_of_lt (Nat.zero_le _) hok.cur
  obtain ⟨r, c1, hiter, hcase⟩ := children_step N s children t hok hch hc
  have hok' := ArbiterOk_iteration children_agent N hN s children t hok hg
  rw [hiter] at hok' ⊢
  simp only at hok' ⊢
  obtain ⟨c, hcs⟩ := getElem?_of_lt_children (show s.current_player < children.length by
    rw [hch.len]; exact hok.cur)
  have hhand : hand_of children s.current_player = c.my_cards := hand_of_eq hcs
  have htot := total_cards_set children s.current_player c c1 hcs
  have f4 : (arbiter_respond (next_round s) (some r)).remaining_players
      = (if is_done (some r) then s.remaining_players - 1 else s.remaining_players) :=
    (arbiter_respond_fields (next_round s) (some r)).2.2.2.1
  have hplo := hch.pass_lo
  have hphi := hch.pass_hi hg
  refine ⟨hok', ?_, ?_⟩
  · apply ChildrenOk_step N s children hok hch hg hc r c1
    rcases hcase with h | ⟨h1, h2, h3, _⟩ | h
    · exact Or.inl h
    · exact Or.inr (Or.inl ⟨h1, h2, h3⟩)
    · exact Or.inr (Or.inr h)
  · rcases hcase with ⟨h1, h2, h3⟩ | ⟨h1, h2, h3, h4, h5⟩ | ⟨h1, k, hk, h2, h3⟩
    · left
      subst h2 h3
      rw [hhand] at h1
      rw [h1] at htot
      simp only [progress_measure]
      rw [f4, if_pos ((is_done_some COMPLETE).2 rfl)]
      simp only [List.length_nil] at htot
      omega
    · subst h2 h3
      have hne : s.last_card ≠ D0 := by
        intro he
        have hnr : (next_round s).round ≠ 2 := by
          intro h2r
          simp only [select_message, if_pos h2r] at h4
          exact Command.noConfusion h4
        have hnl : ¬ ((next_round s).pass_count = (next_round s).remaining_players - 1) := by
          intro hl
          simp only [select_message, if_neg hnr, if_pos hl] at h4
          exact Command.noConfusion h4
        have hcard : (select_message (next_round s)).card = D0 := by
          simp only [select_message, if_neg hnr, if_neg hnl]
          exact he
        rw [hcard, value_D0] at h5
        obtain ⟨x, xs, hx⟩ := List.exists_cons_of_ne_nil h1
        have hxm : x ∈ hand_of children s.current_player := by rw [hx]; simp
        have := valid_card_value (hch.valid _ x hxm)
        exact h5 x hxm (by omega)
      right
      constructor
      · simp only [progress_measure]
        rw [f4, if_neg (by rw [is_done_some]; decide)]
        have hl : (hand_of children s.current_player).length = c.my_cards.length := by
          rw [hhand]
        simp only at htot
        omega
      · simp only [arbiter_respond]
        rw [classify_PASS]
        simp only [pass_measure, reset_check, if_neg hne]
        split
        · simp only [next_round, if_true]
          omega
        · simp only [next_round, if_neg hne]
          omega
    · left
      subst h3
      simp only [progress_measure]
      have hnc : r ≠ COMPLETE := by
        rw [h2]
        exact fits_ne_COMPLETE (valid_card_fits (hch.valid _ _ (getD_mem hk)))
      rw [f4, if_neg (fun h => hnc ((is_done_some r).1 h))]
      have hl : (hand_of children s.current_player).length = c.my_cards.length := by
        rw [hhand]
      have he := List.length_eraseIdx_of_lt hk
      simp only at htot
      omega

theorem pass_measure_le (N : Nat) (s : Arbiter) (hok : ArbiterOk N s) (h0 : 0 ≤ s.pass_count) :
    pass_measure s ≤ N := by
  have := remaining_le N s hok
  simp only [pass_measure]
  split <;> omega

theorem children_loop_terminates (N : Nat) (n : Nat) :
    ∀ (s : Arbiter) (children : List Child) (t : Trace),
      ArbiterOk N s → ChildrenOk N s children →
      progress_measure s children * (N + 2) + pass_measure s ≤ n →
      ∃ fuel, ¬ (arbiter_loop children_agent fuel s children t).1.remaining_players > 1 := by
  induction n using Nat.strong_induction_on with
  | _ n ih =>
    intro s children t hok hch hn
    by_cases hg : s.remaining_players > 1
    · have hN : 0 < N := Nat.lt_of_le_of_lt (Nat.zero_le _) hok.cur
      obtain ⟨k, c, hcN, hcf, hloop⟩ := to_active children_agent N hN s children t hok hg
      have hok2 := ArbiterOk_turn N s hok c hcN
      have hch2 := ChildrenOk_skip N s children hch c
      obtain ⟨hok3, hch3, hdec⟩ := children_step_measure N
        { s with current_player := c } children t hok2 hch2 hg hcf
      have hq3 := pass_measure_le N _ hok3 hch3.pass_lo
      have hp2 : progress_measure { s with current_player := c } children
          = progress_measure s children := rfl
      have hq2 : pass_measure { s with current_player := c } = pass_measure s := rfl
      rw [hp2, hq2] at hdec
      have hlt : progress_measure
            (arbiter_iteration children_agent { s with current_player := c } children t).1
            (arbiter_iteration children_agent { s with current_player := c } children t).2.1
            * (N + 2)
          + pass_measure
            (arbiter_iteration children_agent { s with current_player := c } children t).1
          < n := by
        rcases hdec with h | ⟨h1, h2⟩
        · have := Nat.mul_le_mul_right (N + 2) h
          rw [Nat.add_mul, Nat.one_mul] at this
          omega
        · rw [h1]
          omega
      obtain ⟨fuel, hfuel⟩ := ih _ hlt _ _
        (arbiter_iteration children_agent { s with current_player := c } children t).2.2
        hok3 hch3 (Nat.le_refl _)
      refine ⟨k + (fuel + 1), ?_⟩
      rw [hloop (fuel + 1)]
      simp only [arbiter_loop]
      rw [if_pos (show ({ s with current_player := c } : Arbiter).remaining_players > 1 from hg)]
      exact hfuel
    · exact ⟨0, hg⟩

theorem mem_all_valid_cards {c : List Char} (h : valid_card c) : c ∈ all_valid_cards := by
  obtain ⟨hl, hs, hr⟩ := h
  match c, hl with
  | [s, r], _ =>
    simp only [cstr_at, List.getD_cons_zero, List.getD_cons_succ] at hs hr
    simp only [all_valid_cards, List.mem_flatMap, List.mem_map]
    exact ⟨s, hs, r, hr, rfl⟩

theorem length_le_of_valid (input : List (List Char)) (hvalid : ∀ t ∈ input, valid_card t)
    (hnd : input.Nodup) : input.length ≤ 52 := by
  have hsub : input ⊆ all_valid_cards := fun t ht => mem_all_valid_cards (hvalid t ht)
  have := (List.subperm_of_subset hnd hsub).length_le
  have hlen : all_valid_cards.length = 52 := by decide
  omega

theorem hand_of_map_deal (hands : List (List (List Char))) (i : Nat) :
    hand_of (hands.map (fun hand => (⟨hand, true⟩ : Child))) i = hands.getD i [] := by
  simp only [hand_of, List.getElem?_map, List.getD_eq_getElem?_getD]
  cases hands[i]? <;> rfl

/-- The set-up of a deal of distinct valid cards that contains D3: the game starts, and
the initial parent variables and children satisfy the invariants. -/
theorem setup_of_valid_deal (input : List (List Char)) (N : Nat)
    (hvalid : ∀ t ∈ input, valid_card t) (hnd : input.Nodup) (hD3 : D3 ∈ input)
    (hN : 1 ≤ N) :
    ∃ sp, sp < N ∧
      setup N input = Setup.started sp (arbiter_init N sp)
        ((deal N input).map (fun hand => ⟨hand, true⟩)) ∧
      ArbiterOk N (arbiter_init N sp) ∧
      ChildrenOk N (arbiter_init N sp) ((deal N input).map (fun hand => ⟨hand, true⟩)) := by
  have hlen := length_le_of_valid input hvalid hnd
  obtain ⟨hl, hex, hin⟩ := deal_partition input N hlen hN
  obtain ⟨p, hp, hcount, _⟩ := hex D3 hD3
  have hmem : D3 ∈ (deal N input).getD p [] := List.count_pos_iff.1 (by omega)
  have hsome : find_start_player (deal N input) 0 ≠ none := by
    intro hnone
    have := (find_start_player_none (deal N input) 0).1 hnone
    have hpl : p < (deal N input).length := by omega
    apply this ((deal N input)[p]) (List.getElem_mem hpl)
    rw [List.getD_eq_getElem?_getD, List.getElem?_eq_getElem hpl] at hmem
    exact hmem
  obtain ⟨sp, hsp⟩ := Option.ne_none_iff_exists'.1 hsome
  obtain ⟨hspN, _, _⟩ := start_player_unique input N sp hlen hN hsp
  refine ⟨sp, hspN, by simp only [setup, hsp], ArbiterOk_init N sp hN hspN, ?_⟩
  refine ⟨by simp [hl], ?_, ?_, by simp [arbiter_init], ?_⟩
  · intro i c hic
    simp only [List.getElem?_map, Option.map_eq_some'] at hic
    obtain ⟨hand, hh, hc⟩ := hic
    subst hc
    have hi : i < N := by
      have := (List.getElem?_eq_some.1 hh).1
      omega
    simp [arbiter_init, List.getD_eq_getElem?_getD, List.getElem?_replicate, hi]
  · intro i card hcard
    rw [hand_of_map_deal] at hcard
    by_cases hi : i < N
    · exact hvalid card (hin i hi card hcard)
    · rw [List.getD_eq_getElem?_getD, List.getElem?_eq_none (by omega)] at hcard
      simp at hcard
  · intro h
    simp only [arbiter_init] at h ⊢
    omega

/-- C16: for every deal of distinct valid cards that contains D3, dealt to `N >= 2` agents
that answer by the child strategy, the game starts and the parent loop reaches
`remaining_players = 1` after finitely many iterations: some number of iterations, and
every larger one, ends in a state with `remaining_players = 1`. -/
theorem game_terminates (input : List (List Char)) (N : Nat)
    (hvalid : ∀ t ∈ input, valid_card t) (hnd : input.Nodup) (hD3 : D3 ∈ input)
    (hN2 : 2 ≤ N) (_hN52 : N ≤ 52) :
    ∃ sp s children, setup N input = Setup.started sp s children ∧
      ∃ fuel, ∀ more,
        (arbiter_loop children_agent (fuel + more) s children ⟨[], []⟩).1.remaining_players
          = 1 := by
  obtain ⟨sp, _, hsetup, hok, hch⟩ := setup_of_valid_deal input N hvalid hnd hD3 (by omega)
  refine ⟨sp, _, _, hsetup, ?_⟩
  obtain ⟨fuel, hfuel⟩ := children_loop_terminates N _ _ _ ⟨[], []⟩ hok hch (Nat.le_refl _)
  refine ⟨fuel, fun more => ?_⟩
  rw [arbiter_loop_add, arbiter_loop_of_exit children_agent more _ _ _ hfuel]
  show (arbiter_loop children_agent fuel (arbiter_init N sp)
    ((deal N input).map (fun hand => ⟨hand, true⟩)) ⟨[], []⟩).1.remaining_players = 1
  have := (run_invariants children_agent N (by omega) fuel (arbiter_init N sp)
    ((deal N input).map (fun hand => ⟨hand, true⟩)) ⟨[], []⟩ hok
    (TraceOk_init N sp)).1.rem_pos
  omega

/-- Witness of C16: the deal of D3 D4 D5 S2 C4 C5 to three agents. -/
theorem game_terminates_witness :
    ∃ sp s children,
      setup 3 [D3, ['D', '4'], ['D', '5'], ['S', '2'], ['C', '4'], ['C', '5']]
        = Setup.started sp s children ∧
      ∃ fuel, ∀ more,
        (arbiter_loop children_agent (fuel + more) s children ⟨[], []⟩).1.remaining_players
          = 1 :=
  game_terminates [D3, ['D', '4'], ['D', '5'], ['S', '2'], ['C', '4'], ['C', '5']] 3
    (by decide) (by decide) (by decide) (by decide) (by decide)

/-! ### The game before the first COMPLETE -/

theorem next_turn (N cur : Nat) (h : cur < N) :
    (cur + 1) % N = if cur + 1 = N then 0 else cur + 1 := by
  by_cases hc : cur + 1 = N
  · rw [if_pos hc, hc, Nat.mod_self]
  · rw [if_neg hc, Nat.mod_eq_of_lt (by omega)]

theorem turn_distance_lt (N cur i : Nat) (hc : cur < N) (hi : i < N) :
    turn_distance N cur i < N := by
  simp only [turn_distance]; split <;> omega

theorem turn_distance_eq_zero (N cur i : Nat) (hc : cur < N) :
    turn_distance N cur i = 0 ↔ i = cur := by
  simp only [turn_distance]; split <;> omega

theorem turn_distance_inj (N cur i j : Nat) (hc : cur < N) (hi : i < N) (hj : j < N)
    (h : turn_distance N cur i = turn_distance N cur j) : i = j := by
  simp only [turn_distance] at h
  split at h <;> split at h <;> omega

theorem turn_distance_next_other (N cur i : Nat) (hc : cur < N) (hi : i < N) (hne : i ≠ cur) :
    turn_distance N ((cur + 1) % N) i + 1 = turn_distance N cur i := by
  rw [next_turn N cur hc]
  simp only [turn_distance]
  split <;> split <;> split <;> omega

theorem turn_distance_next_self (N cur : Nat) (hc : cur < N) :
    turn_distance N ((cur + 1) % N) cur + 1 = N := by
  rw [next_turn N cur hc]
  simp only [turn_distance]
  split <;> split <;> omega

theorem turn_distance_to_next (N L cur : Nat) (hL : L < N) (hc : cur < N)
    (h : turn_distance N L cur + 1 < N) :
    turn_distance N L ((cur + 1) % N) = turn_distance N L cur + 1 := by
  rw [next_turn N cur hc]
  simp only [turn_distance] at h ⊢
  split_ifs at h ⊢ <;> omega

theorem turn_distance_succ_self (N cur : Nat) (hc : cur < N) (hN : 2 ≤ N) :
    turn_distance N cur ((cur + 1) % N) = 1 := by
  rw [next_turn N cur hc]
  simp only [turn_distance]
  split <;> split <;> omega

theorem pass_needs_card (s : Arbiter) (hand : List (List Char)) (hne : hand ≠ [])
    (hvalid : ∀ card ∈ hand, valid_card card)
    (h4 : (select_message (next_round s)).command = Command.PLAY)
    (h5 : ∀ card ∈ hand,
      ¬ get_card_value card > get_card_value (select_message (next_round s)).card) :
    s.last_card ≠ D0 := by
  intro he
  have hnr : (next_round s).round ≠ 2 := by
    intro h2r
    simp only [select_message, if_pos h2r] at h4
    exact Command.noConfusion h4
  have hnl : ¬ ((next_round s).pass_count = (next_round s).remaining_players - 1) := by
    intro hl
    simp only [select_message, if_neg hnr, if_pos hl] at h4
    exact Command.noConfusion h4
  have hcard : (select_message (next_round s)).card = D0 := by
    simp only [select_message, if_neg hnr, if_neg hnl]
    exact he
  rw [hcard, value_D0] at h5
  obtain ⟨x, xs, hx⟩ := List.exists_cons_of_ne_nil hne
  have hxm : x ∈ hand := by rw [hx]; simp
  have := valid_card_value (hvalid x hxm)
  exact h5 x hxm (by omega)

/-- One iteration of the game with children while no agent has answered COMPLETE, when the
response is not COMPLETE either: the agent asked held a card, the other hands are
untouched, the shape of the game is kept, and either the turn moves to the next agent or
the trick was reset and every agent other than the new turn holds a card. -/
theorem phase_step (N : Nat) (hN : 2 ≤ N) (s : Arbiter) (children : List Child) (t : Trace)
    (hok : ArbiterOk N s) (hch : ChildrenOk N s children) (hbw : BeforeWinner N s children)
    (hnw : (arbiter_iteration children_agent s children t).1.first_winner = false) :
    BeforeWinner N (arbiter_iteration children_agent s children t).1
      (arbiter_iteration children_agent s children t).2.1 ∧
    hand_of children s.current_player ≠ [] ∧
    (∀ i, i ≠ s.current_player →
      hand_of (arbiter_iteration children_agent s children t).2.1 i = hand_of children i) ∧
    ((arbiter_iteration children_agent s children t).1.current_player
        = (s.current_player + 1) % N ∨
      ∀ i, i < N → hand_of (arbiter_iteration children_agent s children t).2.1 i = [] →
        i = (arbiter_iteration children_agent s children t).1.current_player) := by
  have hc := hbw.flags s.current_player
  obtain ⟨r, c1, hiter, hcase⟩ := children_step N s children t hok hch hc
  rw [hiter] at hnw ⊢
  simp only at hnw ⊢
  have f7 := (arbiter_respond_fields (next_round s) (some r)).2.2.2.2.2.2
  have hrc : r ≠ COMPLETE := by
    intro h
    have := f7.2 (Or.inr (by rw [h]))
    rw [hnw] at this
    exact Bool.noConfusion this
  have hfw : s.first_winner = false := by
    cases hw : s.first_winner with
    | false => rfl
    | true =>
      have := f7.2 (Or.inl hw)
      rw [hnw] at this
      exact Bool.noConfusion this
  have hcurN := hok.cur
  have hLN := hok.last
  have hcurl : s.current_player < children.length := by rw [hch.len]; exact hcurN
  have hother : ∀ i, i ≠ s.current_player →
      hand_of (children.set s.current_player c1) i = hand_of children i := by
    intro i hi
    rw [hand_of_set, if_neg (fun h => hi h.1)]
  have hrem := hbw.rem
  have hplo := hch.pass_lo
  have hphi := hch.pass_hi (by omega)
  rcases hcase with ⟨_, h2, _⟩ | ⟨h1, h2, h3, h4, h5⟩ | ⟨h1, k, hk, h2, h3⟩
  · exact absurd h2 hrc
  · subst h2 h3
    have hsame : ∀ i, hand_of (children.set s.current_player
        ⟨hand_of children s.current_player, true⟩) i = hand_of children i := by
      intro i
      rw [hand_of_set]
      split
      · rename_i h; rw [h.1]
      · rfl
    have hne := pass_needs_card s _ h1 (hch.valid _) h4 h5
    have hdist : (turn_distance N s.last_played_player s.current_player : Int)
        = s.pass_count + 1 := by
      rcases hbw.trick with ⟨_, _, h⟩ | h
      · exact absurd h hne
      · exact h
    refine ⟨?_, h1, fun i _ => hsame i, ?_⟩
    · simp only [arbiter_respond]
      rw [classify_PASS]
      by_cases hreset : s.pass_count + 1 = s.remaining_players - 1
      · rw [reset_check_of_eq _ (by simpa [next_round] using hreset)]
        refine ⟨hbw.flags, hbw.rem, Or.inl ⟨rfl, rfl, rfl⟩, ?_⟩
        intro i hi hiL hd
        exfalso
        simp only [next_round] at hiL hd
        have := (turn_distance_eq_zero N s.last_played_player i hLN).1 (by omega)
        exact hiL this
      · rw [reset_check_of_ne _ (by simpa [next_round] using hreset)]
        refine ⟨hbw.flags, hbw.rem, Or.inr ?_, ?_⟩
        · simp only [next_round]
          rw [hok.num, turn_distance_to_next N _ _ hLN hcurN (by omega)]
          push_cast
          omega
        · intro i hi hiL hd
          simp only [next_round] at hiL hd
          rw [hsame]
          by_cases hle : (turn_distance N s.last_played_player i : Int) ≤ s.pass_count
          · exact hbw.zone i hi hiL hle
          · have : i = s.current_player :=
              turn_distance_inj N s.last_played_player i s.current_player hLN hi hcurN
                (by omega)
            rw [this]
            exact h1
    · simp only [arbiter_respond]
      rw [classify_PASS]
      by_cases hreset : s.pass_count + 1 = s.remaining_players - 1
      · rw [reset_check_of_eq _ (by simpa [next_round] using hreset)]
        right
        intro i hi hempty
        simp only [next_round]
        rw [hsame] at hempty
        by_contra hiL
        have hd0 : turn_distance N s.last_played_player i ≠ 0 := fun h =>
          hiL ((turn_distance_eq_zero N s.last_played_player i hLN).1 h)
        have hdl := turn_distance_lt N s.last_played_player i hLN hi
        by_cases hle : (turn_distance N s.last_played_player i : Int) ≤ s.pass_count
        · exact hbw.zone i hi hiL hle hempty
        · have : i = s.current_player :=
            turn_distance_inj N s.last_played_player i s.current_player hLN hi hcurN
              (by omega)
          rw [this] at hempty
          exact h1 hempty
      · rw [reset_check_of_ne _ (by simpa [next_round] using hreset)]
        left
        simp only [next_round]
        rw [hok.num]
  · subst h3
    have hvc := hch.valid _ _ (getD_mem hk)
    rw [← h2] at hvc
    have hrp : r ≠ PASS := fits_ne_PASS (valid_card_fits hvc)
    have hnoreset : ¬ ((classify (next_round s) r).pass_count
        = (classify (next_round s) r).remaining_players - 1) := by
      rw [classify_card _ r hrc hrp]
      simp only [next_round]
      omega
    simp only [arbiter_respond]
    rw [reset_check_of_ne _ hnoreset, classify_card _ r hrc hrp]
    refine ⟨⟨hbw.flags, hbw.rem, Or.inr ?_, ?_⟩, h1, hother, Or.inl ?_⟩
    · simp only [next_round]
      rw [hok.num, turn_distance_succ_self N _ hcurN hN]
      rfl
    · intro i hi hiL hd
      exfalso
      simp only [next_round] at hiL hd
      have := (turn_distance_eq_zero N s.current_player i hcurN).1 (by omega)
      exact hiL this
    · simp only [next_round]
      rw [hok.num]

theorem ChildrenOk_iteration (N : Nat) (s : Arbiter) (children : List Child) (t : Trace)
    (hok : ArbiterOk N s) (hch : ChildrenOk N s children) (hg : s.remaining_players > 1) :
    ChildrenOk N (arbiter_iteration children_agent s children t).1
      (arbiter_iteration children_agent s children t).2.1 := by
  by_cases hc : s.completed.getD s.current_player false = false
  · exact (children_step_measure N s children t hok hch hg hc).2.1
  · have hc1 : s.completed.getD s.current_player false = true := by
      cases h : s.completed.getD s.current_player false with
      | false => exact absurd h hc
      | true => rfl
    simp only [arbiter_iteration, hc1, if_true]
    exact ChildrenOk_skip N s children hch _

theorem children_loop_ok (N : Nat) (hN : 0 < N) (fuel : Nat) :
    ∀ (s : Arbiter) (children : List Child) (t : Trace),
      ArbiterOk N s → ChildrenOk N s children →
      ArbiterOk N (arbiter_loop children_agent fuel s children t).1 ∧
      ChildrenOk N (arbiter_loop children_agent fuel s children t).1
        (arbiter_loop children_agent fuel s children t).2.1 := by
  induction fuel with
  | zero => intro s children t h1 h2; exact ⟨h1, h2⟩
  | succ fuel ih =>
    intro s children t h1 h2
    simp only [arbiter_loop]
    split
    · rename_i hg
      exact ih _ _ _ (ArbiterOk_iteration children_agent N hN s children t h1 hg)
        (ChildrenOk_iteration N s children t h1 h2 hg)
    · exact ⟨h1, h2⟩

theorem hand_empty_iteration (N : Nat) (s : Arbiter) (children : List Child) (t : Trace)
    (hok : ArbiterOk N s) (hch : ChildrenOk N s children) (i : Nat)
    (h : hand_of children i = []) :
    hand_of (arbiter_iteration children_agent s children t).2.1 i = [] := by
  by_cases hc : s.completed.getD s.current_player false = false
  · obtain ⟨r, c1, hiter, hcase⟩ := children_step N s children t hok hch hc
    rw [hiter]
    simp only
    rw [hand_of_set]
    split
    · rename_i hi
      rw [hi.1] at h
      rcases hcase with ⟨_, _, h3⟩ | ⟨h1, _⟩ | ⟨h1, _⟩
      · rw [h3]
      · exact absurd h h1
      · exact absurd h h1
    · exact h
  · have hc1 : s.completed.getD s.current_player false = true := by
      cases h : s.completed.getD s.current_player false with
      | false => exact absurd h hc
      | true => rfl
    simp only [arbiter_iteration, hc1, if_true]
    exact h

theorem game_run_step {σ : Type} (agent : σ → Nat → Message → σ × Option (List Char))
    (N sp : Nat) (a : σ) (k : Nat) :
    (¬ (game_run agent N sp a k).1.remaining_players > 1 ∧
      game_run agent N sp a (k + 1) = game_run agent N sp a k) ∨
    ((game_run agent N sp a k).1.remaining_players > 1 ∧
      game_run agent N sp a (k + 1)
        = arbiter_iteration agent (game_run agent N sp a k).1
            (game_run agent N sp a k).2.1 (game_run agent N sp a k).2.2) := by
  by_cases hg : (game_run agent N sp a k).1.remaining_players > 1
  · exact Or.inr ⟨hg, game_run_succ agent N sp a k hg⟩
  · exact Or.inl ⟨hg, game_run_of_exit agent N sp a k 1 hg⟩

theorem children_run_ok (N sp : Nat) (children : List Child)
    (hok : ArbiterOk N (arbiter_init N sp)) (hch : ChildrenOk N (arbiter_init N sp) children)
    (k : Nat) :
    ArbiterOk N (game_run children_agent N sp children k).1 ∧
    ChildrenOk N (game_run children_agent N sp children k).1
      (game_run children_agent N sp children k).2.1 :=
  children_loop_ok N (Nat.lt_of_le_of_lt (Nat.zero_le _) hok.cur) k _ _ _ hok hch

theorem hand_empty_mono (N sp : Nat) (children : List Child)
    (hok : ArbiterOk N (arbiter_init N sp)) (hch : ChildrenOk N (arbiter_init N sp) children)
    (i k : Nat) (h : hand_of (game_run children_agent N sp children k).2.1 i = []) :
    ∀ m, hand_of (game_run children_agent N sp children (k + m)).2.1 i = [] := by
  intro m
  induction m with
  | zero => exact h
  | succ m ih =>
    rw [← Nat.add_assoc]
    rcases game_run_step children_agent N sp children (k + m) with ⟨_, he⟩ | ⟨_, he⟩
    · rw [he]; exact ih
    · rw [he]
      obtain ⟨h1, h2⟩ := children_run_ok N sp children hok hch (k + m)
      exact hand_empty_iteration N _ _ _ h1 h2 i ih

theorem hand_empty_later (N sp : Nat) (children : List Child)
    (hok : ArbiterOk N (arbiter_init N sp)) (hch : ChildrenOk N (arbiter_init N sp) children)
    (i k m : Nat) (hkm : k ≤ m)
    (h : hand_of (game_run children_agent N sp children k).2.1 i = []) :
    hand_of (game_run children_agent N sp children m).2.1 i = [] := by
  have := hand_empty_mono N sp children hok hch i k h (m - k)
  rwa [Nat.add_sub_cancel' hkm] at this

theorem first_winner_iteration {σ : Type}
    (agent : σ → Nat → Message → σ × Option (List Char)) (s : Arbiter) (a : σ) (t : Trace)
    (h : (arbiter_iteration agent s a t).1.first_winner = false) :
    s.first_winner = false := by
  unfold arbiter_iteration at h
  split at h
  · exact h
  · have f7 := (arbiter_respond_fields (next_round s)
      (agent a s.current_player (select_message (next_round s))).2).2.2.2.2.2.2
    cases hw : s.first_winner with
    | false => rfl
    | true =>
      have := f7.2 (Or.inl hw)
      simp only at h
      rw [h] at this
      exact Bool.noConfusion this

theorem BeforeWinner_init (N sp : Nat) (hsp : sp < N) (children : List Child) :
    BeforeWinner N (arbiter_init N sp) children := by
  refine ⟨?_, rfl, Or.inl ⟨rfl, rfl, rfl⟩, ?_⟩
  · intro i
    simp only [arbiter_init, List.getD_eq_getElem?_getD, List.getElem?_replicate]
    split <;> rfl
  · intro i _ hi hd
    exfalso
    simp only [arbiter_init] at hi hd
    exact hi ((turn_distance_eq_zero N sp i hsp).1 (by omega))

/-- While no agent has answered COMPLETE, the game keeps its shape, and of two agents with
empty hands the one whose turn comes first had its hand empty no later than the other. -/
theorem before_winner_run (N sp : Nat) (hN : 2 ≤ N) (children : List Child)
    (hok : ArbiterOk N (arbiter_init N sp)) (hch : ChildrenOk N (arbiter_init N sp) children)
    (k : Nat) :
    (game_run children_agent N sp children k).1.first_winner = false →
    BeforeWinner N (game_run children_agent N sp children k).1
      (game_run children_agent N sp children k).2.1 ∧
    ∀ x y, x < N → y < N →
      hand_of (game_run children_agent N sp children k).2.1 x = [] →
      hand_of (game_run children_agent N sp children k).2.1 y = [] →
      turn_distance N (game_run children_agent N sp children k).1.current_player x
        ≤ turn_distance N (game_run children_agent N sp children k).1.current_player y →
      emptied_no_later N sp children k x y := by
  induction k with
  | zero =>
    intro _
    refine ⟨BeforeWinner_init N sp hok.cur children, ?_⟩
    intro x y _ _ hx _ _ m hm _
    have : m = 0 := by omega
    subst this
    exact hx
  | succ k ih =>
    intro hnw
    obtain ⟨hokk, hchk⟩ := children_run_ok N sp children hok hch k
    rcases game_run_step children_agent N sp children k with ⟨hg, he⟩ | ⟨hg, he⟩
    · rw [he] at hnw ⊢
      obtain ⟨hbw, hord⟩ := ih hnw
      exfalso
      have := hbw.rem
      omega
    · rw [he] at hnw
      have hnwk := first_winner_iteration children_agent _ _ _ hnw
      obtain ⟨hbw, hord⟩ := ih hnwk
      obtain ⟨hbw1, hcur, hother, hturn⟩ := phase_step N hN _ _ _ hokk hchk hbw hnw
      rw [← he] at hbw1 hother hturn
      refine ⟨hbw1, ?_⟩
      intro x y hx hy hxe hye hd
      have hcurN := hokk.cur
      have hlast : ∀ m, m ≤ k + 1 → ¬ m ≤ k →
          hand_of (game_run children_agent N sp children m).2.1 y = [] →
          hand_of (game_run children_agent N sp children m).2.1 x = [] := by
        intro m hm1 hm2 _
        have : m = k + 1 := by omega
        rw [this]
        exact hxe
      rcases hturn with hadv | hres
      · rw [hadv] at hd
        by_cases hxc : x = (game_run children_agent N sp children k).1.current_player
        · by_cases hyc : y = (game_run children_agent N sp children k).1.current_player
          · intro m _ hmy
            rw [hxc, ← hyc]
            exact hmy
          · exfalso
            have h1 := turn_distance_next_self N _ hcurN
            have h2 := turn_distance_next_other N _ y hcurN hy hyc
            have h3 := turn_distance_lt N
              (game_run children_agent N sp children k).1.current_player y hcurN hy
            rw [hxc] at hd
            omega
        · have hxk : hand_of (game_run children_agent N sp children k).2.1 x = [] := by
            rw [← hother x hxc]; exact hxe
          by_cases hyc : y = (game_run children_agent N sp children k).1.current_player
          · intro m hm hmy
            by_cases hmk : m ≤ k
            · exfalso
              apply hcur
              rw [← hyc]
              exact hand_empty_later N sp children hok hch y m k hmk hmy
            · exact hlast m hm hmk hmy
          · have hyk : hand_of (game_run children_agent N sp children k).2.1 y = [] := by
              rw [← hother y hyc]; exact hye
            have h1 := turn_distance_next_other N _ x hcurN hx hxc
            have h2 := turn_distance_next_other N _ y hcurN hy hyc
            have hprev := hord x y hx hy hxk hyk (by omega)
            intro m hm hmy
            by_cases hmk : m ≤ k
            · exact hprev m hmk hmy
            · exact hlast m hm hmk hmy
      · have hx1 := hres x hx hxe
        have hy1 := hres y hy hye
        intro m _ hmy
        rw [hx1, ← hy1]
        exact hmy

/-- A winner line printed in an iteration of the game with children is printed for the
agent whose turn it is, when no winner was announced before and that agent's hand is
empty. -/
theorem winner_event_iteration (N : Nat) (s : Arbiter) (children : List Child) (t : Trace)
    (hok : ArbiterOk N s) (hch : ChildrenOk N s children) (w : Nat)
    (h : Event.winner w ∈ (arbiter_iteration children_agent s children t).2.2.events) :
    Event.winner w ∈ t.events ∨
      (s.first_winner = false ∧ w = s.current_player ∧
        hand_of children s.current_player = []) := by
  by_cases hc : s.completed.getD s.current_player false = false
  · obtain ⟨r, c1, hiter, hcase⟩ := children_step N s children t hok hch hc
    rw [hiter] at h
    simp only [List.mem_append] at h
    rcases h with h | h
    · exact Or.inl h
    · right
      simp only [announce] at h
      by_cases hr : r = COMPLETE
      · rw [if_pos hr] at h
        have hempty : hand_of children s.current_player = [] := by
          rcases hcase with ⟨h1, _, _⟩ | ⟨_, h2, _⟩ | ⟨_, k, hk, h2, _⟩
          · exact h1
          · rw [h2] at hr; exact absurd hr (by decide)
          · exfalso
            have := fits_ne_COMPLETE (valid_card_fits (hch.valid _ _ (getD_mem hk)))
            rw [← h2] at this
            exact this hr
        by_cases hw : (next_round s).first_winner = true
        · rw [if_pos hw] at h
          simp at h
        · rw [if_neg hw] at h
          simp only [List.mem_singleton, Event.winner.injEq] at h
          refine ⟨?_, h, hempty⟩
          cases hfw : s.first_winner with
          | false => rfl
          | true => exact absurd hfw hw
      · rw [if_neg hr] at h
        by_cases hp : r = PASS
        · rw [if_pos hp] at h; simp at h
        · rw [if_neg hp] at h; simp at h
  · have hc1 : s.completed.getD s.current_player false = true := by
      cases h : s.completed.getD s.current_player false with
      | false => exact absurd h hc
      | true => rfl
    simp only [arbiter_iteration, hc1, if_true] at h
    exact Or.inl h

theorem winner_first_empty_run (N sp : Nat) (hN : 2 ≤ N) (children : List Child)
    (hok : ArbiterOk N (arbiter_init N sp)) (hch : ChildrenOk N (arbiter_init N sp) children)
    (fuel : Nat) :
    ∀ w, Event.winner w ∈ (game_run children_agent N sp children fuel).2.2.events →
      ∀ k j, j < N → hand_of (game_run children_agent N sp children k).2.1 j = [] →
        hand_of (game_run children_agent N sp children k).2.1 w = [] := by
  induction fuel with
  | zero =>
    intro w hw
    simp [game_run, arbiter_loop] at hw
  | succ K ih =>
    intro w hw k j hj hje
    obtain ⟨hokK, hchK⟩ := children_run_ok N sp children hok hch K
    rcases game_run_step children_agent N sp children K with ⟨_, he⟩ | ⟨_, he⟩
    · rw [he] at hw
      exact ih w hw k j hj hje
    · rw [he] at hw
      rcases winner_event_iteration N _ _ _ hokK hchK w hw with h | ⟨hfw, hwc, hempty⟩
      · exact ih w h k j hj hje
      · obtain ⟨_, hord⟩ := before_winner_run N sp hN children hok hch K hfw
        rw [← hwc] at hempty
        have hwN : w < N := by rw [hwc]; exact hokK.cur
        by_cases hk : k ≤ K
        · have hjK := hand_empty_later N sp children hok hch j k K hk hje
          have hd : turn_distance N (game_run children_agent N sp children K).1.current_player w
              ≤ turn_distance N (game_run children_agent N sp children K).1.current_player j := by
            rw [← hwc, (turn_distance_eq_zero N w w hwN).2 rfl]
            exact Nat.zero_le _
          exact hord w j hwN hj hempty hjK hd k hk hje
        · exact hand_empty_later N sp children hok hch w K k (by omega) hempty

theorem children_iteration_open (N : Nat) (s : Arbiter) (children : List Child) (t : Trace)
    (hok : ArbiterOk N s) (hch : ChildrenOk N s children)
    (h : ∀ x ∈ t.requests, x.2.2 ≠ none) :
    ∀ x ∈ (arbiter_iteration children_agent s children t).2.2.requests, x.2.2 ≠ none := by
  by_cases hc : s.completed.getD s.current_player false = false
  · obtain ⟨r, c1, hiter, _⟩ := children_step N s children t hok hch hc
    rw [hiter]
    intro x hx
    simp only [List.mem_append, List.mem_singleton] at hx
    rcases hx with hx | hx
    · exact h x hx
    · rw [hx]
      simp
  · have hc1 : s.completed.getD s.current_player false = true := by
      cases h : s.completed.getD s.current_player false with
      | false => exact absurd h hc
      | true => rfl
    simp only [arbiter_iteration, hc1, if_true]
    exact h

theorem children_loop_open (N : Nat) (hN : 0 < N) (fuel : Nat) :
    ∀ (s : Arbiter) (children : List Child) (t : Trace),
      ArbiterOk N s → ChildrenOk N s children → (∀ x ∈ t.requests, x.2.2 ≠ none) →
      ∀ x ∈ (arbiter_loop children_agent fuel s children t).2.2.requests, x.2.2 ≠ none := by
  induction fuel with
  | zero => intro s children t _ _ h; exact h
  | succ fuel ih =>
    intro s children t h1 h2 h
    simp only [arbiter_loop]
    split
    · rename_i hg
      exact ih _ _ _ (ArbiterOk_iteration children_agent N hN s children t h1 hg)
        (ChildrenOk_iteration N s children t h1 h2 hg)
        (children_iteration_open N s children t h1 h2 h)
    · exact h

/-- C18: for every deal of distinct valid cards that contains D3, dealt to `N >= 2` agents
that answer by the child strategy, a winner is announced, and the agent announced as
winner was the first to have an empty hand: at every loop head of the game at which some
agent's hand is empty, the winner's hand is empty too. -/
theorem winner_emptied_first (input : List (List Char)) (N : Nat)
    (hvalid : ∀ t ∈ input, valid_card t) (hnd : input.Nodup) (hD3 : D3 ∈ input)
    (hN2 : 2 ≤ N) (_hN52 : N ≤ 52) :
    ∃ sp s children, setup N input = Setup.started sp s children ∧
      (∃ fuel w,
        Event.winner w ∈ (arbiter_loop children_agent fuel s children ⟨[], []⟩).2.2.events) ∧
      ∀ fuel w,
        Event.winner w ∈ (arbiter_loop children_agent fuel s children ⟨[], []⟩).2.2.events →
        ∀ k j, j < N →
          hand_of (arbiter_loop children_agent k s children ⟨[], []⟩).2.1 j = [] →
          hand_of (arbiter_loop children_agent k s children ⟨[], []⟩).2.1 w = [] := by
  obtain ⟨sp, _, hsetup, hok, hch⟩ := setup_of_valid_deal input N hvalid hnd hD3 (by omega)
  refine ⟨sp, _, _, hsetup, ?_, ?_⟩
  · obtain ⟨fuel, hfuel⟩ := children_loop_terminates N _ _ _ ⟨[], []⟩ hok hch (Nat.le_refl _)
    obtain ⟨hokf, htrf⟩ := run_invariants children_agent N (by omega) fuel
      (arbiter_init N sp) ((deal N input).map (fun hand => ⟨hand, true⟩)) ⟨[], []⟩ hok
      (TraceOk_init N sp)
    have hopen := children_loop_open N (by omega) fuel (arbiter_init N sp)
      ((deal N input).map (fun hand => ⟨hand, true⟩)) ⟨[], []⟩ hok hch (by simp)
    obtain ⟨w, _, hw, _, _⟩ := winner_and_loser_of_exit N hN2 _ _ hokf htrf hfuel hopen
    refine ⟨fuel, w, ?_⟩
    have : Event.winner w ∈ [Event.winner w] := List.mem_singleton.2 rfl
    rw [← hw] at this
    exact (List.mem_filter.1 this).1
  · intro fuel w hw k j hj hje
    exact winner_first_empty_run N sp hN2 _ hok hch fuel w hw k j hj hje

/-- Witness of C18: the deal of D3 D4 D5 S2 C4 C5 to three agents. -/
theorem winner_emptied_first_witness :
    ∃ sp s children,
      setup 3 [D3, ['D', '4'], ['D', '5'], ['S', '2'], ['C', '4'], ['C', '5']]
        = Setup.started sp s children ∧
      (∃ fuel w,
        Event.winner w ∈ (arbiter_loop children_agent fuel s children ⟨[], []⟩).2.2.events) ∧
      ∀ fuel w,
        Event.winner w ∈ (arbiter_loop children_agent fuel s children ⟨[], []⟩).2.2.events →
        ∀ k j, j < 3 →
          hand_of (arbiter_loop children_agent k s children ⟨[], []⟩).2.1 j = [] →
          hand_of (arbiter_loop children_agent k s children ⟨[], []⟩).2.1 w = [] :=
  winner_emptied_first [D3, ['D', '4'], ['D', '5'], ['S', '2'], ['C', '4'], ['C', '5']] 3
    (by decide) (by decide) (by decide) (by decide) (by decide)

/-! ### Player count, cleared reference, single player -/

/-- C21: the run is rejected by the player count check, before any token is read, exactly
when the player count is at most 0 or above 52, whatever the input; for a player count in
1..52 the tokens are read and dealt to that many hands. -/
theorem player_count_check (num_players : Int) (input : List (List Char)) :
    (main_entry num_players input = Entry.invalid_player_count ↔
      num_players ≤ 0 ∨ num_players > 52) ∧
    (1 ≤ num_players ∧ num_players ≤ 52 →
      main_entry num_players input
        = Entry.deck_preparation num_players.toNat (read_cards input []) ∧
      (deal num_players.toNat input).length = num_players.toNat) := by
  constructor
  · unfold main_entry
    split <;> simp_all
  · intro h
    constructor
    · unfold main_entry
      rw [if_neg (by omega)]
    · exact (deal_flatten_perm input num_players.toNat (by omega)).1

theorem find_loops_agree : ∀ (cards : List (List Char)) (i : Nat) (mv : Int) (mi : Nat),
    (∀ c ∈ cards, get_card_value c > 1) →
    find_largest_loop 1 cards i mv mi = (find_min_card_index_loop cards i mv mi : Int) := by
  intro cards
  induction cards with
  | nil => intro i mv mi _; rfl
  | cons c cards ih =>
    intro i mv mi h
    have hc : get_card_value c > 1 := h c (List.mem_cons_self _ _)
    have hrest : ∀ c ∈ cards, get_card_value c > 1 :=
      fun x hx => h x (List.mem_cons_of_mem _ hx)
    simp only [find_largest_loop, find_min_card_index_loop]
    by_cases hlt : get_card_value c < mv
    · rw [if_pos ⟨hc, hlt⟩, if_pos hlt]
      exact ih (i + 1) (get_card_value c) i hrest
    · rw [if_neg (fun hh => hlt hh.2), if_neg hlt]
      exact ih (i + 1) mv mi hrest

theorem find_largest_D0_eq_min (cards : List (List Char)) (hne : cards ≠ [])
    (hval : ∀ c ∈ cards, get_card_value c > 1) :
    find_largest_card_index_greater_than cards (get_card_value D0)
      = (find_min_card_index cards : Int) := by
  cases cards with
  | nil => exact absurd rfl hne
  | cons c cards =>
    have hc : get_card_value c > 1 := hval c (List.mem_cons_self _ _)
    have hb := (get_card_value_bounds c).2
    have hrest : ∀ c ∈ cards, get_card_value c > 1 :=
      fun x hx => hval x (List.mem_cons_of_mem _ hx)
    rw [value_D0]
    simp only [find_largest_card_index_greater_than, find_min_card_index, find_largest_loop,
      find_min_card_index_loop]
    rw [if_pos ⟨hc, by omega⟩, if_pos (by omega)]
    exact find_loops_agree cards 1 (get_card_value c) 0 hrest

/-- C26: for a non-empty hand of valid cards the search of the PLAY handler against the
cleared reference D0 returns the index that the search of the LEAD handler returns, so a
PLAY request carrying D0 is answered as a LEAD request is: by the minimum card of the
hand, never by PASS. -/
theorem play_D0_is_lead (cards : List (List Char)) (hne : cards ≠ [])
    (hvalid : ∀ c ∈ cards, valid_card c) :
    find_largest_card_index_greater_than cards (get_card_value D0)
      = (find_min_card_index cards : Int) ∧
    handle_PLAY cards D0 = handle_LEAD cards ∧
    (handle_PLAY cards D0).1 = cards.getD (find_min_card_index cards) [] ∧
    (handle_PLAY cards D0).1 ≠ PASS ∧
    ∀ c ∈ cards, get_card_value ((handle_PLAY cards D0).1) ≤ get_card_value c := by
  have hval : ∀ c ∈ cards, get_card_value c > 1 := by
    intro c hc
    have := valid_card_value (hvalid c hc)
    omega
  have h1 := find_largest_D0_eq_min cards hne hval
  have hmin := find_min_spec cards hne
  have h2 : handle_PLAY cards D0 = handle_LEAD cards := by
    have hl : ¬ cards.length = 0 := by
      intro h0; exact hne (List.length_eq_zero.1 h0)
    simp only [handle_PLAY, handle_LEAD, if_neg hl, h1]
    rw [if_neg (by omega)]
    simp
  have h3 : (handle_PLAY cards D0).1 = cards.getD (find_min_card_index cards) [] := by
    rw [h2, handle_LEAD_eq cards hne]
  refine ⟨h1, h2, h3, ?_, ?_⟩
  · rw [h3]
    have hm : cards.getD (find_min_card_index cards) [] ∈ cards := by
      rw [List.getD_eq_getElem?_getD, List.getElem?_eq_getElem hmin.1]
      exact List.getElem_mem _
    exact fits_ne_PASS (valid_card_fits (hvalid _ hm))
  · rw [h3]
    exact hmin.2

/-- Witness of C26: the hand S2, D4, C4. -/
theorem play_D0_is_lead_witness :
    find_largest_card_index_greater_than [['S', '2'], ['D', '4'], ['C', '4']]
        (get_card_value D0)
      = (find_min_card_index [['S', '2'], ['D', '4'], ['C', '4']] : Int) ∧
    handle_PLAY [['S', '2'], ['D', '4'], ['C', '4']] D0
      = handle_LEAD [['S', '2'], ['D', '4'], ['C', '4']] ∧
    (handle_PLAY [['S', '2'], ['D', '4'], ['C', '4']] D0).1
      = [['S', '2'], ['D', '4'], ['C', '4']].getD
          (find_min_card_index [['S', '2'], ['D', '4'], ['C', '4']]) [] ∧
    (handle_PLAY [['S', '2'], ['D', '4'], ['C', '4']] D0).1 ≠ PASS ∧
    ∀ c ∈ [['S', '2'], ['D', '4'], ['C', '4']],
      get_card_value ((handle_PLAY [['S', '2'], ['D', '4'], ['C', '4']] D0).1)
        ≤ get_card_value c :=
  play_D0_is_lead [['S', '2'], ['D', '4'], ['C', '4']] (by decide) (by decide)

theorem setup_single_player (input : List (List Char)) (hlen : input.length ≤ 52)
    (hD3 : D3 ∈ input) :
    setup 1 input
      = Setup.started 0 (arbiter_init 1 0) ((deal 1 input).map (fun hand => ⟨hand, true⟩)) ∧
    D3 ∈ (deal 1 input).getD 0 [] := by
  obtain ⟨hl, hex, _⟩ := deal_partition input 1 hlen (Nat.le_refl 1)
  obtain ⟨p, hp, hcount, _⟩ := hex D3 hD3
  have hp0 : p = 0 := by omega
  subst hp0
  have hmem : D3 ∈ (deal 1 input).getD 0 [] := by
    by_contra hn
    rw [List.count_eq_zero_of_not_mem hn] at hcount
    omega
  refine ⟨?_, hmem⟩
  cases hf : find_start_player (deal 1 input) 0 with
  | none =>
    rw [find_start_player_none] at hf
    exfalso
    have h0 : 0 < (deal 1 input).length := by omega
    have hin : (deal 1 input).getD 0 [] ∈ deal 1 input := by
      rw [List.getD_eq_getElem?_getD, List.getElem?_eq_getElem h0]
      exact List.getElem_mem h0
    exact hf _ hin hmem
  | some sp =>
    have hsp := (start_player_unique input 1 sp hlen (Nat.le_refl 1) hf).1
    have : sp = 0 := by omega
    subst this
    simp only [setup, hf]

/-- C28 (amended): with one player and an input of at most 52 tokens that contains D3,
the set-up gives agent 0 the turn and a hand that holds D3; the guard of the parent loop
fails at once, so for every number of iterations allowed the run is the initial state
with the hand untouched, no request sent and no line printed; and the loser report names
agent 0 (printed as agent 1). -/
theorem single_player_game (input : List (List Char)) (hlen : input.length ≤ 52)
    (hD3 : D3 ∈ input) :
    ∃ children, setup 1 input = Setup.started 0 (arbiter_init 1 0) children ∧
      D3 ∈ hand_of children 0 ∧
      ¬ (arbiter_init 1 0).remaining_players > 1 ∧
      (∀ fuel, game_run children_agent 1 0 children fuel
        = (arbiter_init 1 0, children, ⟨[], []⟩)) ∧
      loser_report (arbiter_init 1 0) = [Event.loser 0] := by
  obtain ⟨hs, hmem⟩ := setup_single_player input hlen hD3
  obtain ⟨hl, _, _⟩ := deal_partition input 1 hlen (Nat.le_refl 1)
  refine ⟨_, hs, ?_, by decide, ?_, by decide⟩
  · have h0 : 0 < (deal 1 input).length := by omega
    simp only [hand_of, List.getElem?_map, List.getElem?_eq_getElem h0, Option.map_some']
    rw [List.getD_eq_getElem?_getD, List.getElem?_eq_getElem h0] at hmem
    exact hmem
  · intro fuel
    exact arbiter_loop_of_exit children_agent fuel _ _ _ (by decide)

/-- Witness of C28 (amended): the input D3 D4. -/
theorem single_player_game_witness :
    ∃ children, setup 1 [D3, ['D', '4']] = Setup.started 0 (arbiter_init 1 0) children ∧
      D3 ∈ hand_of children 0 ∧
      ¬ (arbiter_init 1 0).remaining_players > 1 ∧
      (∀ fuel, game_run children_agent 1 0 children fuel
        = (arbiter_init 1 0, children, ⟨[], []⟩)) ∧
      loser_report (arbiter_init 1 0) = [Event.loser 0] :=
  single_player_game [D3, ['D', '4']] (by decide) (by decide)

/-! ### The second variant: sorting and the choice of a card -/

theorem card_compare_trans {a b c : List Char} (h1 : PlayGame.card_compare a b ≤ 0)
    (h2 : PlayGame.card_compare b c ≤ 0) : PlayGame.card_compare a c ≤ 0 := by
  unfold PlayGame.card_compare at *
  generalize PlayGame.rank_order (cstr_at a 1) = ra at *
  generalize PlayGame.rank_order (cstr_at b 1) = rb at *
  generalize PlayGame.rank_order (cstr_at c 1) = rc at *
  generalize PlayGame.suit_order (cstr_at a 0) = sa at *
  generalize PlayGame.suit_order (cstr_at b 0) = sb at *
  generalize PlayGame.suit_order (cstr_at c 0) = sc at *
  simp only at h1 h2 ⊢
  split_ifs at h1 h2 ⊢ <;> omega

theorem card_compare_flip {a b : List Char} (h : PlayGame.card_compare a b > 0) :
    PlayGame.card_compare b a ≤ 0 := by
  unfold PlayGame.card_compare at *
  generalize PlayGame.rank_order (cstr_at a 1) = ra at *
  generalize PlayGame.rank_order (cstr_at b 1) = rb at *
  generalize PlayGame.suit_order (cstr_at a 0) = sa at *
  generalize PlayGame.suit_order (cstr_at b 0) = sb at *
  simp only at h ⊢
  split_ifs at h ⊢ <;> omega

theorem card_compare_above {a b c : List Char} (h1 : PlayGame.card_compare a b > 0)
    (h2 : PlayGame.card_compare a c ≤ 0) : PlayGame.card_compare c b > 0 := by
  unfold PlayGame.card_compare at *
  generalize PlayGame.rank_order (cstr_at a 1) = ra at *
  generalize PlayGame.rank_order (cstr_at b 1) = rb at *
  generalize PlayGame.rank_order (cstr_at c 1) = rc at *
  generalize PlayGame.suit_order (cstr_at a 0) = sa at *
  generalize PlayGame.suit_order (cstr_at b 0) = sb at *
  generalize PlayGame.suit_order (cstr_at c 0) = sc at *
  simp only at h1 h2 ⊢
  split_ifs at h1 h2 ⊢ <;> omega

theorem beats_iff_card_compare (h current : List Char) :
    (PlayGame.rank_order (cstr_at h 1) > PlayGame.rank_order (cstr_at current 1) ∨
      (PlayGame.rank_order (cstr_at h 1) = PlayGame.rank_order (cstr_at current 1) ∧
        PlayGame.suit_order (cstr_at h 0) > PlayGame.suit_order (cstr_at current 0)))
      ↔ PlayGame.card_compare h current > 0 := by
  unfold PlayGame.card_compare
  generalize PlayGame.rank_order (cstr_at h 1) = ra
  generalize PlayGame.rank_order (cstr_at current 1) = rb
  generalize PlayGame.suit_order (cstr_at h 0) = sa
  generalize PlayGame.suit_order (cstr_at current 0) = sb
  simp only
  split_ifs <;> omega

theorem sort_hand_shift_spec (temp : List Char) :
    ∀ (below moved : List (List Char)),
      PlayGame.ascending below.reverse → PlayGame.ascending moved →
      (∀ m ∈ moved, PlayGame.card_compare temp m ≤ 0) →
      (∀ x ∈ below, ∀ m ∈ moved, PlayGame.card_compare x m ≤ 0) →
      PlayGame.ascending (PlayGame.sort_hand_shift temp below moved) ∧
      (PlayGame.sort_hand_shift temp below moved).Perm (below.reverse ++ temp :: moved) := by
  intro below
  induction below with
  | nil =>
    intro moved _ hm ht _
    simp only [PlayGame.sort_hand_shift, List.reverse_nil, List.nil_append]
    exact ⟨List.pairwise_cons.2 ⟨ht, hm⟩, List.Perm.refl _⟩
  | cons h below ih =>
    intro moved hb hm ht hx
    simp only [List.reverse_cons] at hb
    have hb1 : PlayGame.ascending below.reverse := (List.pairwise_append.1 hb).1
    have hbh : ∀ x ∈ below, PlayGame.card_compare x h ≤ 0 := by
      intro x hxm
      exact (List.pairwise_append.1 hb).2.2 x (List.mem_reverse.2 hxm) h
        (List.mem_singleton_self h)
    simp only [PlayGame.sort_hand_shift]
    by_cases hc : PlayGame.card_compare h temp > 0
    · rw [if_pos hc]
      have hrec := ih (h :: moved)  hb1
        (List.pairwise_cons.2 ⟨fun m hmm => hx h (List.mem_cons_self _ _) m hmm, hm⟩)
        (by
          intro m hmm
          rcases List.mem_cons.1 hmm with e | e
          · rw [e]; exact card_compare_flip hc
          · exact ht m e)
        (by
          intro x hxm m hmm
          rcases List.mem_cons.1 hmm with e | e
          · rw [e]; exact hbh x hxm
          · exact hx x (List.mem_cons_of_mem _ hxm) m e)
      refine ⟨hrec.1, hrec.2.trans ?_⟩
      simp only [List.reverse_cons, List.append_assoc, List.singleton_append]
      exact List.Perm.append_left _ (List.Perm.swap _ _ _)
    · rw [if_neg hc]
      have hle : PlayGame.card_compare h temp ≤ 0 := by omega
      refine ⟨?_, ?_⟩
      · unfold PlayGame.ascending
        rw [List.pairwise_append]
        refine ⟨hb1, ?_, ?_⟩
        · refine List.pairwise_cons.2 ⟨?_, List.pairwise_cons.2 ⟨ht, hm⟩⟩
          intro m hmm
          rcases List.mem_cons.1 hmm with e | e
          · rw [e]; exact hle
          · exact hx h (List.mem_cons_self _ _) m e
        · intro x hxm m hmm
          have hxb : x ∈ below := List.mem_reverse.1 hxm
          rcases List.mem_cons.1 hmm with e | e
          · rw [e]; exact hbh x hxb
          · rcases List.mem_cons.1 e with e1 | e1
            · rw [e1]; exact card_compare_trans (hbh x hxb) hle
            · exact hx x (List.mem_cons_of_mem _ hxb) m e1
      · simp [List.reverse_cons]

theorem sort_hand_loop_spec : ∀ (rest sorted : List (List Char)),
    PlayGame.ascending sorted →
    PlayGame.ascending (PlayGame.sort_hand_loop sorted rest) ∧
    (PlayGame.sort_hand_loop sorted rest).Perm (sorted ++ rest) := by
  intro rest
  induction rest with
  | nil =>
    intro sorted hs
    simp only [PlayGame.sort_hand_loop, List.append_nil]
    exact ⟨hs, List.Perm.refl _⟩
  | cons temp rest ih =>
    intro sorted hs
    simp only [PlayGame.sort_hand_loop]
    have hshift := sort_hand_shift_spec temp sorted.reverse []
      (by rw [List.reverse_reverse]; exact hs) List.Pairwise.nil
      (by intro m hm; simp at hm) (by intro x _ m hm; simp at hm)
    rw [List.reverse_reverse] at hshift
    have hrec := ih _ hshift.1
    refine ⟨hrec.1, hrec.2.trans ?_⟩
    have := List.Perm.append_right rest hshift.2
    simpa using this

theorem sort_hand_spec (hand : List (List Char)) :
    PlayGame.ascending (PlayGame.sort_hand hand) ∧ (PlayGame.sort_hand hand).Perm hand := by
  cases hand with
  | nil => exact ⟨List.Pairwise.nil, List.Perm.refl _⟩
  | cons c rest =>
    simp only [PlayGame.sort_hand]
    have := sort_hand_loop_spec rest [c] (List.pairwise_singleton _ _)
    simpa using this

theorem card_compare_precedes (a b : List Char) (ha : valid_card a) (hb : valid_card b) :
    PlayGame.card_compare a b < 0 ↔
      precedes rank_sequence (cstr_at a 1) (cstr_at b 1) ∨
        (cstr_at a 1 = cstr_at b 1 ∧
          precedes suit_sequence (cstr_at a 0) (cstr_at b 0)) := by
  have hrinj := List.indexOf_inj ha.2.2 hb.2.2
  simp only [PlayGame.card_compare]
  rw [rank_order_of_mem ha.2.2, rank_order_of_mem hb.2.2, suit_order_of_mem ha.2.1,
    suit_order_of_mem hb.2.1]
  unfold precedes
  constructor
  · intro h
    by_cases hr : rank_sequence.indexOf (cstr_at a 1) = rank_sequence.indexOf (cstr_at b 1)
    · right
      refine ⟨hrinj.1 hr, ?_⟩
      rw [if_neg (by simp [hr])] at h
      omega
    · left
      rw [if_pos (by simpa using hr)] at h
      omega
  · rintro (h | ⟨h1, h2⟩)
    · rw [if_pos (by
        intro e
        have := Int.ofNat.inj e
        omega)]
      omega
    · rw [h1, if_neg (by simp)]
      omega

/-- C25: `sort_hand` returns a permutation of the hand in which no card is above a later
card under `card_compare`, so that the first card of the result is not above any card
of the hand; between valid cards `card_compare` puts the rank order 3..2 first and the
suit order D, C, H, S second. -/
theorem sort_hand_sorts (hand : List (List Char)) :
    (PlayGame.sort_hand hand).Perm hand ∧
    (PlayGame.sort_hand hand).Pairwise (fun a b => PlayGame.card_compare a b ≤ 0) ∧
    (∀ c ∈ hand, PlayGame.card_compare ((PlayGame.sort_hand hand).getD 0 []) c ≤ 0) ∧
    (∀ a b, valid_card a → valid_card b →
      (PlayGame.card_compare a b < 0 ↔
        precedes rank_sequence (cstr_at a 1) (cstr_at b 1) ∨
          (cstr_at a 1 = cstr_at b 1 ∧
            precedes suit_sequence (cstr_at a 0) (cstr_at b 0)))) := by
  obtain ⟨hasc, hperm⟩ := sort_hand_spec hand
  refine ⟨hperm, hasc, ?_, ?_⟩
  · intro c hc
    have hmem : c ∈ PlayGame.sort_hand hand := hperm.mem_iff.2 hc
    cases hs : PlayGame.sort_hand hand with
    | nil => rw [hs] at hmem; simp at hmem
    | cons x rest =>
      rw [hs] at hmem hasc
      simp only [List.getD_cons_zero]
      rcases List.mem_cons.1 hmem with e | e
      · rw [e]
        unfold PlayGame.card_compare
        simp
      · exact (List.pairwise_cons.1 hasc).1 c e
  · intro a b ha hb
    exact card_compare_precedes a b ha hb

theorem find_chosen_spec (current : List Char) :
    ∀ (hand : List (List Char)) (i : Nat),
      (PlayGame.find_chosen current hand i = none ∧
        ∀ c ∈ hand, ¬ PlayGame.card_compare c current > 0) ∨
      (∃ k, k < hand.length ∧ PlayGame.find_chosen current hand i = some (i + k) ∧
        PlayGame.card_compare (hand.getD k []) current > 0 ∧
        ∀ j, j < k → ¬ PlayGame.card_compare (hand.getD j []) current > 0) := by
  intro hand
  induction hand with
  | nil => intro i; left; exact ⟨rfl, by simp⟩
  | cons h rest ih =>
    intro i
    simp only [PlayGame.find_chosen, beats_iff_card_compare]
    by_cases hb : PlayGame.card_compare h current > 0
    · right
      refine ⟨0, by simp, by rw [if_pos hb]; rfl, by simpa using hb, ?_⟩
      intro j hj; omega
    · rw [if_neg hb]
      rcases ih (i + 1) with ⟨h1, h2⟩ | ⟨k, hk, h1, h2, h3⟩
      · left
        refine ⟨h1, ?_⟩
        intro c hc
        rcases List.mem_cons.1 hc with e | e
        · rw [e]; exact hb
        · exact h2 c e
      · right
        refine ⟨k + 1, by simp; omega, by rw [h1]; congr 1; omega, by simpa using h2, ?_⟩
        intro j hj
        cases j with
        | zero => simpa using hb
        | succ j => simpa using h3 j (by omega)

theorem ascending_eraseIdx {hand : List (List Char)} (h : PlayGame.ascending hand)
    (k : Nat) : PlayGame.ascending (hand.eraseIdx k) :=
  List.Pairwise.sublist (List.eraseIdx_sublist hand k) h

theorem ascending_getD {hand : List (List Char)} (h : PlayGame.ascending hand)
    {j k : Nat} (hjk : j < k) (hk : k < hand.length) :
    PlayGame.card_compare (hand.getD j []) (hand.getD k []) ≤ 0 := by
  have hj : j < hand.length := by omega
  rw [List.getD_eq_getElem?_getD, List.getD_eq_getElem?_getD, List.getElem?_eq_getElem hj,
    List.getElem?_eq_getElem hk]
  exact List.pairwise_iff_getElem.1 h j k hj hk hjk

theorem card_compare_self (a : List Char) : PlayGame.card_compare a a ≤ 0 := by
  unfold PlayGame.card_compare
  simp

theorem not_isspace_of_valid {r : List Char} (h : valid_card r) :
    PlayGame.isspace (cstr_at r 0) = false ∧ PlayGame.isspace (cstr_at r 1) = false := by
  have h1 : ∀ c ∈ suit_sequence, PlayGame.isspace c = false := by decide
  have h2 : ∀ c ∈ rank_sequence, PlayGame.isspace c = false := by decide
  exact ⟨h1 _ h.2.1, h2 _ h.2.2⟩

theorem scan_2s_card (a b : Char) (ha : PlayGame.isspace a = false)
    (hb : PlayGame.isspace b = false) (rest : List Char)
    (hrest : rest = [] ∨ ∃ tail, rest = ' ' :: tail) :
    PlayGame.scan_2s (' ' :: a :: b :: rest) = [a, b] := by
  have hsp : PlayGame.isspace ' ' = true := by decide
  rcases hrest with e | ⟨tail, e⟩ <;> subst e <;>
    simp [PlayGame.scan_2s, List.dropWhile, List.takeWhile, hsp, ha, hb]

theorem valid_card_chars {r : List Char} (h : valid_card r) :
    r = [cstr_at r 0, cstr_at r 1] := by
  obtain ⟨hl, _, _⟩ := h
  match r, hl with
  | [a, b], _ => simp [cstr_at]

theorem scan_2s_of_valid {r : List Char} (h : valid_card r) :
    PlayGame.scan_2s ((PlayGame.CARD ++ [' '] ++ r).drop 4) = r := by
  obtain ⟨h0, h1⟩ := not_isspace_of_valid h
  have hr := valid_card_chars h
  rw [hr]
  have := scan_2s_card (cstr_at r 0) (cstr_at r 1) h0 h1 [] (Or.inl rfl)
  simpa [PlayGame.CARD] using this

theorem child_command_CARD (hand : List (List Char)) (buf : List Char)
    (h : buf.take 4 = PlayGame.CARD) :
    PlayGame.child_command hand buf = PlayGame.handle_CARD hand buf := by
  have h3 : ¬ buf.take 3 = PlayGame.ASK := by
    intro e
    have := congrArg (List.take 3) h
    rw [List.take_take] at this
    simp only [Nat.min_def] at this
    rw [if_pos (by omega), e] at this
    revert this
    decide
  simp only [PlayGame.child_command, if_neg h3, if_pos h]

theorem child_command_RESET (hand : List (List Char)) (buf : List Char)
    (h : buf.take 5 = PlayGame.RESET) :
    PlayGame.child_command hand buf = PlayGame.handle_RESET hand := by
  have h3 : ¬ buf.take 3 = PlayGame.ASK := by
    intro e
    have := congrArg (List.take 3) h
    rw [List.take_take] at this
    simp only [Nat.min_def] at this
    rw [if_pos (by omega), e] at this
    revert this
    decide
  have h4 : ¬ buf.take 4 = PlayGame.CARD := by
    intro e
    have := congrArg (List.take 4) h
    rw [List.take_take] at this
    simp only [Nat.min_def] at this
    rw [if_pos (by omega), e] at this
    revert this
    decide
  simp only [PlayGame.child_command, if_neg h3, if_neg h4, if_pos h]

theorem play_response_take (played : List Char) (n : Nat) :
    (PlayGame.play_response played n).take 4 = PlayGame.PLAY := by
  unfold PlayGame.play_response
  split <;> simp [PlayGame.PLAY]

theorem play_response_ne_PASS (played : List Char) (n : Nat) :
    PlayGame.play_response played n ≠ PASS := by
  intro e
  have := play_response_take played n
  rw [e] at this
  revert this
  decide

theorem play_response_complete (played : List Char) (n : Nat) (h : played.length ≤ 2) :
    COMPLETE <:+: PlayGame.play_response played n ↔ n = 0 := by
  unfold PlayGame.play_response
  by_cases hn : n = 0
  · rw [if_pos hn]
    simp only [hn, iff_true]
    exact ⟨PlayGame.PLAY ++ [' '] ++ played ++ [' '], [], by simp⟩
  · rw [if_neg hn]
    simp only [hn, iff_false]
    intro hc
    have := hc.length_le
    simp [COMPLETE, PlayGame.PLAY] at this
    omega

/-- The outcome of the CARD handler on a hand in ascending order. -/
theorem handle_CARD_spec (hand : List (List Char)) (buf : List Char) :
    (PlayGame.handle_CARD hand buf = (⟨hand, true⟩, some PASS) ∧
      ∀ c ∈ hand, ¬ PlayGame.card_compare c (PlayGame.scan_2s (buf.drop 4)) > 0) ∨
    (∃ k, k < hand.length ∧
      PlayGame.handle_CARD hand buf
        = (⟨hand.eraseIdx k, decide ((hand.eraseIdx k).length ≠ 0)⟩,
            some (PlayGame.play_response (hand.getD k []) (hand.eraseIdx k).length)) ∧
      PlayGame.card_compare (hand.getD k []) (PlayGame.scan_2s (buf.drop 4)) > 0 ∧
      ∀ j, j < k →
        ¬ PlayGame.card_compare (hand.getD j []) (PlayGame.scan_2s (buf.drop 4)) > 0) := by
  rcases find_chosen_spec (PlayGame.scan_2s (buf.drop 4)) hand 0 with
    ⟨h1, h2⟩ | ⟨k, hk, h1, h2, h3⟩
  · left
    refine ⟨?_, h2⟩
    simp only [PlayGame.handle_CARD, h1]
  · right
    refine ⟨k, hk, ?_, h2, h3⟩
    simp only [PlayGame.handle_CARD, h1, Nat.zero_add, PlayGame.remove_card]

/-- C22: on a CARD request with a valid reference card `r`, a child whose hand is in
ascending order of `card_compare` answers PASS and keeps its hand exactly when no card of
the hand is above `r`; otherwise it plays a card above `r` that is not above any other
card of the hand above `r`, the hand afterwards is the old hand without the entry played,
and it is still in ascending order. -/
theorem card_handler_plays_least_above (hand : List (List Char)) (r : List Char)
    (hsorted : hand.Pairwise (fun a b => PlayGame.card_compare a b ≤ 0))
    (hr : valid_card r) :
    (((PlayGame.child_command hand (PlayGame.CARD ++ [' '] ++ r)).2 = some PASS ∧
        (PlayGame.child_command hand (PlayGame.CARD ++ [' '] ++ r)).1.hand = hand) ↔
      ∀ c ∈ hand, ¬ PlayGame.card_compare c r > 0) ∧
    ((∃ c ∈ hand, PlayGame.card_compare c r > 0) →
      ∃ k, k < hand.length ∧ PlayGame.card_compare (hand.getD k []) r > 0 ∧
        (∀ c ∈ hand, PlayGame.card_compare c r > 0 →
          PlayGame.card_compare (hand.getD k []) c ≤ 0) ∧
        (PlayGame.child_command hand (PlayGame.CARD ++ [' '] ++ r)).2
          = some (PlayGame.play_response (hand.getD k []) (hand.length - 1)) ∧
        (PlayGame.child_command hand (PlayGame.CARD ++ [' '] ++ r)).1.hand
          = hand.eraseIdx k ∧
        ((PlayGame.child_command hand (PlayGame.CARD ++ [' '] ++ r)).1.hand).Pairwise
          (fun a b => PlayGame.card_compare a b ≤ 0)) := by
  have hcmd : PlayGame.child_command hand (PlayGame.CARD ++ [' '] ++ r)
      = PlayGame.handle_CARD hand (PlayGame.CARD ++ [' '] ++ r) :=
    child_command_CARD hand _ (by simp [PlayGame.CARD])
  have hscan := scan_2s_of_valid hr
  rw [hcmd]
  rcases handle_CARD_spec hand (PlayGame.CARD ++ [' '] ++ r) with
    ⟨h1, h2⟩ | ⟨k, hk, h1, h2, h3⟩
  · rw [hscan] at h2
    rw [h1]
    refine ⟨⟨fun _ => h2, fun _ => ⟨rfl, rfl⟩⟩, ?_⟩
    rintro ⟨c, hc, hgt⟩
    exact absurd hgt (h2 c hc)
  · rw [hscan] at h2 h3
    rw [h1]
    have hlen : (hand.eraseIdx k).length = hand.length - 1 := List.length_eraseIdx_of_lt hk
    refine ⟨⟨?_, ?_⟩, ?_⟩
    · rintro ⟨hp, _⟩
      simp only [Option.some.injEq] at hp
      exact absurd hp (play_response_ne_PASS _ _)
    · intro hall
      exact absurd h2 (hall _ (getD_mem hk))
    · intro _
      refine ⟨k, hk, h2, ?_, by rw [hlen], rfl, ascending_eraseIdx hsorted k⟩
      intro c hc hgt
      obtain ⟨j, hj, hcj⟩ := List.getElem_of_mem hc
      have hcd : hand.getD j [] = c := by
        rw [List.getD_eq_getElem?_getD, List.getElem?_eq_getElem hj]
        exact hcj
      rcases Nat.lt_trichotomy j k with hlt | heq | hgt2
      · rw [← hcd] at hgt
        exact absurd hgt (h3 j hlt)
      · rw [← hcd, heq]
        exact card_compare_self _
      · rw [← hcd]
        exact ascending_getD hsorted hgt2 hj

/-- Witness of C22: the hand D3, C5, S5, D2 with reference card C5. -/
theorem card_handler_plays_least_above_witness :
    (((PlayGame.child_command [D3, ['C', '5'], ['S', '5'], ['D', '2']]
          (PlayGame.CARD ++ [' '] ++ ['C', '5'])).2 = some PASS ∧
        (PlayGame.child_command [D3, ['C', '5'], ['S', '5'], ['D', '2']]
          (PlayGame.CARD ++ [' '] ++ ['C', '5'])).1.hand
            = [D3, ['C', '5'], ['S', '5'], ['D', '2']]) ↔
      ∀ c ∈ [D3, ['C', '5'], ['S', '5'], ['D', '2']],
        ¬ PlayGame.card_compare c ['C', '5'] > 0) ∧
    ((∃ c ∈ [D3, ['C', '5'], ['S', '5'], ['D', '2']],
        PlayGame.card_compare c ['C', '5'] > 0) →
      ∃ k, k < [D3, ['C', '5'], ['S', '5'], ['D', '2']].length ∧
        PlayGame.card_compare ([D3, ['C', '5'], ['S', '5'], ['D', '2']].getD k [])
          ['C', '5'] > 0 ∧
        (∀ c ∈ [D3, ['C', '5'], ['S', '5'], ['D', '2']],
          PlayGame.card_compare c ['C', '5'] > 0 →
          PlayGame.card_compare ([D3, ['C', '5'], ['S', '5'], ['D', '2']].getD k []) c
            ≤ 0) ∧
        (PlayGame.child_command [D3, ['C', '5'], ['S', '5'], ['D', '2']]
            (PlayGame.CARD ++ [' '] ++ ['C', '5'])).2
          = some (PlayGame.play_response
              ([D3, ['C', '5'], ['S', '5'], ['D', '2']].getD k [])
              ([D3, ['C', '5'], ['S', '5'], ['D', '2']].length - 1)) ∧
        (PlayGame.child_command [D3, ['C', '5'], ['S', '5'], ['D', '2']]
            (PlayGame.CARD ++ [' '] ++ ['C', '5'])).1.hand
          = [D3, ['C', '5'], ['S', '5'], ['D', '2']].eraseIdx k ∧
        ((PlayGame.child_command [D3, ['C', '5'], ['S', '5'], ['D', '2']]
            (PlayGame.CARD ++ [' '] ++ ['C', '5'])).1.hand).Pairwise
          (fun a b => PlayGame.card_compare a b ≤ 0)) :=
  card_handler_plays_least_above [D3, ['C', '5'], ['S', '5'], ['D', '2']] ['C', '5']
    (by decide) (by decide)

theorem handle_RESET_spec (hand : List (List Char)) (hne : hand ≠ []) :
    PlayGame.handle_RESET hand
      = (⟨hand.eraseIdx 0, decide ((hand.eraseIdx 0).length ≠ 0)⟩,
          some (PlayGame.play_response (hand.getD 0 []) (hand.eraseIdx 0).length)) := by
  have hpos : hand.length > 0 := List.length_pos.2 hne
  simp only [PlayGame.handle_RESET, if_pos hpos, PlayGame.remove_card]

theorem handle_RESET_empty : PlayGame.handle_RESET [] = (⟨[], true⟩, none) := by
  decide

/-- A CARD or RESET request is answered by PASS with the hand kept, by nothing (RESET on
an empty hand), or by the response for a card played from the hand. -/
theorem child_command_cases (hand : List (List Char)) (buf : List Char)
    (hcmd : buf.take 4 = PlayGame.CARD ∨ buf.take 5 = PlayGame.RESET) :
    PlayGame.child_command hand buf = (⟨hand, true⟩, some PASS) ∨
    (PlayGame.child_command hand buf = (⟨hand, true⟩, none) ∧ hand = []) ∨
    ∃ k, k < hand.length ∧
      PlayGame.child_command hand buf
        = (⟨hand.eraseIdx k, decide ((hand.eraseIdx k).length ≠ 0)⟩,
            some (PlayGame.play_response (hand.getD k []) (hand.eraseIdx k).length)) := by
  rcases hcmd with h | h
  · rw [child_command_CARD hand buf h]
    rcases handle_CARD_spec hand buf with ⟨h1, _⟩ | ⟨k, hk, h1, _, _⟩
    · exact Or.inl h1
    · exact Or.inr (Or.inr ⟨k, hk, h1⟩)
  · rw [child_command_RESET hand buf h]
    by_cases hne : hand = []
    · subst hne
      exact Or.inr (Or.inl ⟨handle_RESET_empty, rfl⟩)
    · exact Or.inr (Or.inr ⟨0, List.length_pos.2 hne, handle_RESET_spec hand hne⟩)

/-- C23: when a child answers a CARD or RESET request by playing a card (a response that
starts with PLAY), the card is an entry of its hand, which is removed; the response
contains COMPLETE exactly when the hand is empty after the removal, and the child leaves
its command loop exactly then. -/
theorem complete_with_last_card (hand : List (List Char)) (buf resp : List Char)
    (hfit : ∀ c ∈ hand, c.length ≤ 2)
    (hcmd : buf.take 4 = PlayGame.CARD ∨ buf.take 5 = PlayGame.RESET)
    (hresp : (PlayGame.child_command hand buf).2 = some resp)
    (hplay : resp.take 4 = PlayGame.PLAY) :
    (∃ k, k < hand.length ∧
      (PlayGame.child_command hand buf).1.hand = hand.eraseIdx k ∧
      resp = PlayGame.play_response (hand.getD k []) (hand.eraseIdx k).length) ∧
    (COMPLETE <:+: resp ↔ (PlayGame.child_command hand buf).1.hand = []) ∧
    ((PlayGame.child_command hand buf).1.running = false ↔
      (PlayGame.child_command hand buf).1.hand = []) := by
  rcases child_command_cases hand buf hcmd with h | h | ⟨k, hk, h⟩
  · rw [h] at hresp
    simp only [Option.some.injEq] at hresp
    rw [← hresp] at hplay
    exact absurd hplay (by decide)
  · rw [h.1] at hresp
    simp at hresp
  · rw [h] at hresp ⊢
    simp only [Option.some.injEq] at hresp
    refine ⟨⟨k, hk, rfl, hresp.symm⟩, ?_, ?_⟩
    · rw [← hresp, play_response_complete _ _ (hfit _ (getD_mem hk))]
      exact List.length_eq_zero
    · simp only [decide_eq_false_iff_not, ne_eq, not_not]
      exact List.length_eq_zero

/-- Witness of C23: the last card C5 played on a RESET request. -/
theorem complete_with_last_card_witness :
    (∃ k, k < [['C', '5']].length ∧
      (PlayGame.child_command [['C', '5']] PlayGame.RESET).1.hand = [['C', '5']].eraseIdx k ∧
      PlayGame.PLAY ++ [' ', 'C', '5', ' '] ++ COMPLETE
        = PlayGame.play_response ([['C', '5']].getD k []) ([['C', '5']].eraseIdx k).length) ∧
    (COMPLETE <:+: PlayGame.PLAY ++ [' ', 'C', '5', ' '] ++ COMPLETE ↔
      (PlayGame.child_command [['C', '5']] PlayGame.RESET).1.hand = []) ∧
    ((PlayGame.child_command [['C', '5']] PlayGame.RESET).1.running = false ↔
      (PlayGame.child_command [['C', '5']] PlayGame.RESET).1.hand = []) :=
  complete_with_last_card [['C', '5']] PlayGame.RESET
    (PlayGame.PLAY ++ [' ', 'C', '5', ' '] ++ COMPLETE) (by decide) (by decide) (by decide)
    (by decide)

/-! ### The second variant: the game after the first winner -/

theorem play_response_zero (played : List Char) :
    COMPLETE <:+: PlayGame.play_response played 0 :=
  ⟨PlayGame.PLAY ++ [' '] ++ played ++ [' '], [], by simp [PlayGame.play_response]⟩

theorem select_command_fields (p : PlayGame.Parent)
    (hturn : p.current_turn < PlayGame.NUM_CHILD)
    (hstarter : p.round_starter < PlayGame.NUM_CHILD) :
    (PlayGame.select_command p).2.current_turn = p.current_turn ∧
    (PlayGame.select_command p).2.finished = p.finished ∧
    (PlayGame.select_command p).2.first_winner_reported = p.first_winner_reported ∧
    (PlayGame.select_command p).2.round_starter < PlayGame.NUM_CHILD ∧
    ((PlayGame.select_command p).1.take 4 = PlayGame.CARD ∨
      (PlayGame.select_command p).1 = PlayGame.RESET) ∧
    (p.first_winner_reported = true → (PlayGame.select_command p).1 = PlayGame.RESET) := by
  unfold PlayGame.select_command
  split_ifs with h1 h2
  · exact ⟨rfl, rfl, rfl, hstarter, Or.inr rfl, fun _ => rfl⟩
  · refine ⟨rfl, rfl, rfl, hstarter, Or.inl ?_, fun h => absurd h h1⟩
    simp [PlayGame.CARD]
  · exact ⟨rfl, rfl, rfl, hturn, Or.inr rfl, fun _ => rfl⟩

theorem process_response_fields (p : PlayGame.Parent) (r : List Char)
    (hstarter : p.round_starter < PlayGame.NUM_CHILD)
    (hturn : p.current_turn < PlayGame.NUM_CHILD) :
    (PlayGame.process_response p r).current_turn < PlayGame.NUM_CHILD ∧
    (PlayGame.process_response p r).round_starter < PlayGame.NUM_CHILD ∧
    ((PlayGame.process_response p r).first_winner_reported = true ↔
      p.first_winner_reported = true ∨ (r.take 4 = PlayGame.PLAY ∧ COMPLETE <:+: r)) ∧
    (PlayGame.process_response p r).finished
      = if r.take 4 = PlayGame.PLAY ∧ COMPLETE <:+: r then
          p.finished.set p.current_turn true
        else p.finished := by
  have hmod : (p.current_turn + 1) % PlayGame.NUM_CHILD < PlayGame.NUM_CHILD :=
    Nat.mod_lt _ (by decide)
  have hne : PASS ≠ PlayGame.PLAY := by decide
  unfold PlayGame.process_response
  by_cases h1 : r.take 4 = PASS
  · have h2 : ¬ r.take 4 = PlayGame.PLAY := fun e => hne (h1.symm.trans e)
    rw [if_pos h1]
    simp only [h2, false_and, or_false, if_false]
    split_ifs <;> exact ⟨by first | exact hstarter | exact hmod, hstarter, Iff.rfl, rfl⟩
  · rw [if_neg h1]
    by_cases h2 : r.take 4 = PlayGame.PLAY
    · rw [if_pos h2]
      by_cases h3 : COMPLETE <:+: r
      · rw [if_pos h3, if_pos ⟨h2, h3⟩]
        exact ⟨hmod, hturn, by simp [h2, h3], rfl⟩
      · rw [if_neg h3, if_neg (fun h => h3 h.2)]
        exact ⟨hmod, hturn, by simp [h3], rfl⟩
    · rw [if_neg h2, if_neg (fun h => h2 h.1)]
      exact ⟨hmod, hstarter, by simp [h2], rfl⟩

/-- The answer of a child with a non-empty hand in ascending order to a command of the
game loop. -/
theorem child_answer (hand : List (List Char)) (cmd : List Char) (hne : hand ≠ [])
    (hsorted : PlayGame.ascending hand)
    (hcmd : cmd.take 4 = PlayGame.CARD ∨ cmd = PlayGame.RESET) :
    ∃ c1 resp, PlayGame.child_command hand cmd = (c1, some resp) ∧
      PlayGame.ascending c1.hand ∧
      (¬ (resp.take 4 = PlayGame.PLAY ∧ COMPLETE <:+: resp) →
        c1.running = true ∧ c1.hand ≠ []) ∧
      (cmd = PlayGame.RESET →
        ∃ c rest, hand = c :: rest ∧ (∀ d ∈ hand, PlayGame.card_compare c d ≤ 0) ∧
          resp = PlayGame.play_response c rest.length) := by
  have hplayed : ∀ k, k < hand.length →
      PlayGame.child_command hand cmd
        = (⟨hand.eraseIdx k, decide ((hand.eraseIdx k).length ≠ 0)⟩,
            some (PlayGame.play_response (hand.getD k []) (hand.eraseIdx k).length)) →
      PlayGame.ascending (hand.eraseIdx k) ∧
      (¬ ((PlayGame.play_response (hand.getD k []) (hand.eraseIdx k).length).take 4
            = PlayGame.PLAY ∧
          COMPLETE <:+: PlayGame.play_response (hand.getD k []) (hand.eraseIdx k).length) →
        decide ((hand.eraseIdx k).length ≠ 0) = true ∧ hand.eraseIdx k ≠ []) := by
    intro k _ _
    refine ⟨ascending_eraseIdx hsorted k, ?_⟩
    intro hno
    have hlen : (hand.eraseIdx k).length ≠ 0 := by
      intro h0
      apply hno
      rw [h0]
      exact ⟨play_response_take _ _, play_response_zero _⟩
    exact ⟨decide_eq_true hlen, fun e => hlen (by rw [e]; rfl)⟩
  rcases hcmd with hc | hc
  · rcases child_command_cases hand cmd (Or.inl hc) with h | h | ⟨k, hk, h⟩
    · refine ⟨_, _, h, hsorted, fun _ => ⟨rfl, hne⟩, ?_⟩
      intro e
      rw [e] at hc
      exact absurd hc (by decide)
    · exact absurd h.2 hne
    · obtain ⟨h1, h2⟩ := hplayed k hk h
      refine ⟨_, _, h, h1, h2, ?_⟩
      intro e
      rw [e] at hc
      exact absurd hc (by decide)
  · subst hc
    have h := handle_RESET_spec hand hne
    rw [← child_command_RESET hand PlayGame.RESET (by decide)] at h
    obtain ⟨h1, h2⟩ := hplayed 0 (List.length_pos.2 hne) h
    refine ⟨_, _, h, h1, h2, ?_⟩
    intro _
    cases hand with
    | nil => exact absurd rfl hne
    | cons c rest =>
      refine ⟨c, rest, rfl, ?_, by simp⟩
      intro d hd
      rcases List.mem_cons.1 hd with e | e
      · rw [e]; exact card_compare_self _
      · exact (List.pairwise_cons.1 hsorted).1 d e

theorem reports_completion_mk (i : Nat) (cmd : List Char) (hand : List (List Char))
    (resp : List Char) :
    PlayGame.reports_completion ⟨i, cmd, hand, some resp⟩ ↔
      (resp.take 4 = PlayGame.PLAY ∧ COMPLETE <:+: resp) := by
  unfold PlayGame.reports_completion
  constructor
  · rintro ⟨r, hr, h⟩
    simp only [Option.some.injEq] at hr
    rw [hr]; exact h
  · intro h
    exact ⟨resp, rfl, h⟩

theorem game_iteration_skip (g : PlayGame.Game)
    (hfin : g.parent.finished.getD g.parent.current_turn false = true) :
    PlayGame.game_iteration g
      = { g with
          parent :=
            { g.parent with
              current_turn := (g.parent.current_turn + 1) % PlayGame.NUM_CHILD } } := by
  simp only [PlayGame.game_iteration, hfin, if_true]

theorem game_iteration_none (g : PlayGame.Game)
    (hfin : ¬ g.parent.finished.getD g.parent.current_turn false = true)
    (hc : g.children[g.parent.current_turn]? = none) :
    PlayGame.game_iteration g = g := by
  simp only [PlayGame.game_iteration, if_neg hfin, hc]

theorem game_iteration_answer (g : PlayGame.Game)
    (hfin : ¬ g.parent.finished.getD g.parent.current_turn false = true)
    (c c1 : PlayGame.Child) (resp : List Char)
    (hc : g.children[g.parent.current_turn]? = some c) (hrun : c.running = true)
    (hcmd : PlayGame.child_command c.hand (PlayGame.select_command g.parent).1
      = (c1, some resp)) :
    PlayGame.game_iteration g
      = { parent := PlayGame.process_response (PlayGame.select_command g.parent).2 resp
          children := g.children.set g.parent.current_turn c1
          moves := g.moves ++
            [⟨g.parent.current_turn, (PlayGame.select_command g.parent).1, c.hand,
              some resp⟩]
          blocked := false } := by
  simp only [PlayGame.game_iteration, if_neg hfin, hc, hrun, hcmd, if_true]

theorem GameOk_iteration (g : PlayGame.Game) (h : PlayGame.GameOk g) :
    PlayGame.GameOk (PlayGame.game_iteration g) := by
  by_cases hfin : g.parent.finished.getD g.parent.current_turn false = true
  · rw [game_iteration_skip g hfin]
    exact ⟨h.children, h.finished, Nat.mod_lt _ (by decide), h.starter, h.active, h.sorted,
      h.running, h.reported, h.later⟩
  · have hfin0 : g.parent.finished.getD g.parent.current_turn false = false := by
      simpa using hfin
    cases hc : g.children[g.parent.current_turn]? with
    | none => rw [game_iteration_none g hfin hc]; exact h
    | some c =>
      obtain ⟨hrun, hne⟩ := h.active _ c hc hfin0
      obtain ⟨s1, s2, s3, s4, s5, s6⟩ :=
        select_command_fields g.parent h.turn h.starter
      obtain ⟨c1, resp, hcmd, a1, a2, a3⟩ :=
        child_answer c.hand (PlayGame.select_command g.parent).1 hne (h.sorted _ c hc) s5
      rw [game_iteration_answer g hfin c c1 resp hc hrun hcmd]
      obtain ⟨p1, p2, p3, p4⟩ := process_response_fields
        (PlayGame.select_command g.parent).2 resp s4 (by rw [s1]; exact h.turn)
      have hturn_lt : g.parent.current_turn < g.parent.finished.length := by
        rw [h.finished]; exact h.turn
      have hturn_lt2 : g.parent.current_turn < g.children.length := by
        rw [h.children]; exact h.turn
      refine ⟨?_, ?_, p1, p2, ?_, ?_, rfl, ?_, ?_⟩
      · simp only [List.length_set]; exact h.children
      · simp only [p4, s1, s2]
        split_ifs
        · simp only [List.length_set]; exact h.finished
        · exact h.finished
      · intro i ci hi hfi
        simp only [p4, s1, s2] at hfi
        simp only at hi
        by_cases hrep : resp.take 4 = PlayGame.PLAY ∧ COMPLETE <:+: resp
        · rw [if_pos hrep] at hfi
          by_cases hit : i = g.parent.current_turn
          · subst hit
            rw [List.getD_eq_getElem?_getD, List.getElem?_set_self hturn_lt] at hfi
            simp at hfi
          · rw [List.getElem?_set_ne (fun e => hit e.symm)] at hi
            rw [List.getD_eq_getElem?_getD, List.getElem?_set_ne (fun e => hit e.symm),
              ← List.getD_eq_getElem?_getD] at hfi
            exact h.active i ci hi hfi
        · rw [if_neg hrep] at hfi
          by_cases hit : i = g.parent.current_turn
          · subst hit
            rw [List.getElem?_set_self hturn_lt2] at hi
            simp only [Option.some.injEq] at hi
            rw [← hi]
            exact a2 hrep
          · rw [List.getElem?_set_ne (fun e => hit e.symm)] at hi
            exact h.active i ci hi hfi
      · intro i ci hi
        simp only at hi
        by_cases hit : i = g.parent.current_turn
        · subst hit
          rw [List.getElem?_set_self hturn_lt2] at hi
          simp only [Option.some.injEq] at hi
          rw [← hi]
          exact a1
        · rw [List.getElem?_set_ne (fun e => hit e.symm)] at hi
          exact h.sorted i ci hi
      · simp only [p3, s3, h.reported, List.mem_append, List.mem_singleton]
        constructor
        · rintro (⟨m, hm, hr⟩ | hr)
          · exact ⟨m, Or.inl hm, hr⟩
          · exact ⟨_, Or.inr rfl, (reports_completion_mk _ _ _ _).2 hr⟩
        · rintro ⟨m, hm | hm, hr⟩
          · exact Or.inl ⟨m, hm, hr⟩
          · rw [hm] at hr
            exact Or.inr ((reports_completion_mk _ _ _ _).1 hr)
      · simp only
        rw [List.pairwise_append]
        refine ⟨h.later, List.pairwise_singleton _ _, ?_⟩
        intro a ha b hb hrep
        rw [List.mem_singleton] at hb
        subst hb
        have hflag : g.parent.first_winner_reported = true := h.reported.2 ⟨a, ha, hrep⟩
        have hreset := s6 hflag
        obtain ⟨c0, rest, e1, e2, e3⟩ := a3 hreset
        exact ⟨hreset, c0, rest, e1, e2, by rw [e3]⟩

theorem GameOk_loop : ∀ (fuel : Nat) (g : PlayGame.Game), PlayGame.GameOk g →
    PlayGame.GameOk (PlayGame.game_loop fuel g) := by
  intro fuel
  induction fuel with
  | zero => intro g h; exact h
  | succ fuel ih =>
    intro g h
    simp only [PlayGame.game_loop]
    split_ifs
    · exact ih _ (GameOk_iteration g h)
    · exact h

theorem find_D3_spec : ∀ (hand : List (List Char)) (i : Nat),
    (PlayGame.find_D3 hand i = none ∧ D3 ∉ hand) ∨
    (∃ k, k < hand.length ∧ PlayGame.find_D3 hand i = some (i + k)) := by
  intro hand
  induction hand with
  | nil => intro i; left; exact ⟨rfl, by simp⟩
  | cons h rest ih =>
    intro i
    simp only [PlayGame.find_D3]
    by_cases hd : h = D3
    · right
      exact ⟨0, by simp, by rw [if_pos hd]; rfl⟩
    · rw [if_neg hd]
      rcases ih (i + 1) with ⟨h1, h2⟩ | ⟨k, hk, h1⟩
      · left
        refine ⟨h1, ?_⟩
        intro hm
        rcases List.mem_cons.1 hm with e | e
        · exact hd e.symm
        · exact h2 e
      · right
        exact ⟨k + 1, by simp; omega, by rw [h1]; congr 1; omega⟩

/-- The answer of a child to "ASK D3". -/
theorem ask_answer (hand : List (List Char)) :
    (PlayGame.child_command hand PlayGame.ASK_D3 = (⟨hand, true⟩, some PlayGame.NO) ∧
      D3 ∉ hand) ∨
    (∃ k, k < hand.length ∧
      PlayGame.child_command hand PlayGame.ASK_D3
        = (⟨hand.eraseIdx k, true⟩, some PlayGame.PLAY_D3)) := by
  have h1 : PlayGame.ASK_D3.take 3 = PlayGame.ASK := by decide
  have h2 : D3 <:+: PlayGame.ASK_D3 := by decide
  simp only [PlayGame.child_command, if_pos h1, PlayGame.handle_ASK, if_pos h2]
  rcases find_D3_spec hand 0 with ⟨e, hn⟩ | ⟨k, hk, e⟩
  · left
    rw [e]
    exact ⟨rfl, hn⟩
  · right
    rw [e]
    exact ⟨k, hk, by simp [PlayGame.remove_card]⟩

theorem ask_D3_loop_ok : ∀ (n i : Nat) (children : List PlayGame.Child),
    (∀ (j : Nat) (c : PlayGame.Child), children[j]? = some c →
      c.running = true ∧ PlayGame.ascending c.hand ∧
        (if j < i then 1 else 2) ≤ c.hand.length) →
    ∀ (sc : Nat) (ch : List PlayGame.Child),
      PlayGame.ask_D3_loop n i children = some (sc, ch) →
      sc < children.length ∧ ch.length = children.length ∧
      ∀ (j : Nat) (c : PlayGame.Child), ch[j]? = some c →
        c.running = true ∧ PlayGame.ascending c.hand ∧ c.hand ≠ [] := by
  intro n
  induction n with
  | zero => intro i children _ sc ch h; simp [PlayGame.ask_D3_loop] at h
  | succ n ih =>
    intro i children hall sc ch h
    simp only [PlayGame.ask_D3_loop] at h
    cases hc : children[i]? with
    | none => rw [hc] at h; simp at h
    | some c =>
      rw [hc] at h
      simp only at h
      have hi : i < children.length := by
        rcases Nat.lt_or_ge i children.length with hlt | hge
        · exact hlt
        · rw [List.getElem?_eq_none hge] at hc
          simp at hc
      obtain ⟨hrun, hasc, hlen⟩ := hall i c hc
      rw [if_neg (Nat.lt_irrefl i)] at hlen
      have hset : ∀ (c1 : PlayGame.Child), c1.running = true → PlayGame.ascending c1.hand →
          1 ≤ c1.hand.length →
          ∀ (j : Nat) (cj : PlayGame.Child), (children.set i c1)[j]? = some cj →
            cj.running = true ∧ PlayGame.ascending cj.hand ∧
              (if j < i + 1 then 1 else 2) ≤ cj.hand.length := by
        intro c1 r1 a1 l1 j cj hj
        by_cases hji : j = i
        · subst hji
          rw [List.getElem?_set_self hi] at hj
          simp only [Option.some.injEq] at hj
          rw [← hj, if_pos (Nat.lt_succ_self j)]
          exact ⟨r1, a1, l1⟩
        · rw [List.getElem?_set_ne (fun e => hji e.symm)] at hj
          obtain ⟨r, a, l⟩ := hall j cj hj
          refine ⟨r, a, ?_⟩
          split_ifs at l ⊢ <;> omega
      have hfinal : ∀ (L : List PlayGame.Child),
          (∀ (j : Nat) (cj : PlayGame.Child), L[j]? = some cj →
            cj.running = true ∧ PlayGame.ascending cj.hand ∧
              (if j < i + 1 then 1 else 2) ≤ cj.hand.length) →
          ∀ (j : Nat) (cj : PlayGame.Child), L[j]? = some cj →
            cj.running = true ∧ PlayGame.ascending cj.hand ∧ cj.hand ≠ [] := by
        intro L hL j cj hj
        obtain ⟨r, a, l⟩ := hL j cj hj
        refine ⟨r, a, ?_⟩
        intro e
        rw [e] at l
        split_ifs at l <;> simp at l
      rcases ask_answer c.hand with ⟨e, _⟩ | ⟨k, hk, e⟩
      · rw [e] at h
        simp only at h
        rw [if_neg (by decide)] at h
        have hrec := ih (i + 1) _ (hset ⟨c.hand, true⟩ rfl hasc (by simp only; omega)) sc ch h
        simpa using hrec
      · rw [e] at h
        simp only at h
        rw [if_pos (by decide)] at h
        simp only [Option.some.injEq, Prod.mk.injEq] at h
        obtain ⟨h1, h2⟩ := h
        subst h1 h2
        have hl : (c.hand.eraseIdx k).length = c.hand.length - 1 :=
          List.length_eraseIdx_of_lt hk
        refine ⟨hi, by simp, ?_⟩
        exact hfinal _ (hset ⟨c.hand.eraseIdx k, true⟩ rfl (ascending_eraseIdx hasc k)
          (by simp only; omega))

theorem ask_D3_loop_some : ∀ (n i : Nat) (children : List PlayGame.Child),
    (∃ (j : Nat) (c : PlayGame.Child), i ≤ j ∧ j < i + n ∧ children[j]? = some c ∧
      D3 ∈ c.hand) →
    (∀ j, i ≤ j → j < i + n → j < children.length) →
    ∃ sc ch, PlayGame.ask_D3_loop n i children = some (sc, ch) := by
  intro n
  induction n with
  | zero =>
    intro i children h _
    obtain ⟨j, _, h1, h2, _⟩ := h
    omega
  | succ n ih =>
    intro i children h hlen
    obtain ⟨j, cj, h1, h2, h3, h4⟩ := h
    simp only [PlayGame.ask_D3_loop]
    have hi : i < children.length := hlen i (Nat.le_refl i) (by omega)
    rw [List.getElem?_eq_getElem hi]
    simp only
    rcases ask_answer (children[i]).hand with ⟨e, hn⟩ | ⟨k, hk, e⟩
    · rw [e]
      simp only
      rw [if_neg (by decide)]
      have hji : j ≠ i := by
        intro e1
        subst e1
        rw [List.getElem?_eq_getElem hi] at h3
        simp only [Option.some.injEq] at h3
        rw [← h3] at h4
        exact hn h4
      apply ih (i + 1)
      · refine ⟨j, cj, by omega, by omega, ?_, h4⟩
        rw [List.getElem?_set_ne (fun e => hji e.symm)]
        exact h3
      · intro m hm1 hm2
        rw [List.length_set]
        exact hlen m (by omega) (by omega)
    · rw [e]
      simp only
      rw [if_pos (by decide)]
      exact ⟨_, _, rfl⟩

theorem init_child_spec (deck : List (List Char)) (hlen : deck.length = 52) (i : Nat)
    (hi : i < 4) :
    (PlayGame.init_child ((deck.drop (i * 13)).take 13)).running = true ∧
    PlayGame.ascending (PlayGame.init_child ((deck.drop (i * 13)).take 13)).hand ∧
    (PlayGame.init_child ((deck.drop (i * 13)).take 13)).hand.length = 13 ∧
    ∀ (m : Nat), m < 13 → ∀ (t : List Char), deck[i * 13 + m]? = some t →
      t ∈ (PlayGame.init_child ((deck.drop (i * 13)).take 13)).hand := by
  obtain ⟨hasc, hperm⟩ :=
    sort_hand_spec (((deck.drop (i * 13)).take 13).take PlayGame.HAND_SIZE)
  have htake : ((deck.drop (i * 13)).take 13).take PlayGame.HAND_SIZE
      = (deck.drop (i * 13)).take 13 := by
    simp [PlayGame.HAND_SIZE, List.take_take]
  rw [htake] at hasc hperm
  refine ⟨rfl, ?_, ?_, ?_⟩
  · simp only [PlayGame.init_child, htake]; exact hasc
  · simp only [PlayGame.init_child, htake]
    rw [hperm.length_eq, List.length_take, List.length_drop]
    omega
  · intro m hm t ht
    simp only [PlayGame.init_child, htake]
    apply hperm.mem_iff.2
    rw [List.mem_iff_getElem?]
    refine ⟨m, ?_⟩
    rw [List.getElem?_take_of_lt hm, List.getElem?_drop]
    exact ht

theorem init_children_eq (deck : List (List Char)) :
    (PlayGame.deal_hands deck).map PlayGame.init_child
      = [PlayGame.init_child ((deck.drop (0 * 13)).take 13),
          PlayGame.init_child ((deck.drop (1 * 13)).take 13),
          PlayGame.init_child ((deck.drop (2 * 13)).take 13),
          PlayGame.init_child ((deck.drop (3 * 13)).take 13)] := rfl

theorem init_children_spec (deck : List (List Char)) (hlen : deck.length = 52) :
    ((PlayGame.deal_hands deck).map PlayGame.init_child).length = 4 ∧
    (∀ (j : Nat) (c : PlayGame.Child),
      ((PlayGame.deal_hands deck).map PlayGame.init_child)[j]? = some c →
      c.running = true ∧ PlayGame.ascending c.hand ∧ c.hand.length = 13) ∧
    ∀ (t : List Char), t ∈ deck →
      ∃ (j : Nat) (c : PlayGame.Child), j < 4 ∧
        ((PlayGame.deal_hands deck).map PlayGame.init_child)[j]? = some c ∧ t ∈ c.hand := by
  rw [init_children_eq]
  have h0 := init_child_spec deck hlen 0 (by omega)
  have h1 := init_child_spec deck hlen 1 (by omega)
  have h2 := init_child_spec deck hlen 2 (by omega)
  have h3 := init_child_spec deck hlen 3 (by omega)
  refine ⟨rfl, ?_, ?_⟩
  · intro j c hj
    match j, hj with
    | 0, hj =>
      simp only [List.getElem?_cons_zero, Option.some.injEq] at hj
      rw [← hj]; exact ⟨h0.1, h0.2.1, h0.2.2.1⟩
    | 1, hj =>
      simp only [List.getElem?_cons_succ, List.getElem?_cons_zero, Option.some.injEq] at hj
      rw [← hj]; exact ⟨h1.1, h1.2.1, h1.2.2.1⟩
    | 2, hj =>
      simp only [List.getElem?_cons_succ, List.getElem?_cons_zero, Option.some.injEq] at hj
      rw [← hj]; exact ⟨h2.1, h2.2.1, h2.2.2.1⟩
    | 3, hj =>
      simp only [List.getElem?_cons_succ, List.getElem?_cons_zero, Option.some.injEq] at hj
      rw [← hj]; exact ⟨h3.1, h3.2.1, h3.2.2.1⟩
    | j + 4, hj => simp at hj
  · intro t ht
    obtain ⟨n, hn, e⟩ := List.getElem_of_mem ht
    have hget : deck[n]? = some t := by rw [List.getElem?_eq_getElem hn, e]
    by_cases c0 : n < 13
    · refine ⟨0, _, by omega, rfl, h0.2.2.2 n c0 t (by simpa using hget)⟩
    · by_cases c1 : n < 26
      · refine ⟨1, _, by omega, rfl, h1.2.2.2 (n - 13) (by omega) t ?_⟩
        rw [show 1 * 13 + (n - 13) = n by omega]; exact hget
      · by_cases c2 : n < 39
        · refine ⟨2, _, by omega, rfl, h2.2.2.2 (n - 26) (by omega) t ?_⟩
          rw [show 2 * 13 + (n - 26) = n by omega]; exact hget
        · refine ⟨3, _, by omega, rfl, h3.2.2.2 (n - 39) (by omega) t ?_⟩
          rw [show 3 * 13 + (n - 39) = n by omega]; exact hget

theorem start_game_ok (deck : List (List Char)) (hlen : deck.length = 52)
    (hD3 : D3 ∈ deck) :
    ∃ g, PlayGame.start_game deck = some g ∧ PlayGame.GameOk g := by
  obtain ⟨hl, hall, hmem⟩ := init_children_spec deck hlen
  obtain ⟨j, c, hj, hc, hin⟩ := hmem D3 hD3
  obtain ⟨sc, ch, hask⟩ := ask_D3_loop_some PlayGame.NUM_CHILD 0
    ((PlayGame.deal_hands deck).map PlayGame.init_child)
    ⟨j, c, Nat.zero_le _, by simp only [PlayGame.NUM_CHILD]; omega, hc, hin⟩
    (by intro m _ hm; rw [hl]; simpa [PlayGame.NUM_CHILD] using hm)
  obtain ⟨k1, k2, k3⟩ := ask_D3_loop_ok PlayGame.NUM_CHILD 0
    ((PlayGame.deal_hands deck).map PlayGame.init_child)
    (by
      intro m cm hm
      obtain ⟨r, a, l⟩ := hall m cm hm
      refine ⟨r, a, ?_⟩
      rw [l]
      split_ifs <;> omega)
    sc ch hask
  rw [hl] at k1 k2
  refine ⟨{ parent :=
              { current_turn := (sc + 1) % PlayGame.NUM_CHILD
                round_starter := sc
                current_card := D3
                pass_count := 0
                finished := List.replicate PlayGame.NUM_CHILD false
                finish_count := 0
                first_winner_reported := false }
            children := ch
            moves := []
            blocked := false }, ?_, ?_⟩
  · simp only [PlayGame.start_game, PlayGame.TOTAL_CARDS, hlen, ne_eq, not_true_eq_false,
      if_false, hask]
  · refine ⟨k2, by simp, Nat.mod_lt _ (by decide), k1, ?_, ?_, rfl, ?_, List.Pairwise.nil⟩
    · intro i ci hi _
      exact ⟨(k3 i ci hi).1, (k3 i ci hi).2.2⟩
    · intro i ci hi
      exact (k3 i ci hi).2.1
    · simp

/-- C24: in a game started from a deck of 52 cards that holds D3, at every point of the
game loop the winner flag is set exactly when some response so far reported a completion
(the first such report is the winner line), and every request sent after such a response
is RESET, sent to a child with a non-empty hand and answered by playing the first card
of that hand, which is not above any card of the hand; so no response after the winner
line is PASS. -/
theorem reset_after_first_winner (deck : List (List Char)) (hlen : deck.length = 52)
    (hD3 : D3 ∈ deck) :
    ∃ g, PlayGame.start_game deck = some g ∧
      ∀ (fuel : Nat),
        ((PlayGame.game_loop fuel g).parent.first_winner_reported = true ↔
          ∃ m ∈ (PlayGame.game_loop fuel g).moves, PlayGame.reports_completion m) ∧
        (PlayGame.game_loop fuel g).blocked = false ∧
        ∀ (j k : Nat) (a b : PlayGame.Move), j < k →
          (PlayGame.game_loop fuel g).moves[j]? = some a →
          (PlayGame.game_loop fuel g).moves[k]? = some b →
          PlayGame.reports_completion a →
          b.cmd = PlayGame.RESET ∧
          (∃ c rest, b.hand = c :: rest ∧
            (∀ d ∈ b.hand, PlayGame.card_compare c d ≤ 0) ∧
            b.resp = some (PlayGame.play_response c rest.length)) ∧
          ∀ r, b.resp = some r → r.take 4 = PlayGame.PLAY ∧ r.take 4 ≠ PASS := by
  obtain ⟨g, hg, hok⟩ := start_game_ok deck hlen hD3
  refine ⟨g, hg, ?_⟩
  intro fuel
  have h := GameOk_loop fuel g hok
  refine ⟨h.reported, h.running, ?_⟩
  intro j k a b hjk ha hb hrep
  have hk : k < (PlayGame.game_loop fuel g).moves.length := by
    rcases Nat.lt_or_ge k (PlayGame.game_loop fuel g).moves.length with hlt | hge
    · exact hlt
    · rw [List.getElem?_eq_none hge] at hb
      simp at hb
  have hj : j < (PlayGame.game_loop fuel g).moves.length := by omega
  rw [List.getElem?_eq_getElem hj] at ha
  rw [List.getElem?_eq_getElem hk] at hb
  simp only [Option.some.injEq] at ha hb
  have hp := List.pairwise_iff_getElem.1 h.later j k hj hk hjk
  rw [ha, hb] at hp
  obtain ⟨h1, c, rest, h2, h3, h4⟩ := hp hrep
  refine ⟨h1, ⟨c, rest, h2, h3, h4⟩, ?_⟩
  intro r hr
  rw [h4] at hr
  simp only [Option.some.injEq] at hr
  rw [← hr, play_response_take]
  exact ⟨rfl, by decide⟩

/-- Witness of C24: the deck of the 52 valid cards in the order of `all_valid_cards`. -/
theorem reset_after_first_winner_witness :
    ∃ g, PlayGame.start_game all_valid_cards = some g ∧
      ∀ (fuel : Nat),
        ((PlayGame.game_loop fuel g).parent.first_winner_reported = true ↔
          ∃ m ∈ (PlayGame.game_loop fuel g).moves, PlayGame.reports_completion m) ∧
        (PlayGame.game_loop fuel g).blocked = false ∧
        ∀ (j k : Nat) (a b : PlayGame.Move), j < k →
          (PlayGame.game_loop fuel g).moves[j]? = some a →
          (PlayGame.game_loop fuel g).moves[k]? = some b →
          PlayGame.reports_completion a →
          b.cmd = PlayGame.RESET ∧
          (∃ c rest, b.hand = c :: rest ∧
            (∀ d ∈ b.hand, PlayGame.card_compare c d ≤ 0) ∧
            b.resp = some (PlayGame.play_response c rest.length)) ∧
          ∀ r, b.resp = some r → r.take 4 = PlayGame.PLAY ∧ r.take 4 ≠ PASS :=
  reset_after_first_winner all_valid_cards (by decide) (by decide)

/-- A run of `short_game`: three CARD requests are answered by a card each, child 0
completes on the fourth, and the two requests after that are RESET, each answered by the
smallest card left; the loop ends with three children finished. -/
theorem short_game_run :
    (PlayGame.game_loop 20 PlayGame.short_game).moves.map (fun m => (m.child, m.cmd, m.resp))
      = [(1, PlayGame.CARD ++ [' '] ++ D3, some (PlayGame.PLAY ++ [' ', 'D', '4'])),
          (2, PlayGame.CARD ++ [' ', 'D', '4'], some (PlayGame.PLAY ++ [' ', 'D', '5'])),
          (3, PlayGame.CARD ++ [' ', 'D', '5'], some (PlayGame.PLAY ++ [' ', 'D', '6'])),
          (0, PlayGame.CARD ++ [' ', 'D', '6'],
            some (PlayGame.PLAY ++ [' ', 'S', '2', ' '] ++ COMPLETE)),
          (1, PlayGame.RESET, some (PlayGame.PLAY ++ [' ', 'C', '4', ' '] ++ COMPLETE)),
          (2, PlayGame.RESET, some (PlayGame.PLAY ++ [' ', 'C', '5', ' '] ++ COMPLETE))] ∧
    (PlayGame.game_loop 20 PlayGame.short_game).parent.finish_count = 3 ∧
    (PlayGame.game_loop 20 PlayGame.short_game).parent.finished = [true, true, true, false] := by
  decide

/-! ### Parking bookings: capacity and pre-emption -/

/-- The capacities are reached: after the commands of `prio_input` ten accepted bookings
hold a parking slot at hour 9 and three hold the essential "battery"; the eleventh
booking is the one not accepted. -/
theorem fcfs_full_example :
    SPMS.parking_load (SPMS.process_commands [] SPMS.prio_input) SPMS.may_10 9 = 10 ∧
    SPMS.essential_load (SPMS.process_commands [] SPMS.prio_input) SPMS.may_10
      SPMS.battery 9 = 3 ∧
    (SPMS.process_commands [] SPMS.prio_input).map (fun b => b.accepted)
      = [true, true, true, true, true, true, true, true, true, true, false] := by
  decide

/-- C30: for the commands of `prio_input` (three Events with the essential "battery",
seven Parking bookings, one Reservation with "battery", all for the same hours of one
date) `simulate_PRIO` accepts the three Events only: the seven Parking bookings, accepted
at first, are revoked for the Reservation, and the Reservation is not accepted either,
the three pieces of the essential being held by the Events of higher priority. -/
theorem prio_revokes_without_accepting :
    (SPMS.process_commands [] SPMS.prio_input).map (fun b => b.type)
      = [SPMS.str_Event, SPMS.str_Event, SPMS.str_Event, SPMS.str_Parking,
          SPMS.str_Parking, SPMS.str_Parking, SPMS.str_Parking, SPMS.str_Parking,
          SPMS.str_Parking, SPMS.str_Parking, SPMS.str_Reservation] ∧
    ((SPMS.simulate_PRIO (SPMS.process_commands [] SPMS.prio_input) 10).map
        (fun b => b.accepted)
      = [true, true, true, true, true, true, true, true, true, true]) ∧
    ((SPMS.simulate_PRIO (SPMS.process_commands [] SPMS.prio_input) 11).map
        (fun b => b.accepted)
      = [true, true, true, false, false, false, false, false, false, false, false]) ∧
    (∀ b ∈ SPMS.process_commands [] SPMS.prio_input,
      b.date = SPMS.may_10 ∧
      SPMS.times_overlap b ((SPMS.process_commands [] SPMS.prio_input).getD 10 b) = true) := by
  decide

/-! ### One player and a late D3 -/

/-- C28 fails for an input longer than the 52 tokens the read loop accepts: in
`late_D3_input` D3 is the 53rd of 53 different tokens, it is never read, no hand holds
it, and the run with one player ends in the no-opening-card abort before the parent loop
and the loser report. -/
theorem single_player_late_D3_aborts :
    D3 ∈ late_D3_input ∧ late_D3_input.length = 53 ∧
    setup 1 late_D3_input = Setup.no_player_has_D3 := by
  decide

/-! ### The game on D3 XX YY with the round counter in 32 bits -/

theorem arbiter_loop32_of_exit {σ : Type}
    (agent : σ → Nat → Message → σ × Option (List Char)) (fuel : Nat)
    (s : Arbiter) (a : σ) (t : Trace) (h : ¬ s.remaining_players > 1) :
    arbiter_loop32 agent fuel s a t = (s, a, t) := by
  cases fuel with
  | zero => rfl
  | succ fuel => simp only [arbiter_loop32, if_neg h]

theorem arbiter_loop32_add {σ : Type}
    (agent : σ → Nat → Message → σ × Option (List Char)) (k m : Nat) :
    ∀ (s : Arbiter) (a : σ) (t : Trace),
      arbiter_loop32 agent (k + m) s a t
        = arbiter_loop32 agent m (arbiter_loop32 agent k s a t).1
            (arbiter_loop32 agent k s a t).2.1 (arbiter_loop32 agent k s a t).2.2 := by
  induction k with
  | zero => intro s a t; simp [arbiter_loop32]
  | succ k ih =>
    intro s a t
    rw [Nat.add_right_comm]
    simp only [arbiter_loop32]
    split
    · exact ih _ _ _
    · rename_i hg
      exact (arbiter_loop32_of_exit agent m s a t hg).symm

/-- The parent variables and the agents after an iteration do not depend on the trace. -/
theorem arbiter_iteration32_state {σ : Type}
    (agent : σ → Nat → Message → σ × Option (List Char)) (s : Arbiter) (a : σ)
    (t u : Trace) :
    (arbiter_iteration32 agent s a t).1 = (arbiter_iteration32 agent s a u).1 ∧
    (arbiter_iteration32 agent s a t).2.1 = (arbiter_iteration32 agent s a u).2.1 := by
  unfold arbiter_iteration32
  split <;> exact ⟨rfl, rfl⟩

theorem arbiter_loop32_state {σ : Type}
    (agent : σ → Nat → Message → σ × Option (List Char)) (fuel : Nat) :
    ∀ (s : Arbiter) (a : σ) (t u : Trace),
      (arbiter_loop32 agent fuel s a t).1 = (arbiter_loop32 agent fuel s a u).1 ∧
      (arbiter_loop32 agent fuel s a t).2.1 = (arbiter_loop32 agent fuel s a u).2.1 := by
  induction fuel with
  | zero => intro s a t u; exact ⟨rfl, rfl⟩
  | succ fuel ih =>
    intro s a t u
    simp only [arbiter_loop32]
    split
    · obtain ⟨h1, h2⟩ := arbiter_iteration32_state agent s a t u
      rw [h1, h2]
      exact ih _ _ _ _
    · exact ⟨rfl, rfl⟩

/-- The iteration in which agent 1 of the stuck run is asked: unless the round counter
comes to 2, the request is PLAY with D0, the answer PASS, and the trick is reset to the
completed agent 0. -/
theorem stuck_pass (r : Int) (t : Trace) (hr : wrap32 (r + 1) ≠ 2) :
    arbiter_iteration32 children_agent (stuck_state 1 r) stuck_hands t
      = (stuck_state 0 (wrap32 (r + 1)), stuck_hands,
          { requests := t.requests ++ [(1, ⟨Command.PLAY, D0⟩, some PASS)]
            events := t.events ++ [Event.passes 1] }) := by
  have hsel : select_message (next_round32 (stuck_state 1 r)) = ⟨Command.PLAY, D0⟩ := by
    simp [select_message, next_round32, stuck_state, hr]
  have hag : children_agent stuck_hands 1 ⟨Command.PLAY, D0⟩ = (stuck_hands, some PASS) := by
    decide
  have hc : (stuck_state 1 r).completed.getD (stuck_state 1 r).current_player false
      = false := rfl
  have hcur : (stuck_state 1 r).current_player = 1 := rfl
  simp only [arbiter_iteration32, hc, hsel, hcur, hag]
  have hP : PASS ≠ COMPLETE := by decide
  simp [next_round32, stuck_state, arbiter_respond, classify, reset_check, announce, hP]

/-- The iteration that skips the completed agent 0 of the stuck run. -/
theorem stuck_skip (r : Int) (t : Trace) :
    arbiter_iteration32 children_agent (stuck_state 0 r) stuck_hands t
      = (stuck_state 1 r, stuck_hands, t) := by
  simp [arbiter_iteration32, stuck_state]

theorem arbiter_loop32_one {σ : Type}
    (agent : σ → Nat → Message → σ × Option (List Char)) (s : Arbiter) (a : σ) (t : Trace)
    (h : s.remaining_players > 1) :
    arbiter_loop32 agent 1 s a t = arbiter_iteration32 agent s a t := by
  simp only [arbiter_loop32, if_pos h]

theorem stuck_pair (r : Int) (t : Trace) (hr : wrap32 (r + 1) ≠ 2) :
    arbiter_loop32 children_agent 2 (stuck_state 1 r) stuck_hands t
      = (stuck_state 1 (wrap32 (r + 1)), stuck_hands,
          { requests := t.requests ++ [(1, ⟨Command.PLAY, D0⟩, some PASS)]
            events := t.events ++ [Event.passes 1] }) := by
  have hrem : ∀ (turn : Nat) (x : Int), (stuck_state turn x).remaining_players > 1 := by
    intro turn x
    show (2 : Int) > 1
    decide
  have h1 : arbiter_loop32 children_agent 1 (stuck_state 1 r) stuck_hands t
      = (stuck_state 0 (wrap32 (r + 1)), stuck_hands,
          { requests := t.requests ++ [(1, ⟨Command.PLAY, D0⟩, some PASS)]
            events := t.events ++ [Event.passes 1] }) := by
    rw [arbiter_loop32_one _ _ _ _ (hrem 1 r), stuck_pass r t hr]
  rw [show 2 = 1 + 1 from rfl, arbiter_loop32_add, h1]
  simp only
  rw [arbiter_loop32_one _ _ _ _ (hrem 0 _), stuck_skip]

theorem wrap32_succ (x : Int) (m : Nat) :
    wrap32 (wrap32 (x + (m : Int)) + 1) = wrap32 (x + ((m + 1 : Nat) : Int)) := by
  unfold wrap32
  push_cast
  omega

theorem stuck_trace_succ (m : Nat) :
    ({ requests := (stuck_trace m).requests ++ [(1, ⟨Command.PLAY, D0⟩, some PASS)]
       events := (stuck_trace m).events ++ [Event.passes 1] } : Trace)
      = stuck_trace (m + 1) := by
  simp only [stuck_trace, List.replicate_succ', List.append_assoc]

/-- The stuck run after `2 * m` further iterations, as long as the round counter has not
come to 2. -/
theorem stuck_many (r : Int) : ∀ (m : Nat),
    (∀ (i : Nat), 1 ≤ i → i ≤ m → wrap32 (r + (i : Int)) ≠ 2) →
    arbiter_loop32 children_agent (2 * m) (stuck_state 1 (wrap32 (r + (0 : Nat))))
        stuck_hands (stuck_trace 0)
      = (stuck_state 1 (wrap32 (r + (m : Int))), stuck_hands, stuck_trace m) := by
  intro m
  induction m with
  | zero => intro _; rfl
  | succ m ih =>
    intro h
    have ih1 := ih (fun i h1 h2 => h i h1 (by omega))
    rw [show 2 * (m + 1) = 2 * m + 2 by omega, arbiter_loop32_add, ih1]
    simp only
    rw [stuck_pair _ _ (by rw [wrap32_succ]; exact h (m + 1) (by omega) (Nat.le_refl _)),
      wrap32_succ, stuck_trace_succ]

/-- What an iteration adds to the trace does not depend on the trace. -/
theorem arbiter_iteration32_trace {σ : Type}
    (agent : σ → Nat → Message → σ × Option (List Char)) (s : Arbiter) (a : σ)
    (t : Trace) :
    (arbiter_iteration32 agent s a t).2.2
      = { requests := t.requests ++ (arbiter_iteration32 agent s a ⟨[], []⟩).2.2.requests
          events := t.events ++ (arbiter_iteration32 agent s a ⟨[], []⟩).2.2.events } := by
  unfold arbiter_iteration32
  split <;> simp

/-- The trace of a run from the trace `t` is `t` followed by the trace of the same run
from the empty trace. -/
theorem arbiter_loop32_trace {σ : Type}
    (agent : σ → Nat → Message → σ × Option (List Char)) (fuel : Nat) :
    ∀ (s : Arbiter) (a : σ) (t : Trace),
      (arbiter_loop32 agent fuel s a t).2.2
        = { requests := t.requests ++ (arbiter_loop32 agent fuel s a ⟨[], []⟩).2.2.requests
            events := t.events ++ (arbiter_loop32 agent fuel s a ⟨[], []⟩).2.2.events } := by
  induction fuel with
  | zero => intro s a t; simp [arbiter_loop32]
  | succ fuel ih =>
    intro s a t
    simp only [arbiter_loop32]
    split
    · obtain ⟨h1, h2⟩ := arbiter_iteration32_state agent s a t ⟨[], []⟩
      rw [h1, h2, ih _ _ (arbiter_iteration32 agent s a t).2.2,
        ih _ _ (arbiter_iteration32 agent s a ⟨[], []⟩).2.2,
        arbiter_iteration32_trace agent s a t]
      simp only [List.append_assoc]
    · simp

theorem stuck_start :
    arbiter_loop32 children_agent 4 (arbiter_init 3 0) stuck_children ⟨[], []⟩
      = (stuck_state 1 5, stuck_hands, stuck_trace 0) := by
  decide

theorem wrap32_of_small (m : Nat) (hm : m ≤ 4294967292) (i : Nat) (h1 : 1 ≤ i)
    (h2 : i ≤ m) : wrap32 (5 + (i : Int)) ≠ 2 := by
  unfold wrap32
  omega

/-- The stuck run at an even number of iterations after the fourth. -/
theorem stuck_even (m : Nat) (hm : m ≤ 4294967292) :
    arbiter_loop32 children_agent (4 + 2 * m) (arbiter_init 3 0) stuck_children ⟨[], []⟩
      = (stuck_state 1 (wrap32 (5 + (m : Int))), stuck_hands, stuck_trace m) := by
  rw [arbiter_loop32_add, stuck_start]
  have h0 : (5 : Int) = wrap32 (5 + ((0 : Nat) : Int)) := by decide
  have := stuck_many 5 m (wrap32_of_small m hm)
  rw [← h0] at this
  exact this

/-- The stuck run at an odd number of iterations after the fourth. -/
theorem stuck_odd (m : Nat) (hm : m < 4294967292) :
    arbiter_loop32 children_agent (4 + 2 * m + 1) (arbiter_init 3 0) stuck_children ⟨[], []⟩
      = (stuck_state 0 (wrap32 (5 + ((m + 1 : Nat) : Int))), stuck_hands,
          stuck_trace (m + 1)) := by
  rw [arbiter_loop32_add, stuck_even m (by omega)]
  simp only
  rw [arbiter_loop32_one _ _ _ _ (by show (2 : Int) > 1; decide),
    stuck_pass _ _ (by
      rw [wrap32_succ]
      exact wrap32_of_small (m + 1) (by omega) (m + 1) (by omega) (Nat.le_refl _)),
    wrap32_succ, stuck_trace_succ]

/-- The end of the stuck run: the round counter has come round to 1, so the next request
is FIRST; agent 1 plays XX, agent 2 passes, and agent 1 answers COMPLETE. -/
theorem stuck_end :
    (arbiter_loop32 children_agent 1 (stuck_state 1 1) stuck_hands ⟨[], []⟩).1.remaining_players
      = 2 ∧
    (arbiter_loop32 children_agent 2 (stuck_state 1 1) stuck_hands ⟨[], []⟩).1.remaining_players
      = 2 ∧
    (arbiter_loop32 children_agent 3 (stuck_state 1 1) stuck_hands ⟨[], []⟩).1.remaining_players
      = 1 ∧
    (arbiter_loop32 children_agent 3 (stuck_state 1 1) stuck_hands ⟨[], []⟩).2.2.requests
      = [(1, ⟨Command.FIRST, []⟩, some ['X', 'X']),
          (2, ⟨Command.PLAY, ['X', 'X']⟩, some PASS),
          (1, ⟨Command.PLAY, D0⟩, some COMPLETE)] := by
  decide

theorem stuck_wrap : wrap32 (5 + ((4294967292 : Nat) : Int)) = 1 := by
  unfold wrap32
  omega

/-- The stuck run `k` iterations after the round counter has come round to 1. -/
theorem stuck_after (k : Nat) :
    arbiter_loop32 children_agent (4 + 2 * 4294967292 + k) (arbiter_init 3 0) stuck_children
        ⟨[], []⟩
      = arbiter_loop32 children_agent k (stuck_state 1 1) stuck_hands
          (stuck_trace 4294967292) := by
  rw [arbiter_loop32_add, stuck_even 4294967292 (Nat.le_refl _), stuck_wrap]

theorem stuck_trace_spec (m : Nat) :
    (stuck_trace m).requests.length = 4 + m ∧
    (stuck_trace m).requests[3]? = some (0, ⟨Command.PLAY, D0⟩, some COMPLETE) ∧
    ∀ x ∈ (stuck_trace m).requests.drop 4, x = (1, ⟨Command.PLAY, D0⟩, some PASS) := by
  refine ⟨?_, ?_, ?_⟩
  · simp only [stuck_trace, List.length_append, List.length_replicate, List.length_cons,
      List.length_nil]
  · simp [stuck_trace]
  · intro x hx
    simp only [stuck_trace, List.cons_append, List.nil_append, List.drop_succ_cons,
      List.drop_zero] at hx
    exact List.eq_of_mem_replicate hx

theorem stuck_before_start : ∀ k, k < 4 →
    (arbiter_loop32 children_agent k (arbiter_init 3 0) stuck_children
      ⟨[], []⟩).1.remaining_players > 1 := by
  decide

/-- C27 fails as stated: with the round counter of `big2.c` kept in 32 bits the game of
three players on the input D3 XX YY ends.  After 2^33 - 1 iterations of the parent loop
`remaining_players` is 1: the counter has come round to 2, the request to agent 1 was
FIRST, answered by the card XX, agent 2 passed, and agent 1 answered COMPLETE. -/
theorem three_players_finish_after_wrap :
    (arbiter_loop32 children_agent 8589934591 (arbiter_init 3 0) stuck_children
      ⟨[], []⟩).1.remaining_players = 1 ∧
    (arbiter_loop32 children_agent 8589934591 (arbiter_init 3 0) stuck_children
      ⟨[], []⟩).2.2.requests.drop 4294967296
      = [(1, ⟨Command.FIRST, []⟩, some ['X', 'X']),
          (2, ⟨Command.PLAY, ['X', 'X']⟩, some PASS),
          (1, ⟨Command.PLAY, D0⟩, some COMPLETE)] := by
  have hfuel : (8589934591 : Nat) = 4 + 2 * 4294967292 + 3 := by norm_num
  rw [hfuel, stuck_after 3]
  constructor
  · rw [(arbiter_loop32_state children_agent 3 _ _ (stuck_trace 4294967292) ⟨[], []⟩).1]
    exact stuck_end.2.2.1
  · rw [arbiter_loop32_trace]
    simp only
    rw [stuck_end.2.2.2]
    exact List.drop_left' (by rw [(stuck_trace_spec 4294967292).1])

/-- C27 (amended): in the game of three players on the input D3 XX YY the deal gives the
hands D3, XX and YY, and XX and YY have value 0, below the value 1 of D0.  With the round
counter kept in 32 bits, `remaining_players` stays above 1 for the first 2^33 - 2
iterations of the parent loop; from the fourth iteration, after which agent 0 has
answered COMPLETE, to iteration 2^33 - 4 it is 2, agents 1 and 2 hold XX and YY, and
every further request is PLAY with the cleared card D0 to agent 1, answered by PASS; from
iteration 2^33 - 1 on `remaining_players` is 1. -/
theorem three_players_stuck_until_wrap :
    setup 3 [D3, ['X', 'X'], ['Y', 'Y']]
      = Setup.started 0 (arbiter_init 3 0) stuck_children ∧
    get_card_value ['X', 'X'] = 0 ∧ get_card_value ['Y', 'Y'] = 0 ∧ get_card_value D0 = 1 ∧
    (∀ fuel, fuel < 8589934591 →
      (arbiter_loop32 children_agent fuel (arbiter_init 3 0) stuck_children
        ⟨[], []⟩).1.remaining_players > 1) ∧
    (∀ fuel, 4 ≤ fuel → fuel ≤ 8589934588 →
      (arbiter_loop32 children_agent fuel (arbiter_init 3 0) stuck_children
        ⟨[], []⟩).1.remaining_players = 2 ∧
      (arbiter_loop32 children_agent fuel (arbiter_init 3 0) stuck_children
        ⟨[], []⟩).1.completed = [true, false, false] ∧
      hand_of (arbiter_loop32 children_agent fuel (arbiter_init 3 0) stuck_children
        ⟨[], []⟩).2.1 1 = [['X', 'X']] ∧
      hand_of (arbiter_loop32 children_agent fuel (arbiter_init 3 0) stuck_children
        ⟨[], []⟩).2.1 2 = [['Y', 'Y']] ∧
      (arbiter_loop32 children_agent fuel (arbiter_init 3 0) stuck_children
        ⟨[], []⟩).2.2.requests[3]? = some (0, ⟨Command.PLAY, D0⟩, some COMPLETE) ∧
      ∀ x ∈ (arbiter_loop32 children_agent fuel (arbiter_init 3 0) stuck_children
          ⟨[], []⟩).2.2.requests.drop 4,
        x = (1, ⟨Command.PLAY, D0⟩, some PASS)) ∧
    ∀ more,
      (arbiter_loop32 children_agent (8589934591 + more) (arbiter_init 3 0) stuck_children
        ⟨[], []⟩).1.remaining_players = 1 := by
  have hstuck : ∀ fuel, 4 ≤ fuel → fuel ≤ 8589934588 →
      ∃ (turn : Nat) (r : Int) (m : Nat),
        arbiter_loop32 children_agent fuel (arbiter_init 3 0) stuck_children ⟨[], []⟩
          = (stuck_state turn r, stuck_hands, stuck_trace m) := by
    intro fuel h1 h2
    rcases Nat.even_or_odd' (fuel - 4) with ⟨m, hm | hm⟩
    · have e : fuel = 4 + 2 * m := by omega
      rw [e]
      exact ⟨_, _, _, stuck_even m (by omega)⟩
    · have e : fuel = 4 + 2 * m + 1 := by omega
      rw [e]
      exact ⟨_, _, _, stuck_odd m (by omega)⟩
  refine ⟨by decide, by decide, by decide, by decide, ?_, ?_, ?_⟩
  · intro fuel h
    by_cases h4 : fuel < 4
    · exact stuck_before_start fuel h4
    · by_cases h5 : fuel ≤ 8589934588
      · obtain ⟨turn, r, m, e⟩ := hstuck fuel (by omega) h5
        rw [e]
        show (2 : Int) > 1
        decide
      · have hk : fuel = 4 + 2 * 4294967292 + (fuel - 8589934588) := by omega
        rw [hk, stuck_after,
          (arbiter_loop32_state children_agent _ _ _ (stuck_trace 4294967292) ⟨[], []⟩).1]
        have hcases : fuel - 8589934588 = 1 ∨ fuel - 8589934588 = 2 := by omega
        rcases hcases with e | e
        · rw [e, stuck_end.1]; decide
        · rw [e, stuck_end.2.1]; decide
  · intro fuel h1 h2
    obtain ⟨turn, r, m, e⟩ := hstuck fuel h1 h2
    rw [e]
    obtain ⟨_, t1, t2⟩ := stuck_trace_spec m
    exact ⟨rfl, rfl, rfl, rfl, t1, t2⟩
  · intro more
    have hk : 8589934591 + more = 4 + 2 * 4294967292 + 3 + more := by omega
    rw [hk, arbiter_loop32_add, stuck_after 3]
    apply congrArg (fun (x : Arbiter × List Child × Trace) => x.1.remaining_players)
      (arbiter_loop32_of_exit children_agent more _ _ _ ?_) |>.trans
    · rw [(arbiter_loop32_state children_agent 3 _ _ (stuck_trace 4294967292) ⟨[], []⟩).1]
      exact stuck_end.2.2.1
    · rw [(arbiter_loop32_state children_agent 3 _ _ (stuck_trace 4294967292) ⟨[], []⟩).1,
        stuck_end.2.2.1]
      decide

/-! ### Parking bookings: capacity within the range of `int` -/

theorem covers_overlap {b nb : SPMS.Booking} {h : Int} (hb : SPMS.end_exact b)
    (hnb : SPMS.end_exact nb) (h1 : SPMS.covers b h = true)
    (h2 : SPMS.covers nb h = true) : SPMS.times_overlap b nb = true := by
  simp only [SPMS.covers, Bool.and_eq_true, decide_eq_true_eq] at h1 h2
  unfold SPMS.end_exact at hb hnb
  simp only [SPMS.times_overlap, Bool.and_eq_true, decide_eq_true_eq, hb, hnb]
  omega

theorem parking_load_le_count (bookings : List SPMS.Booking) (nb : SPMS.Booking) (h : Int)
    (hall : ∀ b ∈ bookings, SPMS.end_exact b) (hnb : SPMS.end_exact nb)
    (hc : SPMS.covers nb h = true) :
    SPMS.parking_load bookings nb.date h ≤ SPMS.count_parking bookings nb := by
  unfold SPMS.parking_load SPMS.count_parking
  apply List.countP_mono_left
  intro b hmem hb
  simp only [Bool.and_eq_true, decide_eq_true_eq] at hb ⊢
  obtain ⟨⟨⟨ha, hp⟩, hd⟩, hcov⟩ := hb
  exact ⟨⟨⟨ha, hd⟩, hp⟩, covers_overlap (hall b hmem) hnb hcov hc⟩

theorem essential_load_le_count (bookings : List SPMS.Booking) (nb : SPMS.Booking)
    (ess : List Char) (h : Int) (hall : ∀ b ∈ bookings, SPMS.end_exact b)
    (hnb : SPMS.end_exact nb) (hc : SPMS.covers nb h = true) :
    SPMS.essential_load bookings nb.date ess h ≤ SPMS.count_essential bookings nb ess := by
  unfold SPMS.essential_load SPMS.count_essential
  apply List.countP_mono_left
  intro b hmem hb
  simp only [Bool.and_eq_true, decide_eq_true_eq] at hb ⊢
  obtain ⟨⟨⟨ha, he⟩, hd⟩, hcov⟩ := hb
  exact ⟨⟨⟨ha, hd⟩, covers_overlap (hall b hmem) hnb hcov hc⟩, he⟩

/-- What an accepting `check_availability` has checked. -/
theorem check_availability_true (bookings : List SPMS.Booking) (nb : SPMS.Booking)
    (h : SPMS.check_availability bookings nb = true) :
    (nb.requires_parking = true →
      SPMS.count_parking bookings nb < SPMS.PARKING_CAPACITY) ∧
    ∀ ess, SPMS.essential_requested nb ess = true →
      SPMS.count_essential bookings nb ess < SPMS.ESSENTIAL_CAPACITY := by
  unfold SPMS.check_availability at h
  split_ifs at h with h1 h2 h3 h4
  refine ⟨fun hp => ?_, ?_⟩
  · by_contra hn
    exact h1 ⟨hp, by omega⟩
  · intro ess he
    simp only [SPMS.essential_requested, Bool.or_eq_true, Bool.and_eq_true,
      decide_eq_true_eq] at he
    by_contra hn
    rcases he with (⟨hl, e⟩ | ⟨hl, e⟩) | ⟨hl, e⟩
    · exact h2 ⟨hl, by rw [e]; omega⟩
    · exact h3 ⟨hl, by rw [e]; omega⟩
    · exact h4 ⟨hl, by rw [e]; omega⟩

theorem end_exact_of_range {x : Int} (h1 : -2147483648 ≤ x) (h2 : x ≤ 2147483647) :
    wrap32 x = x := by
  unfold wrap32
  omega

/-- Storing a booking whose end hour is in range keeps every hour within the
capacities. -/
theorem store_booking_capacity (bookings : List SPMS.Booking) (b : SPMS.Booking)
    (date : List Char) (h : Int) (hall : ∀ x ∈ bookings, SPMS.end_exact x)
    (hb : SPMS.end_exact b)
    (hp : SPMS.parking_load bookings date h ≤ SPMS.PARKING_CAPACITY)
    (he : ∀ ess, SPMS.essential_load bookings date ess h ≤ SPMS.ESSENTIAL_CAPACITY) :
    (∀ x ∈ SPMS.store_booking bookings b, SPMS.end_exact x) ∧
    SPMS.parking_load (SPMS.store_booking bookings b) date h ≤ SPMS.PARKING_CAPACITY ∧
    ∀ ess, SPMS.essential_load (SPMS.store_booking bookings b) date ess h
      ≤ SPMS.ESSENTIAL_CAPACITY := by
  refine ⟨?_, ?_, ?_⟩
  · intro x hx
    simp only [SPMS.store_booking, List.mem_append, List.mem_singleton] at hx
    rcases hx with hx | hx
    · exact hall x hx
    · rw [hx]; exact hb
  · simp only [SPMS.store_booking, SPMS.parking_load, List.countP_append, List.countP_cons,
      List.countP_nil, Nat.zero_add]
    split
    · rename_i hcond
      simp only [Bool.and_eq_true, decide_eq_true_eq] at hcond
      obtain ⟨⟨⟨ha, hreq⟩, hd⟩, hcov⟩ := hcond
      have hlt := (check_availability_true bookings b ha).1 hreq
      have hle := parking_load_le_count bookings b h hall hb hcov
      rw [hd] at hle
      unfold SPMS.parking_load at hle
      omega
    · exact hp
  · intro ess
    simp only [SPMS.store_booking, SPMS.essential_load, List.countP_append, List.countP_cons,
      List.countP_nil, Nat.zero_add]
    split
    · rename_i hcond
      simp only [Bool.and_eq_true, decide_eq_true_eq] at hcond
      obtain ⟨⟨⟨ha, hreq⟩, hd⟩, hcov⟩ := hcond
      have hlt := (check_availability_true bookings b ha).2 ess hreq
      have hle := essential_load_le_count bookings b ess h hall hb hcov
      rw [hd] at hle
      unfold SPMS.essential_load at hle
      omega
    · exact he ess

theorem process_command_capacity (bookings : List SPMS.Booking) (c : SPMS.Request)
    (date : List Char) (h : Int) (hall : ∀ x ∈ bookings, SPMS.end_exact x)
    (hc : SPMS.end_in_range c)
    (hp : SPMS.parking_load bookings date h ≤ SPMS.PARKING_CAPACITY)
    (he : ∀ ess, SPMS.essential_load bookings date ess h ≤ SPMS.ESSENTIAL_CAPACITY) :
    (∀ x ∈ SPMS.process_command bookings c, SPMS.end_exact x) ∧
    SPMS.parking_load (SPMS.process_command bookings c) date h ≤ SPMS.PARKING_CAPACITY ∧
    ∀ ess, SPMS.essential_load (SPMS.process_command bookings c) date ess h
      ≤ SPMS.ESSENTIAL_CAPACITY := by
  have hx : wrap32 (c.start_hour + c.duration) = c.start_hour + c.duration :=
    end_exact_of_range hc.1 hc.2
  unfold SPMS.process_command
  cases c.name
  · exact store_booking_capacity bookings _ date h hall hx hp he
  · exact store_booking_capacity bookings _ date h hall hx hp he
  · exact store_booking_capacity bookings _ date h hall hx hp he
  · exact store_booking_capacity bookings _ date h hall hx hp he

theorem process_commands_capacity (date : List Char) (h : Int) :
    ∀ (commands : List SPMS.Request) (bookings : List SPMS.Booking),
      (∀ c ∈ commands, SPMS.end_in_range c) →
      (∀ x ∈ bookings, SPMS.end_exact x) →
      SPMS.parking_load bookings date h ≤ SPMS.PARKING_CAPACITY →
      (∀ ess, SPMS.essential_load bookings date ess h ≤ SPMS.ESSENTIAL_CAPACITY) →
      SPMS.parking_load (SPMS.process_commands bookings commands) date h
        ≤ SPMS.PARKING_CAPACITY ∧
      ∀ ess, SPMS.essential_load (SPMS.process_commands bookings commands) date ess h
        ≤ SPMS.ESSENTIAL_CAPACITY := by
  intro commands
  induction commands with
  | nil => intro bookings _ _ hp he; exact ⟨hp, he⟩
  | cons c rest ih =>
    intro bookings hr hall hp he
    obtain ⟨h0, h1, h2⟩ := process_command_capacity bookings c date h hall
      (hr c (List.mem_cons_self _ _)) hp he
    exact ih _ (fun x hx => hr x (List.mem_cons_of_mem _ hx)) h0 h1 h2

/-- C29 (amended): after every command of a sequence of at most `MAX_BOOKINGS`
addParking, addReservation, addEvent and bookEssentials commands whose end hours
`start_hour + duration` are all within the range of a 32-bit `int`, for every date and
hour at most `PARKING_CAPACITY` accepted bookings that require a parking slot cover the
hour, and for every essential name at most `ESSENTIAL_CAPACITY` accepted bookings that
request it cover the hour. -/
theorem fcfs_within_capacity (commands : List SPMS.Request)
    (_hfit : commands.length ≤ SPMS.MAX_BOOKINGS)
    (hrange : ∀ c ∈ commands, SPMS.end_in_range c) (n : Nat) (date : List Char) (h : Int) :
    SPMS.parking_load (SPMS.process_commands [] (commands.take n)) date h
      ≤ SPMS.PARKING_CAPACITY ∧
    ∀ ess, SPMS.essential_load (SPMS.process_commands [] (commands.take n)) date ess h
      ≤ SPMS.ESSENTIAL_CAPACITY :=
  process_commands_capacity date h (commands.take n) []
    (fun c hc => hrange c (List.mem_of_mem_take hc)) (fun _ hx => by simp at hx)
    (Nat.zero_le _) (fun _ => Nat.zero_le _)

/-- Witness of C29 (amended): the eleven commands of `prio_input`, at hour 9 of their
date. -/
theorem fcfs_within_capacity_witness :
    SPMS.parking_load (SPMS.process_commands [] (SPMS.prio_input.take 11)) SPMS.may_10 9
      ≤ SPMS.PARKING_CAPACITY ∧
    ∀ ess, SPMS.essential_load (SPMS.process_commands [] (SPMS.prio_input.take 11))
      SPMS.may_10 ess 9 ≤ SPMS.ESSENTIAL_CAPACITY :=
  fcfs_within_capacity SPMS.prio_input (by decide) (by decide) 11 SPMS.may_10 9

/-- C29 fails when an end hour overflows: the eleven addParking commands of
`overflow_input` fit the booking array, each booking runs from hour 999 for 2147483520
hours, the end hours computed in 32 bits are negative, so no two bookings are found to
overlap, all eleven are accepted, and eleven accepted bookings that require a parking slot
cover hour 999, one more than `PARKING_CAPACITY`. -/
theorem fcfs_exceeds_capacity_on_overflow :
    SPMS.overflow_input.length ≤ SPMS.MAX_BOOKINGS ∧
    (∀ b ∈ SPMS.process_commands [] SPMS.overflow_input,
      b.accepted = true ∧ b.requires_parking = true ∧ b.date = SPMS.may_10 ∧
        SPMS.covers b 999 = true ∧ wrap32 (b.start_hour + b.duration) = -2147482777) ∧
    SPMS.parking_load (SPMS.process_commands [] SPMS.overflow_input) SPMS.may_10 999 = 11 ∧
    ¬ SPMS.parking_load (SPMS.process_commands [] SPMS.overflow_input) SPMS.may_10 999
      ≤ SPMS.PARKING_CAPACITY := by
  decide

/-! ### The round counter in 32 bits and without a bound -/

theorem wrap32_of_range {x : Int} (h1 : -2147483648 ≤ x) (h2 : x ≤ 2147483647) :
    wrap32 x = x := by
  unfold wrap32
  omega

theorem arbiter_iteration_round {σ : Type}
    (agent : σ → Nat → Message → σ × Option (List Char)) (s : Arbiter) (a : σ) (t : Trace) :
    (arbiter_iteration agent s a t).1.round = s.round ∨
    (arbiter_iteration agent s a t).1.round = s.round + 1 := by
  unfold arbiter_iteration
  split
  · left; rfl
  · right
    exact (arbiter_respond_fields (next_round s) _).2.1

theorem arbiter_iteration32_eq {σ : Type}
    (agent : σ → Nat → Message → σ × Option (List Char)) (s : Arbiter) (a : σ) (t : Trace)
    (h1 : 1 ≤ s.round) (h2 : s.round + 1 ≤ 2147483647) :
    arbiter_iteration32 agent s a t = arbiter_iteration agent s a t := by
  have e : next_round32 s = next_round s := by
    unfold next_round32 next_round
    rw [wrap32_of_range (by omega) h2]
  unfold arbiter_iteration32 arbiter_iteration
  rw [e]

/-- While the round counter stays within the range of `int` the loop with the 32-bit
counter is the loop with the counter without a bound. -/
theorem arbiter_loop32_eq {σ : Type}
    (agent : σ → Nat → Message → σ × Option (List Char)) (fuel : Nat) :
    ∀ (s : Arbiter) (a : σ) (t : Trace), 1 ≤ s.round →
      s.round + (fuel : Int) ≤ 2147483647 →
      arbiter_loop32 agent fuel s a t = arbiter_loop agent fuel s a t := by
  induction fuel with
  | zero => intro s a t _ _; rfl
  | succ fuel ih =>
    intro s a t h1 h2
    simp only [arbiter_loop32, arbiter_loop]
    push_cast at h2
    rw [arbiter_iteration32_eq agent s a t h1 (by omega)]
    split
    · apply ih
      · rcases arbiter_iteration_round agent s a t with e | e <;> rw [e] <;> omega
      · rcases arbiter_iteration_round agent s a t with e | e <;> rw [e] <;> omega
    · rfl

/-- Runs from the initial state of at most 2^31 - 2 iterations are the same with the
32-bit round counter and with the counter without a bound. -/
theorem game_run32_eq {σ : Type}
    (agent : σ → Nat → Message → σ × Option (List Char)) (N sp : Nat) (a : σ) (fuel : Nat)
    (h : fuel ≤ 2147483646) :
    arbiter_loop32 agent fuel (arbiter_init N sp) a ⟨[], []⟩ = game_run agent N sp a fuel := by
  unfold game_run
  apply arbiter_loop32_eq
  · show (1 : Int) ≤ 1
    decide
  · show (1 : Int) + (fuel : Int) ≤ 2147483647
    omega

end Big2
